import Mathlib

/-!
# senseye `sense_mfile`: tiles, diff tile and grid

A shallow embedding of `src/senses/sense_mfile.c`.

* `size_t` values are natural numbers; the sums the code forms from the byte
  offset (`pos + ntw * step`, `map_sz + ntw * step`, `pos + step`) are reduced
  modulo `SIZE_MOD = 2 ^ 64` as the machine does.  Canvas coordinates and
  indices (`row * pitch + col`) address an existing buffer and stay unreduced.
* A mapped file is the list of its bytes; the pointer `map + pos` is the list
  with its first `pos` bytes dropped, and reading a byte the list does not
  have is the failure `none`.
* The video buffer `vidp` is a function from the flat index to the pixel.
* The `float` computations of `draw_dtile` and `resize_base` are carried out
  exactly, as correctly rounded binary32 operations on naturals.
-/

namespace Mfile

/-! ## Data model -/

/-- Number of values of a 64-bit `size_t`. -/
def SIZE_MOD : Nat := 2 ^ 64

/-- Modelled from the spec: `shmif_pixel` and the `RGBA` packing come from
arcan_shmif.h, which is not among the sources; a pixel is kept as its four
channels red, green, blue, alpha. -/
structure shmif_pixel where
  r : Nat
  g : Nat
  b : Nat
  a : Nat
deriving DecidableEq

/-- Modelled from the spec: the `RGBA(r, g, b, a)` constructor of arcan_shmif.h. -/
def RGBA (r g b a : Nat) : shmif_pixel := ⟨r, g, b, a⟩

/-- Field `color.border`. -/
def color_border : shmif_pixel := RGBA 0xff 0x00 0x00 0xff

/-- Field `color.pad`. -/
def color_pad : shmif_pixel := RGBA 0x00 0x00 0x00 0xff

/-- Field `color.diff`. -/
def color_diff : shmif_pixel := RGBA 0x00 0xff 0x00 0xff

/-- Field `color.match`. -/
def color_match : shmif_pixel := RGBA 0x00 0x00 0x00 0xff

/-- The `enum pack_mode`. -/
inductive pack_mode where
  | PACK_INTENS
  | PACK_TIGHT
  | PACK_TNOALPHA
deriving DecidableEq

/-- The table `pack_szlut`: bytes consumed per pixel. -/
def pack_szlut : pack_mode → Nat
  | .PACK_INTENS => 1
  | .PACK_TIGHT => 4
  | .PACK_TNOALPHA => 3

/-- The `struct ent`: a mapped file; `map_sz` is the length of the mapping. -/
structure ent where
  map : List (Fin 256)

/-- Field `map_sz` of `struct ent`. -/
def ent.map_sz (e : ent) : Nat := e.map.length

/-- The part of `struct arcan_shmif_cont` the renderer uses. -/
structure arcan_shmif_cont where
  vidp : Nat → shmif_pixel
  pitch : Nat
  w : Nat
  h : Nat

/-- The store `vidp[i] = px`. -/
def vid_store (v : Nat → shmif_pixel) (i : Nat) (px : shmif_pixel) : Nat → shmif_pixel :=
  fun j => if j = i then px else v j

/-! ## `pack_pixel` -/

/-- The function `pack_pixel(mode, buf)`; `buf` is the list of bytes from the
pointer on, and a byte beyond the mapping makes the read fail.  The trailing
`RGBA(0xde, 0xad, 0xbe, 0xef)` of the source is not reachable for the three
values of the enumeration. -/
def pack_pixel (mode : pack_mode) (buf : List (Fin 256)) : Option shmif_pixel :=
  match mode, buf with
  | .PACK_INTENS, b0 :: _ => some (RGBA b0.val b0.val b0.val 0xff)
  | .PACK_TIGHT, b0 :: b1 :: b2 :: b3 :: _ => some (RGBA b0.val b1.val b2.val b3.val)
  | .PACK_TNOALPHA, b0 :: b1 :: b2 :: _ => some (RGBA b0.val b1.val b2.val 0xff)
  | _, _ => none

/-! ## `draw_tile` -/

/-- The number `ntw` of pixels `draw_tile` packs, as computed before its loops. -/
def draw_tile_ntw (e : ent) (pos : Nat) (mode : pack_mode) (base : Nat) : Nat :=
  let ntw := (base * base) % SIZE_MOD
  let step := pack_szlut mode
  let span := (ntw * step) % SIZE_MOD
  let end_ := (pos + span) % SIZE_MOD
  if end_ > e.map_sz then
    if end_ > (e.map_sz + span) % SIZE_MOD then 0
    else ((e.map_sz + SIZE_MOD - pos) % SIZE_MOD) / step
  else ntw

/-- Inner loop of the first pass of `draw_tile`,
`for (col = x; col < col_lim && ntw; col++, ntw--, buf += step)`;
the first argument is the number of columns left, `col_lim - col`. -/
def draw_tile_cols (mode : pack_mode) (step pitch row : Nat) :
    Nat → Nat → Nat → List (Fin 256) → (Nat → shmif_pixel) →
      Option (Nat × List (Fin 256) × (Nat → shmif_pixel))
  | 0, _, ntw, buf, v => some (ntw, buf, v)
  | n + 1, col, ntw, buf, v =>
    if ntw = 0 then some (ntw, buf, v)
    else
      match pack_pixel mode buf with
      | none => none
      | some px =>
        draw_tile_cols mode step pitch row n (col + 1) (ntw - 1) (buf.drop step)
          (vid_store v (row * pitch + col) px)

/-- Outer loop of the first pass of `draw_tile`, `for (; row < row_lim && ntw; row++)`;
the first argument is the number of rows left, `row_lim - row`.  The result
carries the value of `row` at which the loop stops. -/
def draw_tile_rows (mode : pack_mode) (step pitch x col_lim : Nat) :
    Nat → Nat → Nat → List (Fin 256) → (Nat → shmif_pixel) →
      Option (Nat × (Nat → shmif_pixel))
  | 0, row, _, _, v => some (row, v)
  | m + 1, row, ntw, buf, v =>
    if ntw = 0 then some (row, v)
    else
      match draw_tile_cols mode step pitch row (col_lim - x) x ntw buf v with
      | none => none
      | some (ntw1, buf1, v1) =>
        draw_tile_rows mode step pitch x col_lim m (row + 1) ntw1 buf1 v1

/-- Inner loop of the second pass of `draw_tile`,
`for (col = x; col < col_lim; col++)`, storing opaque black. -/
def draw_tile_pad_cols (pitch row : Nat) :
    Nat → Nat → (Nat → shmif_pixel) → (Nat → shmif_pixel)
  | 0, _, v => v
  | n + 1, col, v =>
    draw_tile_pad_cols pitch row n (col + 1)
      (vid_store v (row * pitch + col) (RGBA 0x00 0x00 0x00 0xff))

/-- Outer loop of the second pass of `draw_tile`, `for (; row < row_lim; row++)`. -/
def draw_tile_pad_rows (pitch x col_lim : Nat) :
    Nat → Nat → (Nat → shmif_pixel) → (Nat → shmif_pixel)
  | 0, _, v => v
  | m + 1, row, v =>
    draw_tile_pad_rows pitch x col_lim m (row + 1)
      (draw_tile_pad_cols pitch row (col_lim - x) x v)

/-- The function `draw_tile(dst, ent, pos, x, y, mode, base)`. -/
def draw_tile (dst : arcan_shmif_cont) (e : ent) (pos x y : Nat)
    (mode : pack_mode) (base : Nat) : Option arcan_shmif_cont :=
  let ntw := draw_tile_ntw e pos mode base
  let step := pack_szlut mode
  let row_lim := base + y
  let col_lim := base + x
  let buf := e.map.drop pos
  match draw_tile_rows mode step dst.pitch x col_lim (row_lim - y) y ntw buf dst.vidp with
  | none => none
  | some (row, v) =>
    some { dst with vidp := draw_tile_pad_rows dst.pitch x col_lim (row_lim - row) row v }

/-- The pixel count of the specification: the full windows left in the source
from `pos` on, at most `base * base` (the subtraction stops at zero). -/
def available (e : ent) (pos : Nat) (mode : pack_mode) (base : Nat) : Nat :=
  min (base * base) ((e.map_sz - pos) / pack_szlut mode)

/-! ## Binary32 arithmetic

`draw_dtile` and `resize_base` compute in `float`.  The values that occur are
non-negative, and the operations used (conversion of an integer, division,
square root) are correctly rounded in IEEE 754: the exact result is rounded
to 24 significant bits, to nearest, ties to even.  These are computed here
exactly over the naturals; exponents stay far inside the binary32 range for
64-bit operands. -/

/-- Number of binary digits of the second argument, the first bounding the recursion. -/
def bit_len_aux : Nat → Nat → Nat
  | 0, _ => 0
  | f + 1, n => if n = 0 then 0 else bit_len_aux f (n / 2) + 1

/-- Number of binary digits of `n`: `2 ^ (bit_len n - 1) ≤ n < 2 ^ bit_len n` for `n > 0`. -/
def bit_len (n : Nat) : Nat := bit_len_aux n n

/-- Search of the integer square root bit by bit: the first argument is the
number of bits still to decide, the last the root found so far. -/
def isqrt_aux : Nat → Nat → Nat → Nat
  | 0, _, acc => acc
  | k + 1, n, acc =>
    isqrt_aux k n (if (acc + 2 ^ k) * (acc + 2 ^ k) ≤ n then acc + 2 ^ k else acc)

/-- Integer square root: `isqrt n * isqrt n ≤ n < (isqrt n + 1) * (isqrt n + 1)`. -/
def isqrt (n : Nat) : Nat := isqrt_aux (bit_len n) n 0

/-- A non-negative binary floating value, `num / den` with `den` a power of two. -/
structure dyadic where
  num : Nat
  den : Nat

/-- The conversion `(float)n` of a non-negative integer.  The result is again
an integer. -/
def f32_of_nat (n : Nat) : Nat :=
  let l := bit_len n
  if l ≤ 24 then n
  else
    let sh := l - 24
    let q := n / 2 ^ sh
    let r := n % 2 ^ sh
    let half := 2 ^ (sh - 1)
    let q1 := if r > half ∨ (r = half ∧ q % 2 = 1) then q + 1 else q
    q1 * 2 ^ sh

/-- The binary32 sum `v + 1` for an integer-valued `v ≤ 2 ^ 24`: exact below
`2 ^ 24`, and `2 ^ 24 + 1` rounds back to `2 ^ 24`. -/
def f32_add_one (v : Nat) : Nat := if v < 2 ^ 24 then v + 1 else v

/-- The binary32 quotient `a / b` of two integer-valued floats, `b > 0`.
The exact quotient scaled by `2 ^ (24 + bit_len b - bit_len a)` lies between
`2 ^ 23` and `2 ^ 25`; `c` halves the scale when it reaches `2 ^ 24`, then the
scaled quotient `t` has 24 bits and is rounded on the remainder `r`. -/
def f32_div (a b : Nat) : dyadic :=
  let la := bit_len a
  let lb := bit_len b
  let p := a * 2 ^ (24 + lb)
  let q := b * 2 ^ la
  let c := if p / q ≥ 2 ^ 24 then 1 else 0
  let q1 := q * 2 ^ c
  let t := p / q1
  let r := p % q1
  let m := if 2 * r > q1 ∨ (2 * r = q1 ∧ t % 2 = 1) then t + 1 else t
  ⟨m * 2 ^ (la + c), 2 ^ (24 + lb)⟩

/-- The binary32 square root `sqrtf(v)` of an integer-valued float.  With `h`
the number of bits of the integer root, the root scaled by `2 ^ (24 - h)` has
24 bits before the point; it is rounded up exactly when it exceeds the
midpoint `t + 1/2` (a root is never on a midpoint while `h ≤ 24`). -/
def f32_sqrt (v : Nat) : dyadic :=
  let s := isqrt v
  let h := bit_len s
  if h ≤ 24 then
    let e := 24 - h
    let t := isqrt (v * 4 ^ e)
    let m := if v * 4 ^ e > t * t + t then t + 1 else t
    ⟨m, 2 ^ e⟩
  else
    let d := h - 24
    let t := s / 2 ^ d
    let mid := (2 * t + 1) * 2 ^ (d - 1)
    let m := if v > mid * mid ∨ (v = mid * mid ∧ t % 2 = 1) then t + 1 else t
    ⟨m * 2 ^ d, 1⟩

/-- The integer that `ceil(x)` converts to. -/
def ceil_to_int (x : dyadic) : Nat := (x.num + x.den - 1) / x.den

/-- The integer channel that `255.0 * x` converts to: the product is exact in
binary64 and the conversion drops the fraction. -/
def scale255_to_int (x : dyadic) : Nat := 255 * x.num / x.den

/-! ## `draw_dtile` -/

/-- One entry of `pxbuf`:
`pos+step >= ents[i].map_sz ? color.pad : pack_pixel(mode, ents[i].map + pos)`. -/
def draw_dtile_px (mode : pack_mode) (step pos : Nat) (e : ent) : Option shmif_pixel :=
  if (pos + step) % SIZE_MOD ≥ e.map_sz then some color_pad
  else pack_pixel mode (e.map.drop pos)

/-- The loop `for (i = 0; i < n_ents; i++) pxbuf[i] = ...`. -/
def draw_dtile_pxbuf (mode : pack_mode) (step pos : Nat) : List ent → Option (List shmif_pixel)
  | [] => some []
  | e :: es =>
    match draw_dtile_px mode step pos e with
    | none => none
    | some px =>
      match draw_dtile_pxbuf mode step pos es with
      | none => none
      | some pxs => some (px :: pxs)

/-- The loop `for (i = 1; i < n_ents; i++) n_delta += pxbuf[i] != pxbuf[0] ? 1 : 0`
over `pxbuf[1..]`, the float `n_delta` kept as the integer it holds. -/
def draw_dtile_n_delta (p0 : shmif_pixel) : List shmif_pixel → Nat → Nat
  | [], n_delta => n_delta
  | p :: ps, n_delta =>
    draw_dtile_n_delta p0 ps (if p ≠ p0 then f32_add_one n_delta else n_delta)

/-- The value of `n_delta` after the loop, starting from `float n_delta = 0`
and comparing with `pxbuf[0]`. -/
def draw_dtile_count : List shmif_pixel → Nat
  | [] => 0
  | p0 :: ps => draw_dtile_n_delta p0 ps 0

/-- The pixel stored for one window:
`n_delta ? RGBA(0x00, 255.0 * (n_delta / (float)n_ents), 0x00, 0xff) : color.match`. -/
def draw_dtile_color (pxbuf : List shmif_pixel) (n_ents : Nat) : shmif_pixel :=
  let n_delta := draw_dtile_count pxbuf
  if n_delta ≠ 0 then
    RGBA 0x00 (scale255_to_int (f32_div n_delta (f32_of_nat n_ents))) 0x00 0xff
  else color_match

/-- The body of the inner loop of `draw_dtile`: the pixel computed for the
window at `pos`. -/
def draw_dtile_at (mode : pack_mode) (step : Nat) (ents : List ent) (pos : Nat) :
    Option shmif_pixel :=
  match draw_dtile_pxbuf mode step pos ents with
  | none => none
  | some pxbuf => some (draw_dtile_color pxbuf ents.length)

/-- Inner loop of `draw_dtile`, `for (col = x; col < x+base; col++, pos += step)`;
the first argument is the number of columns left. -/
def draw_dtile_cols (mode : pack_mode) (step pitch row : Nat) (ents : List ent) :
    Nat → Nat → Nat → (Nat → shmif_pixel) → Option (Nat × (Nat → shmif_pixel))
  | 0, _, pos, v => some (pos, v)
  | n + 1, col, pos, v =>
    match draw_dtile_at mode step ents pos with
    | none => none
    | some px =>
      draw_dtile_cols mode step pitch row ents n (col + 1) ((pos + step) % SIZE_MOD)
        (vid_store v (row * pitch + col) px)

/-- Outer loop of `draw_dtile`, `for (row = y; row < y+base; row++)`;
the first argument is the number of rows left. -/
def draw_dtile_rows (mode : pack_mode) (step pitch x base : Nat) (ents : List ent) :
    Nat → Nat → Nat → (Nat → shmif_pixel) → Option (Nat → shmif_pixel)
  | 0, _, _, v => some v
  | m + 1, row, pos, v =>
    match draw_dtile_cols mode step pitch row ents (x + base - x) x pos v with
    | none => none
    | some (pos1, v1) => draw_dtile_rows mode step pitch x base ents m (row + 1) pos1 v1

/-- The function `draw_dtile(dst, ents, n_ents, pos, x, y, mode, base)`;
`n_ents` is the length of `ents`. -/
def draw_dtile (dst : arcan_shmif_cont) (ents : List ent) (pos x y : Nat)
    (mode : pack_mode) (base : Nat) : Option arcan_shmif_cont :=
  let step := pack_szlut mode
  match draw_dtile_rows mode step dst.pitch x base ents (y + base - y) y pos dst.vidp with
  | none => none
  | some v => some { dst with vidp := v }

/-- The count of the specification: the sources with index at least 1 whose
pixel differs from the pixel of source 0. -/
def mismatches : List shmif_pixel → Nat
  | [] => 0
  | p0 :: ps => ps.countP (fun p => decide (p ≠ p0))

/-! ## `resize_base` -/

/-- The local `npr` of `resize_base`: `ceil(sqrtf(n))`. -/
def resize_base_npr (n : Nat) : Nat := ceil_to_int (f32_sqrt (f32_of_nat n))

/-- The local `nr` of `resize_base`: `ceil((float)n / (float)npr)`, for
`n ≥ 1` (for `n = 0` the source divides zero by zero). -/
def resize_base_nr (n : Nat) : Nat :=
  ceil_to_int (f32_div (f32_of_nat n) (f32_of_nat (resize_base_npr n)))

/-- The difference `a - b` of two `size_t` values (it wraps when `a < b`). -/
def size_sub (a b : Nat) : Nat := if b ≤ a then a - b else a + SIZE_MOD - b

/-- The width and height `resize_base` passes to `arcan_shmif_resize`,
`(npr * (base + border)) - border` and `nr * (base+border) - border`.  The
`int` values `npr` and `nr` are converted to `size_t` for the product, and the
sum, the product and the difference are those of `size_t`: they wrap at
`2 ^ 64`. -/
def resize_base_dims (base n border : Nat) : Nat × Nat :=
  (size_sub ((resize_base_npr n * ((base + border) % SIZE_MOD)) % SIZE_MOD) border,
   size_sub ((resize_base_nr n * ((base + border) % SIZE_MOD)) % SIZE_MOD) border)

/-! ## `refresh_data` -/

/-- Modelled from the spec: `draw_box(dst, x, y, w, h, col)` of font_8x8.h,
which is not among the sources.  It fills the rectangle of width `w` and
height `h` at `(x, y)`, clipped to the canvas, with the colour and leaves all
other pixels as they are; the result is the new content of `vidp`. -/
def draw_box_fill (dst : arcan_shmif_cont) (x y w h : Nat) (col : shmif_pixel) :
    Nat → shmif_pixel :=
  fun i =>
    if y ≤ i / dst.pitch ∧ i / dst.pitch < y + h ∧ i / dst.pitch < dst.h
        ∧ x ≤ i % dst.pitch ∧ i % dst.pitch < x + w ∧ i % dst.pitch < dst.w then col
    else dst.vidp i

/-- The loop of `refresh_data`,
`for (size_t i = 0; i < n_entries && y <= dst->h - base; i++)`, over the
entries still to draw.  `draw_box` (not among the sources) is a parameter
giving the pixels after a call.  The sums and differences on `x` and `y` are
those of `size_t` and wrap at `2 ^ 64`.  Beside the canvas the result lists
the `(x, y)` of every call of `draw_tile`, in order. -/
def refresh_data_loop
    (draw_box : arcan_shmif_cont → Nat → Nat → Nat → Nat → shmif_pixel → (Nat → shmif_pixel))
    (base : Nat) (mode : pack_mode) (pos border : Nat) :
    List ent → Nat → Nat → arcan_shmif_cont → Option (arcan_shmif_cont × List (Nat × Nat))
  | [], _, _, dst => some (dst, [])
  | e :: es, x, y, dst =>
    if y ≤ size_sub dst.h base then
      match draw_tile dst e pos x y mode base with
      | none => none
      | some d1 =>
        let x1 := (x + base + border) % SIZE_MOD
        let next : Nat × Nat × arcan_shmif_cont :=
          if (x1 + base) % SIZE_MOD > d1.w then
            (0, (y + (base + border) % SIZE_MOD) % SIZE_MOD,
              if border ≠ 0 then
                { d1 with
                  vidp := (draw_box d1 0 ((y + base) % SIZE_MOD) d1.w border color_border) }
              else d1)
          else
            (x1, y,
              if border ≠ 0 then
                { d1 with vidp := (draw_box d1 (size_sub x1 border) y border base color_border) }
              else d1)
        match refresh_data_loop draw_box base mode pos border es next.1 next.2.1 next.2.2 with
        | none => none
        | some (out, places) => some (out, (x, y) :: places)
    else some (dst, [])

/-- The function `refresh_data(dst, entries, n_entries, base, mode, pos, border)`
up to its two calls into the transport (`arcan_shmif_enqueue`,
`arcan_shmif_signal`); `n_entries` is the length of `entries`. -/
def refresh_data
    (draw_box : arcan_shmif_cont → Nat → Nat → Nat → Nat → shmif_pixel → (Nat → shmif_pixel))
    (dst : arcan_shmif_cont) (entries : List ent) (base : Nat) (mode : pack_mode)
    (pos border : Nat) : Option (arcan_shmif_cont × List (Nat × Nat)) :=
  refresh_data_loop draw_box base mode pos border entries 0 0 dst

/-! ## `main`: argument check and event loop -/

/-- The test of `main` on the number of file arguments,
`optind >= argc - 1 || (argc - optind) > 256`: when true, `main` prints the
error and returns through `usage`. -/
def main_args_rejected (argc optind : Int) : Bool :=
  decide (optind ≥ argc - 1) || decide (argc - optind > 256)

/-- The local `difftile` of `main` after the options are read: it starts as
`true`, and the option `d` assigns `true` to it. -/
def main_difftile (opt_d : Bool) : Bool := if opt_d then true else true

/-- The width and height `main` asks for before its event loop:
`resize_base(&cont, base, n_ent, border)` with `base = 64`. -/
def main_startup_dims (n_ent border : Nat) : Nat × Nat := resize_base_dims 64 n_ent border

/-- Conversion of a signed value (`off_t`, `int`) to `size_t`. -/
def to_size_t (i : Int) : Nat := (i % (SIZE_MOD : Int)).toNat

/-- Conversion of a `size_t` value to `off_t`: values from `2 ^ 63` on become
negative. -/
def to_off_t (n : Nat) : Int :=
  if n % SIZE_MOD < 2 ^ 63 then ((n % SIZE_MOD : Nat) : Int)
  else ((n % SIZE_MOD : Nat) : Int) - (SIZE_MOD : Int)

/-- The locals of `main` that the event loop reads and updates: `ofs`
(an `off_t`), `base`, `pack_mode`, `small_step`, `large_step`. -/
structure nav_state where
  ofs : Int
  base : Nat
  pack_mode : pack_mode
  small_step : Nat
  large_step : Nat
deriving DecidableEq

/-- The state of `main` before its event loop. -/
def nav_init : nav_state :=
  { ofs := 0, base := 64, pack_mode := .PACK_INTENS, small_step := 64, large_step := 64 * 64 }

/-- The values of a state fit their C types: `ofs` a 64-bit `off_t`, the
others `size_t`. -/
def nav_state.fits (st : nav_state) : Prop :=
  -(2 : Int) ^ 63 ≤ st.ofs ∧ st.ofs < (2 : Int) ^ 63 ∧ st.base < SIZE_MOD
    ∧ st.small_step < SIZE_MOD ∧ st.large_step < SIZE_MOD

/-- The events the loop of `main` distinguishes.  `iv` is `ev.tgt.ioevs[0].iv`;
the number of `CSTEP` and `STEP_ALIGN` is what `strtoul` returns for the
digits after the label prefix. -/
inductive event where
  | DISPLAYHINT (iv : Int)
  | NEWSEGMENT
  | STEPFRAME (iv : Int)
  | GRAPHMODE (iv : Int)
  | STEP_BYTE
  | STEP_PIXEL
  | STEP_ROW
  | STEP_HALFPAGE
  | STEP_PAGE
  | CSTEP (n : Nat)
  | STEP_ALIGN (n : Nat)
  | other

/-- The width and height the `TARGET_COMMAND_DISPLAYHINT` branch asks for:
`resize_base(&cont, lb, n_ent + (difftile?1:0), border)`. -/
def displayhint_dims (n_ent border : Nat) (difftile : Bool) (lb : Nat) : Nat × Nat :=
  resize_base_dims lb (n_ent + (if difftile then 1 else 0)) border

/-- The mode with the number `i` of the enumeration. -/
def pack_mode_of (i : Int) : pack_mode :=
  if i = 0 then .PACK_INTENS else if i = 1 then .PACK_TIGHT else .PACK_TNOALPHA

/-- One pass of the event loop of `main` over the locals it updates.
`arcan_shmif_resize w h` tells whether the display side grants a canvas of
that size; the drawing (`REFRESH`) and the messages to the display side do
not touch these locals and are left out. -/
def main_step (arcan_shmif_resize : Nat → Nat → Bool) (n_ent border : Nat) (difftile : Bool)
    (st : nav_state) : event → nav_state
  | .DISPLAYHINT iv =>
    let lb := to_size_t iv
    if lb > 0 ∧ lb &&& (lb - 1) = 0
        ∧ arcan_shmif_resize (displayhint_dims n_ent border difftile lb).1
            (displayhint_dims n_ent border difftile lb).2 = true then
      { st with
        small_step := if st.small_step = st.base then lb else st.small_step
        large_step :=
          if st.large_step = (st.base * st.base) % SIZE_MOD then (lb * lb) % SIZE_MOD
          else st.large_step
        base := lb }
    else st
  | .NEWSEGMENT => st
  | .STEPFRAME iv =>
    let small := st.small_step
    let large := (st.large_step * pack_szlut st.pack_mode) % SIZE_MOD
    if iv = -1 then
      { st with ofs := if to_size_t st.ofs > small then to_off_t (size_sub (to_size_t st.ofs) small)
                       else 0 }
    else if iv = -2 then
      { st with ofs := if to_size_t st.ofs > large then to_off_t (size_sub (to_size_t st.ofs) large)
                       else 0 }
    else if iv = 1 then { st with ofs := to_off_t (to_size_t st.ofs + small) }
    else if iv = 2 then { st with ofs := to_off_t (to_size_t st.ofs + large) }
    else st
  | .GRAPHMODE iv =>
    if iv ≥ 20 ∧ iv ≤ 22 then { st with pack_mode := pack_mode_of (iv - 20) } else st
  | .STEP_BYTE => { st with small_step := 1 }
  | .STEP_PIXEL => { st with small_step := pack_szlut st.pack_mode }
  | .STEP_ROW => { st with small_step := st.base }
  | .STEP_HALFPAGE => { st with large_step := ((st.base * st.base) % SIZE_MOD) / 2 }
  | .STEP_PAGE => { st with large_step := (st.base * st.base) % SIZE_MOD }
  | .CSTEP n =>
    let sz := n % 2 ^ 32
    if sz > 0 then { st with small_step := sz } else st
  | .STEP_ALIGN n =>
    let align := n
    if align ≠ 0 ∧ to_size_t st.ofs > align then
      if to_size_t st.ofs % align ≠ 0 then
        { st with ofs := to_off_t (size_sub (to_size_t st.ofs) (to_size_t st.ofs % align)) }
      else st
    else st
  | .other => st

/-- The event loop of `main` over a list of events. -/
def main_run (arcan_shmif_resize : Nat → Nat → Bool) (n_ent border : Nat) (difftile : Bool) :
    nav_state → List event → nav_state
  | st, [] => st
  | st, ev :: evs =>
    main_run arcan_shmif_resize n_ent border difftile
      (main_step arcan_shmif_resize n_ent border difftile st ev) evs

/-! ## Lemmas on `pack_pixel` and the loops of `draw_tile` -/

theorem pack_pixel_of_le (mode : pack_mode) (buf : List (Fin 256))
    (h : pack_szlut mode ≤ buf.length) : ∃ px, pack_pixel mode buf = some px := by
  rcases buf with _ | ⟨b0, _ | ⟨b1, _ | ⟨b2, _ | ⟨b3, t⟩⟩⟩⟩ <;> cases mode <;>
    simp [pack_szlut, pack_pixel] at h ⊢

theorem pack_szlut_pos (mode : pack_mode) : 0 < pack_szlut mode := by
  cases mode <;> simp [pack_szlut]

theorem draw_tile_cols_spec (mode : pack_mode) (map : List (Fin 256)) (pitch row : Nat) :
    ∀ (n col ntw p : Nat) (v : Nat → shmif_pixel),
      (∀ j, j < min n ntw → p + j * pack_szlut mode + pack_szlut mode ≤ map.length) →
      ∃ v1, draw_tile_cols mode (pack_szlut mode) pitch row n col ntw (map.drop p) v
          = some (ntw - min n ntw, map.drop (p + min n ntw * pack_szlut mode), v1)
        ∧ (∀ j, j < min n ntw →
            pack_pixel mode (map.drop (p + j * pack_szlut mode))
              = some (v1 (row * pitch + col + j)))
        ∧ (∀ i, (i < row * pitch + col ∨ row * pitch + col + min n ntw ≤ i) → v1 i = v i) := by
  intro n
  induction n with
  | zero =>
    intro col ntw p v _
    exact ⟨v, by simp [draw_tile_cols], by simp, by simp⟩
  | succ n ih =>
    intro col ntw p v hb
    rcases Nat.eq_zero_or_pos ntw with h0 | hpos
    · subst h0
      exact ⟨v, by simp [draw_tile_cols], by simp, by simp⟩
    · obtain ⟨t, rfl⟩ : ∃ t, ntw = t + 1 := ⟨ntw - 1, by omega⟩
      have hmin : min (n + 1) (t + 1) = min n t + 1 := by omega
      have h0 := hb 0 (by omega)
      obtain ⟨px, hpx⟩ := pack_pixel_of_le mode (map.drop p) (by
        simp only [List.length_drop]; omega)
      obtain ⟨v1, hv1, hpk, hun⟩ := ih (col + 1) t (p + pack_szlut mode)
        (vid_store v (row * pitch + col) px) (by
          intro j hj
          have := hb (j + 1) (by omega)
          rw [Nat.add_mul] at this
          omega)
      refine ⟨v1, ?_, ?_, ?_⟩
      · simp only [draw_tile_cols, Nat.add_one_ne_zero, if_false, hpx, Nat.add_sub_cancel,
          List.drop_drop]
        rw [hv1, hmin]
        have e1 : t + 1 - (min n t + 1) = t - min n t := by omega
        have e2 : p + pack_szlut mode + min n t * pack_szlut mode
            = p + (min n t + 1) * pack_szlut mode := by ring
        rw [e1, e2]
      · intro j hj
        rcases Nat.eq_zero_or_pos j with hj0 | hjp
        · subst hj0
          have := hun (row * pitch + col) (Or.inl (by omega))
          simp only [Nat.zero_mul, Nat.add_zero]
          rw [this, hpx]
          simp [vid_store]
        · obtain ⟨j1, rfl⟩ : ∃ j1, j = j1 + 1 := ⟨j - 1, by omega⟩
          have := hpk j1 (by omega)
          have e1 : p + (j1 + 1) * pack_szlut mode = p + pack_szlut mode + j1 * pack_szlut mode := by
            rw [Nat.add_mul]; omega
          have e2 : row * pitch + col + (j1 + 1) = row * pitch + (col + 1) + j1 := by omega
          rw [e1, e2]; exact this
      · intro i hi
        have := hun i (by omega)
        rw [this]
        have hne : i ≠ row * pitch + col := by omega
        simp [vid_store, hne]

theorem tile_index_inj (pitch x base r c r1 c1 : Nat) (hp : base ≤ pitch)
    (hc : c < base) (hc1 : c1 < base)
    (h : r * pitch + (x + c) = r1 * pitch + (x + c1)) : r = r1 ∧ c = c1 := by
  rcases Nat.lt_trichotomy r r1 with hlt | heq | hgt
  · have := Nat.mul_le_mul_right pitch (Nat.succ_le_of_lt hlt)
    rw [Nat.succ_mul] at this
    omega
  · subst heq
    exact ⟨rfl, by omega⟩
  · have := Nat.mul_le_mul_right pitch (Nat.succ_le_of_lt hgt)
    rw [Nat.succ_mul] at this
    omega

theorem draw_tile_rows_spec (mode : pack_mode) (map : List (Fin 256)) (pitch x base : Nat)
    (hbase : 0 < base) :
    ∀ (m row ntw p : Nat) (v : Nat → shmif_pixel),
      (∀ j, j < min ntw (m * base) → p + j * pack_szlut mode + pack_szlut mode ≤ map.length) →
      ∃ r1 v1, draw_tile_rows mode (pack_szlut mode) pitch x (base + x) m row ntw (map.drop p) v
          = some (r1, v1)
        ∧ row ≤ r1 ∧ r1 ≤ row + m ∧ (ntw = 0 → r1 = row)
        ∧ (∀ k, k < min ntw (m * base) → row + k / base < r1)
        ∧ (base ≤ pitch → ∀ k, k < min ntw (m * base) →
            pack_pixel mode (map.drop (p + k * pack_szlut mode))
              = some (v1 ((row + k / base) * pitch + (x + k % base))))
        ∧ (∀ i, (∀ r c, row ≤ r → r < r1 → c < base → i ≠ r * pitch + (x + c)) → v1 i = v i) := by
  intro m
  induction m with
  | zero =>
    intro row ntw p v _
    exact ⟨row, v, by simp [draw_tile_rows], Nat.le_refl _, Nat.le_refl _, fun _ => rfl,
      by simp, by simp, fun _ _ => rfl⟩
  | succ m ih =>
    intro row ntw p v hb
    rcases Nat.eq_zero_or_pos ntw with h0 | hpos
    · subst h0
      exact ⟨row, v, by simp [draw_tile_rows], Nat.le_refl _, by omega, fun _ => rfl,
        by simp, by simp, fun _ _ => rfl⟩
    · have hsm : (m + 1) * base = m * base + base := Nat.succ_mul m base
      have hcb : min base ntw ≤ base := Nat.min_le_left _ _
      obtain ⟨v0, hv0, hpk0, hun0⟩ := draw_tile_cols_spec mode map pitch row base x ntw p v (by
        intro j hj
        apply hb j
        rw [hsm]
        have : 0 ≤ m * base := Nat.zero_le _
        omega)
      obtain ⟨r1, v1, hv1, hle, hub, _, hrow, hpk, hun⟩ :=
        ih (row + 1) (ntw - min base ntw) (p + min base ntw * pack_szlut mode) v0 (by
          intro j hj
          have := hb (min base ntw + j) (by rw [hsm]; omega)
          rw [Nat.add_mul] at this
          omega)
      refine ⟨r1, v1, ?_, by omega, by omega, by omega, ?_, ?_, ?_⟩
      · simp only [draw_tile_rows, Nat.add_sub_cancel, hv0, hv1]
        rw [if_neg (by omega)]
      · intro k hk
        rcases Nat.lt_or_ge k base with hkb | hkb
        · rw [Nat.div_eq_of_lt hkb]; omega
        · obtain ⟨k1, rfl⟩ : ∃ k1, k = k1 + base := ⟨k - base, by omega⟩
          rw [Nat.add_div_right _ hbase]
          have := hrow k1 (by rw [hsm] at hk; omega)
          omega
      · intro hp k hk
        rcases Nat.lt_or_ge k base with hkb | hkb
        · rw [Nat.div_eq_of_lt hkb, Nat.mod_eq_of_lt hkb]
          have h1 := hpk0 k (by omega)
          have h2 := hun (row * pitch + (x + k)) (by
            intro r c hr _ hc heq
            have := tile_index_inj pitch x base row k r c hp hkb hc heq
            omega)
          rw [Nat.add_zero, h2, h1, Nat.add_assoc]
        · obtain ⟨k1, rfl⟩ : ∃ k1, k = k1 + base := ⟨k - base, by omega⟩
          rw [Nat.add_div_right _ hbase, Nat.add_mod_right]
          have hmn : min base ntw = base := by omega
          have := hpk hp k1 (by rw [hsm] at hk; omega)
          rw [hmn] at this
          have e1 : p + (k1 + base) * pack_szlut mode
              = p + base * pack_szlut mode + k1 * pack_szlut mode := by ring
          have e2 : row + (k1 / base + 1) = row + 1 + k1 / base := by omega
          rw [e1, e2]; exact this
      · intro i hi
        rw [hun i (fun r c hr hr1 hc => hi r c (by omega) hr1 hc)]
        apply hun0
        by_contra hcon
        have hcon1 : row * pitch + x ≤ i ∧ i < row * pitch + x + min base ntw := by omega
        have hr1 : row < r1 := by omega
        exact hi row (i - (row * pitch + x)) (Nat.le_refl _) hr1 (by omega) (by omega)

theorem draw_tile_pad_cols_spec (pitch row : Nat) :
    ∀ (n col : Nat) (v : Nat → shmif_pixel),
      (∀ c, col ≤ c → c < col + n →
          draw_tile_pad_cols pitch row n col v (row * pitch + c) = RGBA 0x00 0x00 0x00 0xff)
      ∧ (∀ i, v i = RGBA 0x00 0x00 0x00 0xff →
          draw_tile_pad_cols pitch row n col v i = RGBA 0x00 0x00 0x00 0xff)
      ∧ (∀ i, (i < row * pitch + col ∨ row * pitch + col + n ≤ i) →
          draw_tile_pad_cols pitch row n col v i = v i) := by
  intro n
  induction n with
  | zero =>
    intro col v
    refine ⟨fun c h1 h2 => by omega, fun i h => h, fun i _ => rfl⟩
  | succ n ih =>
    intro col v
    obtain ⟨h1, h2, h3⟩ := ih (col + 1) (vid_store v (row * pitch + col) (RGBA 0x00 0x00 0x00 0xff))
    refine ⟨?_, ?_, ?_⟩
    · intro c hc hc1
      simp only [draw_tile_pad_cols]
      rcases Nat.eq_or_lt_of_le hc with heq | hlt
      · subst heq
        exact h2 _ (by simp [vid_store])
      · exact h1 c (by omega) (by omega)
    · intro i hi
      simp only [draw_tile_pad_cols]
      apply h2
      simp only [vid_store]
      split
      · rfl
      · exact hi
    · intro i hi
      simp only [draw_tile_pad_cols]
      rw [h3 i (by omega)]
      have hne : i ≠ row * pitch + col := by omega
      simp [vid_store, hne]

theorem draw_tile_pad_rows_spec (pitch x base : Nat) :
    ∀ (m row : Nat) (v : Nat → shmif_pixel),
      (∀ r c, row ≤ r → r < row + m → c < base →
          draw_tile_pad_rows pitch x (base + x) m row v (r * pitch + (x + c))
            = RGBA 0x00 0x00 0x00 0xff)
      ∧ (∀ i, v i = RGBA 0x00 0x00 0x00 0xff →
          draw_tile_pad_rows pitch x (base + x) m row v i = RGBA 0x00 0x00 0x00 0xff)
      ∧ (∀ i, (∀ r c, row ≤ r → r < row + m → c < base → i ≠ r * pitch + (x + c)) →
          draw_tile_pad_rows pitch x (base + x) m row v i = v i) := by
  intro m
  induction m with
  | zero =>
    intro row v
    refine ⟨fun r c h1 h2 => by omega, fun i h => h, fun i _ => rfl⟩
  | succ m ih =>
    intro row v
    obtain ⟨c1, c2, c3⟩ := draw_tile_pad_cols_spec pitch row base x v
    obtain ⟨h1, h2, h3⟩ := ih (row + 1) (draw_tile_pad_cols pitch row base x v)
    refine ⟨?_, ?_, ?_⟩
    · intro r c hr hr1 hc
      simp only [draw_tile_pad_rows, Nat.add_sub_cancel]
      rcases Nat.eq_or_lt_of_le hr with heq | hlt
      · subst heq
        exact h2 _ (c1 (x + c) (by omega) (by omega))
      · exact h1 r c (by omega) (by omega) hc
    · intro i hi
      simp only [draw_tile_pad_rows, Nat.add_sub_cancel]
      exact h2 i (c2 i hi)
    · intro i hi
      simp only [draw_tile_pad_rows, Nat.add_sub_cancel]
      rw [h3 i (fun r c hr hr1 hc => hi r c (by omega) (by omega) hc)]
      apply c3
      by_contra hcon
      have hcon1 : row * pitch + x ≤ i ∧ i < row * pitch + x + base := by omega
      exact hi row (i - (row * pitch + x)) (Nat.le_refl _) (by omega) (by omega) (by omega)

/-- Without wrap-around the count `ntw` of `draw_tile` is the count of the
specification, and every window it packs lies inside the mapping. -/
theorem draw_tile_ntw_spec (e : ent) (pos : Nat) (mode : pack_mode) (base : Nat)
    (hpos : pos + base * base * pack_szlut mode < SIZE_MOD)
    (hsz : e.map_sz + base * base * pack_szlut mode < SIZE_MOD) :
    draw_tile_ntw e pos mode base = available e pos mode base
      ∧ draw_tile_ntw e pos mode base ≤ base * base
      ∧ (∀ j, j < draw_tile_ntw e pos mode base →
          pos + j * pack_szlut mode + pack_szlut mode ≤ e.map_sz) := by
  have hs := pack_szlut_pos mode
  have hbb : base * base ≤ base * base * pack_szlut mode := Nat.le_mul_of_pos_right _ hs
  have m1 : (base * base) % SIZE_MOD = base * base := Nat.mod_eq_of_lt (by omega)
  have m2 : (base * base * pack_szlut mode) % SIZE_MOD = base * base * pack_szlut mode :=
    Nat.mod_eq_of_lt (by omega)
  have m3 : (pos + base * base * pack_szlut mode) % SIZE_MOD
      = pos + base * base * pack_szlut mode := Nat.mod_eq_of_lt hpos
  have m4 : (e.map_sz + base * base * pack_szlut mode) % SIZE_MOD
      = e.map_sz + base * base * pack_szlut mode := Nat.mod_eq_of_lt hsz
  have key : draw_tile_ntw e pos mode base = available e pos mode base := by
    simp only [draw_tile_ntw, available, m1, m2, m3, m4]
    by_cases h1 : pos + base * base * pack_szlut mode > e.map_sz
    · rw [if_pos h1]
      by_cases h2 : pos + base * base * pack_szlut mode > e.map_sz + base * base * pack_szlut mode
      · rw [if_pos h2]
        have : e.map_sz - pos = 0 := by omega
        simp [this]
      · rw [if_neg h2]
        have e1 : (e.map_sz + SIZE_MOD - pos) % SIZE_MOD = e.map_sz - pos := by
          have : e.map_sz + SIZE_MOD - pos = (e.map_sz - pos) + SIZE_MOD := by omega
          rw [this, Nat.add_mod_right]
          exact Nat.mod_eq_of_lt (by omega)
        rw [e1]
        have : (e.map_sz - pos) / pack_szlut mode < base * base := by
          rw [Nat.div_lt_iff_lt_mul hs]; omega
        omega
    · rw [if_neg h1]
      have : base * base ≤ (e.map_sz - pos) / pack_szlut mode := by
        rw [Nat.le_div_iff_mul_le hs]; omega
      omega
  refine ⟨key, ?_, ?_⟩
  · rw [key]; exact Nat.min_le_left _ _
  · intro j hj
    rw [key] at hj
    have hj1 : j + 1 ≤ (e.map_sz - pos) / pack_szlut mode := by
      have := Nat.min_le_right (base * base) ((e.map_sz - pos) / pack_szlut mode)
      simp only [available] at hj
      omega
    have h3 := Nat.mul_le_mul_right (pack_szlut mode) hj1
    have h4 := Nat.div_mul_le_self (e.map_sz - pos) (pack_szlut mode)
    rw [Nat.add_mul] at h3
    have hlt : 0 < (e.map_sz - pos) / pack_szlut mode := by omega
    have hpl : pos < e.map_sz := by
      by_contra hc
      have : e.map_sz - pos = 0 := by omega
      rw [this] at hlt
      simp at hlt
    omega

/-- What `draw_tile` leaves on the canvas when no size_t sum wraps: it ends
normally, the pixels below `ntw` are packed from the source, and a tile with
`ntw = 0` is black throughout. -/
theorem draw_tile_effect (dst : arcan_shmif_cont) (e : ent) (pos x y : Nat)
    (mode : pack_mode) (base : Nat) (hbase : 0 < base)
    (hpos : pos + base * base * pack_szlut mode < SIZE_MOD)
    (hsz : e.map_sz + base * base * pack_szlut mode < SIZE_MOD) :
    ∃ out, draw_tile dst e pos x y mode base = some out
      ∧ (base ≤ dst.pitch → ∀ k, k < draw_tile_ntw e pos mode base →
          pack_pixel mode (e.map.drop (pos + k * pack_szlut mode))
            = some (out.vidp ((y + k / base) * dst.pitch + (x + k % base))))
      ∧ (draw_tile_ntw e pos mode base = 0 → ∀ r c, r < base → c < base →
          out.vidp ((y + r) * dst.pitch + (x + c)) = RGBA 0x00 0x00 0x00 0xff) := by
  obtain ⟨_, hle, hin⟩ := draw_tile_ntw_spec e pos mode base hpos hsz
  have hmin : min (draw_tile_ntw e pos mode base) (base * base) = draw_tile_ntw e pos mode base :=
    Nat.min_eq_left hle
  obtain ⟨r1, v1, hv1, hlo, hhi, hzero, hrow, hpk, _⟩ :=
    draw_tile_rows_spec mode e.map dst.pitch x base hbase base y
      (draw_tile_ntw e pos mode base) pos dst.vidp (by
        intro j hj
        rw [hmin] at hj
        exact hin j hj)
  obtain ⟨p1, _, p3⟩ := draw_tile_pad_rows_spec dst.pitch x base (base + y - r1) r1 v1
  refine ⟨{ dst with vidp := draw_tile_pad_rows dst.pitch x (base + x) (base + y - r1) r1 v1 },
    ?_, ?_, ?_⟩
  · simp only [draw_tile, Nat.add_sub_cancel, hv1]
  · intro hp k hk
    have hk1 : k < min (draw_tile_ntw e pos mode base) (base * base) := by rw [hmin]; exact hk
    have hr := hrow k hk1
    have hkb : k % base < base := Nat.mod_lt _ hbase
    show _ = some (draw_tile_pad_rows dst.pitch x (base + x) (base + y - r1) r1 v1 _)
    rw [p3 _ (by
      intro r c hr1 _ hc heq
      have := tile_index_inj dst.pitch x base (y + k / base) (k % base) r c hp hkb hc heq
      omega)]
    exact hpk hp k hk1
  · intro h0 r c hr hc
    have hy : r1 = y := hzero h0
    show draw_tile_pad_rows dst.pitch x (base + x) (base + y - r1) r1 v1 _ = _
    exact p1 (y + r) c (by omega) (by omega) hc

/-! ## Claims on `pack_pixel` and `draw_tile` -/

/-- C1: when no size_t sum wraps and a tile row fits the pitch, `draw_tile`
ends normally and, for every `k` below the available count
`min (base*base) ((length - offset) / stride)`, the pixel at row `y + k / base`,
column `x + k % base` is `pack_pixel` of the source bytes at `offset + k * stride`. -/
theorem draw_tile_packs_available (dst : arcan_shmif_cont) (e : ent) (pos x y : Nat)
    (mode : pack_mode) (base : Nat) (hbase : 1 ≤ base) (hpitch : base ≤ dst.pitch)
    (hpos : pos + base * base * pack_szlut mode < SIZE_MOD)
    (hsz : e.map_sz + base * base * pack_szlut mode < SIZE_MOD) :
    ∃ out, draw_tile dst e pos x y mode base = some out
      ∧ ∀ k, k < available e pos mode base →
          pack_pixel mode (e.map.drop (pos + k * pack_szlut mode))
            = some (out.vidp ((y + k / base) * dst.pitch + (x + k % base))) := by
  obtain ⟨out, hout, hpk, _⟩ := draw_tile_effect dst e pos x y mode base hbase hpos hsz
  refine ⟨out, hout, fun k hk => hpk hpitch k ?_⟩
  rw [(draw_tile_ntw_spec e pos mode base hpos hsz).1]
  exact hk

/-- C1 at a source of 50 bytes, offset 48, base 8, intensity mode. -/
theorem draw_tile_packs_available_witness :
    (1 ≤ 8 ∧ 8 ≤ (arcan_shmif_cont.mk (fun _ => color_border) 8 8 8).pitch
      ∧ 48 + 8 * 8 * pack_szlut .PACK_INTENS < SIZE_MOD
      ∧ (ent.mk (List.replicate 50 0xfe)).map_sz + 8 * 8 * pack_szlut .PACK_INTENS < SIZE_MOD)
    ∧ ∃ out, draw_tile ⟨fun _ => color_border, 8, 8, 8⟩ ⟨List.replicate 50 0xfe⟩ 48 0 0
          .PACK_INTENS 8 = some out
        ∧ ∀ k, k < available ⟨List.replicate 50 0xfe⟩ 48 .PACK_INTENS 8 →
            pack_pixel .PACK_INTENS
                ((ent.mk (List.replicate 50 0xfe)).map.drop (48 + k * pack_szlut .PACK_INTENS))
              = some (out.vidp ((0 + k / 8) * (arcan_shmif_cont.mk (fun _ => color_border) 8 8 8).pitch
                  + (0 + k % 8))) :=
  ⟨⟨by decide, by decide, by decide, by decide⟩,
    draw_tile_packs_available ⟨fun _ => color_border, 8, 8, 8⟩ ⟨List.replicate 50 0xfe⟩ 48 0 0
      .PACK_INTENS 8 (by decide) (by decide) (by decide) (by decide)⟩

/-- C2 (the code departs from it): a source of 50 bytes drawn at offset 0 and
then at offset 48 (base 8, intensity) on a canvas cleared to the pad colour.
Two pixels are available at offset 48, yet pixels 2..7 of the tile still show
the bytes 2..7 of the frame before: the second pass starts at the row after
the one the first pass stopped in, so the rest of that row is never padded. -/
theorem draw_tile_partial_row_keeps_prior :
    available ⟨List.replicate 50 0xfe⟩ 48 .PACK_INTENS 8 = 2
    ∧ ((draw_tile ⟨fun _ => color_pad, 8, 8, 8⟩ ⟨List.replicate 50 0xfe⟩ 0 0 0 .PACK_INTENS 8).bind
        (fun c => draw_tile c ⟨List.replicate 50 0xfe⟩ 48 0 0 .PACK_INTENS 8)).map
        (fun c => (List.range 10).map c.vidp)
      = some [RGBA 0xfe 0xfe 0xfe 0xff, RGBA 0xfe 0xfe 0xfe 0xff,
          RGBA 0xfe 0xfe 0xfe 0xff, RGBA 0xfe 0xfe 0xfe 0xff, RGBA 0xfe 0xfe 0xfe 0xff,
          RGBA 0xfe 0xfe 0xfe 0xff, RGBA 0xfe 0xfe 0xfe 0xff, RGBA 0xfe 0xfe 0xfe 0xff,
          RGBA 0x00 0x00 0x00 0xff, RGBA 0x00 0x00 0x00 0xff] := by
  decide

/-- C3: at an offset at or beyond the end of the source (no size_t sum
wrapping), `draw_tile` packs no pixel and stores opaque black in all
`base * base` pixels of the tile. -/
theorem draw_tile_past_end_all_pad (dst : arcan_shmif_cont) (e : ent) (pos x y : Nat)
    (mode : pack_mode) (base : Nat) (hbase : 1 ≤ base) (hend : e.map_sz ≤ pos)
    (hpos : pos + base * base * pack_szlut mode < SIZE_MOD) :
    ∃ out, draw_tile dst e pos x y mode base = some out
      ∧ draw_tile_ntw e pos mode base = 0
      ∧ ∀ k, k < base * base →
          out.vidp ((y + k / base) * dst.pitch + (x + k % base)) = RGBA 0x00 0x00 0x00 0xff := by
  have hsz : e.map_sz + base * base * pack_szlut mode < SIZE_MOD := by omega
  obtain ⟨out, hout, _, hpad⟩ := draw_tile_effect dst e pos x y mode base hbase hpos hsz
  have h0 : draw_tile_ntw e pos mode base = 0 := by
    rw [(draw_tile_ntw_spec e pos mode base hpos hsz).1, available]
    have : e.map_sz - pos = 0 := by omega
    simp [this]
  refine ⟨out, hout, h0, fun k hk => ?_⟩
  exact hpad h0 (k / base) (k % base) (Nat.div_lt_of_lt_mul hk) (Nat.mod_lt _ hbase)

/-- C3 at a source of 50 bytes, offset 50, base 8, tight mode. -/
theorem draw_tile_past_end_all_pad_witness :
    (1 ≤ 8 ∧ (ent.mk (List.replicate 50 0xfe)).map_sz ≤ 50
      ∧ 50 + 8 * 8 * pack_szlut .PACK_TIGHT < SIZE_MOD)
    ∧ ∃ out, draw_tile ⟨fun _ => color_border, 8, 8, 8⟩ ⟨List.replicate 50 0xfe⟩ 50 0 0
          .PACK_TIGHT 8 = some out
        ∧ draw_tile_ntw ⟨List.replicate 50 0xfe⟩ 50 .PACK_TIGHT 8 = 0
        ∧ ∀ k, k < 8 * 8 →
            out.vidp ((0 + k / 8) * (arcan_shmif_cont.mk (fun _ => color_border) 8 8 8).pitch
              + (0 + k % 8)) = RGBA 0x00 0x00 0x00 0xff :=
  ⟨⟨by decide, by decide, by decide⟩,
    draw_tile_past_end_all_pad ⟨fun _ => color_border, 8, 8, 8⟩ ⟨List.replicate 50 0xfe⟩ 50 0 0
      .PACK_TIGHT 8 (by decide) (by decide) (by decide)⟩

/-- C4: whenever no size_t sum wraps, for every offset (also far beyond the
end of the source), base and mode, `draw_tile` never takes the failing branch
of a source read, and each window it packs ends at or before the length of
the source. -/
theorem draw_tile_reads_in_bounds (dst : arcan_shmif_cont) (e : ent) (pos x y : Nat)
    (mode : pack_mode) (base : Nat)
    (hpos : pos + base * base * pack_szlut mode < SIZE_MOD)
    (hsz : e.map_sz + base * base * pack_szlut mode < SIZE_MOD) :
    (draw_tile dst e pos x y mode base).isSome = true
      ∧ ∀ k, k < draw_tile_ntw e pos mode base →
          pos + k * pack_szlut mode + pack_szlut mode ≤ e.map_sz := by
  refine ⟨?_, (draw_tile_ntw_spec e pos mode base hpos hsz).2.2⟩
  rcases Nat.eq_zero_or_pos base with h0 | hb
  · subst h0
    simp [draw_tile, draw_tile_rows]
  · obtain ⟨out, hout, _, _⟩ := draw_tile_effect dst e pos x y mode base hb hpos hsz
    rw [hout]; rfl

/-- C4 at a source of 50 bytes and the offset 2^63, base 8, tight mode. -/
theorem draw_tile_reads_in_bounds_witness :
    (2 ^ 63 + 8 * 8 * pack_szlut .PACK_TIGHT < SIZE_MOD
      ∧ (ent.mk (List.replicate 50 0xfe)).map_sz + 8 * 8 * pack_szlut .PACK_TIGHT < SIZE_MOD)
    ∧ (draw_tile ⟨fun _ => color_border, 8, 8, 8⟩ ⟨List.replicate 50 0xfe⟩ (2 ^ 63) 0 0
          .PACK_TIGHT 8).isSome = true
      ∧ ∀ k, k < draw_tile_ntw ⟨List.replicate 50 0xfe⟩ (2 ^ 63) .PACK_TIGHT 8 →
          2 ^ 63 + k * pack_szlut .PACK_TIGHT + pack_szlut .PACK_TIGHT
            ≤ (ent.mk (List.replicate 50 0xfe)).map_sz :=
  ⟨⟨by decide, by decide⟩,
    draw_tile_reads_in_bounds ⟨fun _ => color_border, 8, 8, 8⟩ ⟨List.replicate 50 0xfe⟩ (2 ^ 63)
      0 0 .PACK_TIGHT 8 (by decide) (by decide)⟩

/-- C5: the strides are 1, 4 and 3 bytes, and on a window holding at least
that many bytes `pack_pixel` gives `RGBA(b0, b0, b0, 255)` for intensity,
`RGBA(b0, b1, b2, b3)` for tight and `RGBA(b0, b1, b2, 255)` for tight-no-alpha. -/
theorem pack_pixel_channels (b0 b1 b2 b3 : Fin 256) (rest : List (Fin 256)) :
    pack_szlut .PACK_INTENS = 1 ∧ pack_szlut .PACK_TIGHT = 4 ∧ pack_szlut .PACK_TNOALPHA = 3
      ∧ pack_pixel .PACK_INTENS (b0 :: rest) = some (RGBA b0.val b0.val b0.val 255)
      ∧ pack_pixel .PACK_TIGHT (b0 :: b1 :: b2 :: b3 :: rest)
          = some (RGBA b0.val b1.val b2.val b3.val)
      ∧ pack_pixel .PACK_TNOALPHA (b0 :: b1 :: b2 :: rest)
          = some (RGBA b0.val b1.val b2.val 255) :=
  ⟨rfl, rfl, rfl, rfl, rfl, rfl⟩

/-! ## Lemmas on the loops of `draw_dtile` -/

theorem draw_dtile_px_some (mode : pack_mode) (pos : Nat) (e : ent)
    (hpos : pos + pack_szlut mode < SIZE_MOD) :
    ∃ px, draw_dtile_px mode (pack_szlut mode) pos e = some px := by
  simp only [draw_dtile_px, Nat.mod_eq_of_lt hpos]
  split
  · exact ⟨_, rfl⟩
  · rename_i h
    apply pack_pixel_of_le
    simp only [List.length_drop, ent.map_sz] at h ⊢
    omega

theorem draw_dtile_pxbuf_some (mode : pack_mode) (pos : Nat)
    (hpos : pos + pack_szlut mode < SIZE_MOD) (ents : List ent) :
    ∃ pxbuf, draw_dtile_pxbuf mode (pack_szlut mode) pos ents = some pxbuf
      ∧ pxbuf.length = ents.length
      ∧ ents.map (draw_dtile_px mode (pack_szlut mode) pos) = pxbuf.map some := by
  induction ents with
  | nil => exact ⟨[], rfl, rfl, rfl⟩
  | cons e es ih =>
    obtain ⟨pxs, h1, h2, h3⟩ := ih
    obtain ⟨px, hpx⟩ := draw_dtile_px_some mode pos e hpos
    refine ⟨px :: pxs, ?_, ?_, ?_⟩
    · simp only [draw_dtile_pxbuf, hpx, h1]
    · simp [h2]
    · simp [hpx, h3]

theorem draw_dtile_at_some (mode : pack_mode) (pos : Nat)
    (hpos : pos + pack_szlut mode < SIZE_MOD) (ents : List ent) :
    ∃ px, draw_dtile_at mode (pack_szlut mode) ents pos = some px := by
  obtain ⟨pxbuf, h, _, _⟩ := draw_dtile_pxbuf_some mode pos hpos ents
  exact ⟨draw_dtile_color pxbuf ents.length, by simp only [draw_dtile_at, h]⟩

theorem draw_dtile_cols_spec (mode : pack_mode) (pitch row : Nat) (ents : List ent) :
    ∀ (n col pos : Nat) (v : Nat → shmif_pixel),
      pos + n * pack_szlut mode < SIZE_MOD →
      ∃ v1, draw_dtile_cols mode (pack_szlut mode) pitch row ents n col pos v
          = some (pos + n * pack_szlut mode, v1)
        ∧ (∀ j, j < n →
            draw_dtile_at mode (pack_szlut mode) ents (pos + j * pack_szlut mode)
              = some (v1 (row * pitch + col + j)))
        ∧ (∀ i, (i < row * pitch + col ∨ row * pitch + col + n ≤ i) → v1 i = v i) := by
  intro n
  induction n with
  | zero =>
    intro col pos v _
    exact ⟨v, by simp [draw_dtile_cols], by simp, by simp⟩
  | succ n ih =>
    intro col pos v hb
    have hs := pack_szlut_pos mode
    have hsm : (n + 1) * pack_szlut mode = n * pack_szlut mode + pack_szlut mode :=
      Nat.succ_mul _ _
    have hn0 : 0 ≤ n * pack_szlut mode := Nat.zero_le _
    obtain ⟨px, hpx⟩ := draw_dtile_at_some mode pos (by omega) ents
    obtain ⟨v1, hv1, hpk, hun⟩ := ih (col + 1) (pos + pack_szlut mode)
      (vid_store v (row * pitch + col) px) (by omega)
    refine ⟨v1, ?_, ?_, ?_⟩
    · simp only [draw_dtile_cols, hpx]
      rw [Nat.mod_eq_of_lt (by omega), hv1, hsm]
      congr 2
      omega
    · intro j hj
      rcases Nat.eq_zero_or_pos j with hj0 | hjp
      · subst hj0
        have := hun (row * pitch + col) (Or.inl (by omega))
        simp only [Nat.zero_mul, Nat.add_zero]
        rw [this, hpx]
        simp [vid_store]
      · obtain ⟨j1, rfl⟩ : ∃ j1, j = j1 + 1 := ⟨j - 1, by omega⟩
        have := hpk j1 (by omega)
        have e1 : pos + (j1 + 1) * pack_szlut mode
            = pos + pack_szlut mode + j1 * pack_szlut mode := by
          rw [Nat.add_mul]; omega
        have e2 : row * pitch + col + (j1 + 1) = row * pitch + (col + 1) + j1 := by omega
        rw [e1, e2]; exact this
    · intro i hi
      rw [hun i (by omega)]
      have hne : i ≠ row * pitch + col := by omega
      simp [vid_store, hne]

theorem draw_dtile_rows_spec (mode : pack_mode) (pitch x base : Nat) (ents : List ent) :
    ∀ (m row pos : Nat) (v : Nat → shmif_pixel),
      pos + m * base * pack_szlut mode < SIZE_MOD →
      ∃ v1, draw_dtile_rows mode (pack_szlut mode) pitch x base ents m row pos v = some v1
        ∧ (∀ r c, r < m → c < base → ∃ r1 c1, r1 < m ∧ c1 < base
            ∧ (row + r) * pitch + (x + c) = (row + r1) * pitch + (x + c1)
            ∧ draw_dtile_at mode (pack_szlut mode) ents (pos + (r1 * base + c1) * pack_szlut mode)
                = some (v1 ((row + r) * pitch + (x + c))))
        ∧ (∀ i, (∀ r c, r < m → c < base → i ≠ (row + r) * pitch + (x + c)) → v1 i = v i) := by
  intro m
  induction m with
  | zero =>
    intro row pos v _
    exact ⟨v, by simp [draw_dtile_rows], fun r c hr => by omega, fun _ _ => rfl⟩
  | succ m ih =>
    intro row pos v hb
    have hsm : (m + 1) * base * pack_szlut mode
        = m * base * pack_szlut mode + base * pack_szlut mode := by ring
    have hn0 : 0 ≤ m * base * pack_szlut mode := Nat.zero_le _
    obtain ⟨v0, hv0, hpk0, hun0⟩ :=
      draw_dtile_cols_spec mode pitch row ents base x pos v (by omega)
    obtain ⟨v1, hv1, hpk, hun⟩ := ih (row + 1) (pos + base * pack_szlut mode) v0 (by omega)
    refine ⟨v1, ?_, ?_, ?_⟩
    · simp only [draw_dtile_rows, Nat.add_sub_cancel_left, hv0, hv1]
    · intro r c hr hc
      by_cases hov : ∃ r2 c2, r2 < m ∧ c2 < base
          ∧ (row + r) * pitch + (x + c) = (row + 1 + r2) * pitch + (x + c2)
      · obtain ⟨r2, c2, hr2, hc2, heq⟩ := hov
        obtain ⟨r1, c1, hr1, hc1, heq1, hval⟩ := hpk r2 c2 hr2 hc2
        refine ⟨r1 + 1, c1, by omega, hc1, ?_, ?_⟩
        · rw [heq, heq1]
          have : row + 1 + r1 = row + (r1 + 1) := by omega
          rw [this]
        · rw [heq]
          have e1 : pos + ((r1 + 1) * base + c1) * pack_szlut mode
              = pos + base * pack_szlut mode + (r1 * base + c1) * pack_szlut mode := by ring
          rw [e1]; exact hval
      · have hr0 : r = 0 := by
          by_contra hne
          exact hov ⟨r - 1, c, by omega, hc, by
            have : row + r = row + 1 + (r - 1) := by omega
            rw [this]⟩
        subst hr0
        refine ⟨0, c, by omega, hc, rfl, ?_⟩
        have h2 := hun ((row + 0) * pitch + (x + c)) (by
          intro r2 c2 hr2 hc2 heq
          exact hov ⟨r2, c2, hr2, hc2, heq⟩)
        rw [h2]
        have h1 := hpk0 c hc
        simp only [Nat.zero_mul, Nat.zero_add, Nat.add_zero]
        rw [h1, Nat.add_assoc]
    · intro i hi
      rw [hun i (fun r c hr hc => by
        have := hi (r + 1) c (by omega) hc
        have e : row + (r + 1) = row + 1 + r := by omega
        rw [e] at this; exact this)]
      apply hun0
      by_contra hcon
      have hcon1 : row * pitch + x ≤ i ∧ i < row * pitch + x + base := by omega
      exact hi 0 (i - (row * pitch + x)) (by omega) (by omega) (by
        simp only [Nat.add_zero]; omega)

/-- What `draw_dtile` leaves on the canvas when no size_t sum wraps: it ends
normally, and each pixel of the tile holds the pixel computed for the window
of a tile position with the same flat index (the position itself when a tile
row fits the pitch). -/
theorem draw_dtile_effect (dst : arcan_shmif_cont) (ents : List ent) (pos x y : Nat)
    (mode : pack_mode) (base : Nat)
    (hpos : pos + base * base * pack_szlut mode < SIZE_MOD) :
    ∃ out, draw_dtile dst ents pos x y mode base = some out
      ∧ (∀ r c, r < base → c < base → ∃ r1 c1, r1 < base ∧ c1 < base
          ∧ (y + r) * dst.pitch + (x + c) = (y + r1) * dst.pitch + (x + c1)
          ∧ draw_dtile_at mode (pack_szlut mode) ents (pos + (r1 * base + c1) * pack_szlut mode)
              = some (out.vidp ((y + r) * dst.pitch + (x + c))))
      ∧ (base ≤ dst.pitch → ∀ k, k < base * base →
          draw_dtile_at mode (pack_szlut mode) ents (pos + k * pack_szlut mode)
            = some (out.vidp ((y + k / base) * dst.pitch + (x + k % base)))) := by
  obtain ⟨v1, hv1, hpk, _⟩ :=
    draw_dtile_rows_spec mode dst.pitch x base ents base y pos dst.vidp hpos
  refine ⟨{ dst with vidp := v1 }, ?_, hpk, ?_⟩
  · simp only [draw_dtile, Nat.add_sub_cancel_left, hv1]
  · intro hp k hk
    have hbase : 0 < base := by
      rcases Nat.eq_zero_or_pos base with h | h
      · subst h; simp at hk
      · exact h
    have hc : k % base < base := Nat.mod_lt _ hbase
    obtain ⟨r1, c1, _, hc1, heq, hval⟩ := hpk (k / base) (k % base) (Nat.div_lt_of_lt_mul hk) hc
    obtain ⟨e1, e2⟩ := tile_index_inj dst.pitch x base _ _ _ _ hp hc hc1 heq
    have e3 : r1 = k / base := by omega
    have hk2 : r1 * base + c1 = k := by
      rw [e3, ← e2, Nat.mul_comm]; exact Nat.div_add_mod k base
    rw [hk2] at hval
    exact hval

/-! ## Lemmas on the mismatch count and the pixel of `draw_dtile` -/

theorem draw_dtile_n_delta_eq_countP (p0 : shmif_pixel) :
    ∀ (ps : List shmif_pixel) (acc : Nat),
      acc + ps.countP (fun p => decide (p ≠ p0)) ≤ 2 ^ 24 →
      draw_dtile_n_delta p0 ps acc = acc + ps.countP (fun p => decide (p ≠ p0)) := by
  intro ps
  induction ps with
  | nil => intro acc _; simp [draw_dtile_n_delta]
  | cons p ps ih =>
    intro acc h
    simp only [List.countP_cons] at h
    simp only [draw_dtile_n_delta, List.countP_cons]
    by_cases hp : p = p0
    · have e1 : decide (p ≠ p0) = false := decide_eq_false (not_not.mpr hp)
      have e2 : (if p ≠ p0 then f32_add_one acc else acc) = acc := if_neg (not_not.mpr hp)
      rw [e1] at h
      rw [e1, e2, ih acc (by simpa using h)]
      simp
    · have e1 : decide (p ≠ p0) = true := decide_eq_true hp
      rw [e1] at h
      simp only [if_true] at h
      have hlt : acc < 2 ^ 24 := by omega
      have e2 : (if p ≠ p0 then f32_add_one acc else acc) = acc + 1 := by
        rw [if_pos hp, f32_add_one, if_pos hlt]
      rw [e1, e2, ih (acc + 1) (by omega)]
      simp only [if_true]
      omega

theorem draw_dtile_count_eq_mismatches (pxbuf : List shmif_pixel)
    (h : mismatches pxbuf ≤ 2 ^ 24) : draw_dtile_count pxbuf = mismatches pxbuf := by
  cases pxbuf with
  | nil => rfl
  | cons p0 ps =>
    simp only [mismatches] at h
    simp only [draw_dtile_count, mismatches]
    rw [draw_dtile_n_delta_eq_countP p0 ps 0 (by omega)]
    omega

theorem mismatches_lt_length (pxbuf : List shmif_pixel) (h : 1 ≤ pxbuf.length) :
    mismatches pxbuf < pxbuf.length := by
  cases pxbuf with
  | nil => simp at h
  | cons p0 ps =>
    simp only [mismatches, List.length_cons]
    have := List.countP_le_length (fun p => decide (p ≠ p0)) (l := ps)
    omega

theorem green_table_1 : ∀ n, n < 17 → ∀ k, k < n → 1 ≤ k →
    scale255_to_int (f32_div k (f32_of_nat n)) = 255 * k / n := by
  decide!

theorem green_table_2 : ∀ n, n < 33 → 17 ≤ n → ∀ k, k < n → 1 ≤ k →
    scale255_to_int (f32_div k (f32_of_nat n)) = 255 * k / n := by
  decide!

theorem green_table_3 : ∀ n, n < 49 → 33 ≤ n → ∀ k, k < n → 1 ≤ k →
    scale255_to_int (f32_div k (f32_of_nat n)) = 255 * k / n := by
  decide!

theorem green_table_4 : ∀ n, n < 65 → 49 ≤ n → ∀ k, k < n → 1 ≤ k →
    scale255_to_int (f32_div k (f32_of_nat n)) = 255 * k / n := by
  decide!

theorem green_table_5 : ∀ n, n < 81 → 65 ≤ n → ∀ k, k < n → 1 ≤ k →
    scale255_to_int (f32_div k (f32_of_nat n)) = 255 * k / n := by
  decide!

theorem green_table_6 : ∀ n, n < 97 → 81 ≤ n → ∀ k, k < n → 1 ≤ k →
    scale255_to_int (f32_div k (f32_of_nat n)) = 255 * k / n := by
  decide!

theorem green_table_7 : ∀ n, n < 113 → 97 ≤ n → ∀ k, k < n → 1 ≤ k →
    scale255_to_int (f32_div k (f32_of_nat n)) = 255 * k / n := by
  decide!

theorem green_table_8 : ∀ n, n < 129 → 113 ≤ n → ∀ k, k < n → 1 ≤ k →
    scale255_to_int (f32_div k (f32_of_nat n)) = 255 * k / n := by
  decide!

theorem green_table_9 : ∀ n, n < 145 → 129 ≤ n → ∀ k, k < n → 1 ≤ k →
    scale255_to_int (f32_div k (f32_of_nat n)) = 255 * k / n := by
  decide!

theorem green_table_10 : ∀ n, n < 161 → 145 ≤ n → ∀ k, k < n → 1 ≤ k →
    scale255_to_int (f32_div k (f32_of_nat n)) = 255 * k / n := by
  decide!

theorem green_table_11 : ∀ n, n < 177 → 161 ≤ n → ∀ k, k < n → 1 ≤ k →
    scale255_to_int (f32_div k (f32_of_nat n)) = 255 * k / n := by
  decide!

theorem green_table_12 : ∀ n, n < 193 → 177 ≤ n → ∀ k, k < n → 1 ≤ k →
    scale255_to_int (f32_div k (f32_of_nat n)) = 255 * k / n := by
  decide!

theorem green_table_13 : ∀ n, n < 209 → 193 ≤ n → ∀ k, k < n → 1 ≤ k →
    scale255_to_int (f32_div k (f32_of_nat n)) = 255 * k / n := by
  decide!

theorem green_table_14 : ∀ n, n < 225 → 209 ≤ n → ∀ k, k < n → 1 ≤ k →
    scale255_to_int (f32_div k (f32_of_nat n)) = 255 * k / n := by
  decide!

theorem green_table_15 : ∀ n, n < 241 → 225 ≤ n → ∀ k, k < n → 1 ≤ k →
    scale255_to_int (f32_div k (f32_of_nat n)) = 255 * k / n := by
  decide!

theorem green_table_16 : ∀ n, n < 257 → 241 ≤ n → ∀ k, k < n → 1 ≤ k →
    scale255_to_int (f32_div k (f32_of_nat n)) = 255 * k / n := by
  decide!

/-- For up to 256 sources the binary32 computation of the green channel is
`255 * k / n` rounded down (checked by evaluation, in sixteen ranges of `n`). -/
theorem green_table (n : Nat) (hn : n < 257) (k : Nat) (hk : k < n) (h1 : 1 ≤ k) :
    scale255_to_int (f32_div k (f32_of_nat n)) = 255 * k / n := by
  by_cases c1 : n < 17
  · exact green_table_1 n c1 k hk h1
  by_cases c2 : n < 33
  · exact green_table_2 n c2 (by omega) k hk h1
  by_cases c3 : n < 49
  · exact green_table_3 n c3 (by omega) k hk h1
  by_cases c4 : n < 65
  · exact green_table_4 n c4 (by omega) k hk h1
  by_cases c5 : n < 81
  · exact green_table_5 n c5 (by omega) k hk h1
  by_cases c6 : n < 97
  · exact green_table_6 n c6 (by omega) k hk h1
  by_cases c7 : n < 113
  · exact green_table_7 n c7 (by omega) k hk h1
  by_cases c8 : n < 129
  · exact green_table_8 n c8 (by omega) k hk h1
  by_cases c9 : n < 145
  · exact green_table_9 n c9 (by omega) k hk h1
  by_cases c10 : n < 161
  · exact green_table_10 n c10 (by omega) k hk h1
  by_cases c11 : n < 177
  · exact green_table_11 n c11 (by omega) k hk h1
  by_cases c12 : n < 193
  · exact green_table_12 n c12 (by omega) k hk h1
  by_cases c13 : n < 209
  · exact green_table_13 n c13 (by omega) k hk h1
  by_cases c14 : n < 225
  · exact green_table_14 n c14 (by omega) k hk h1
  by_cases c15 : n < 241
  · exact green_table_15 n c15 (by omega) k hk h1
  exact green_table_16 n hn (by omega) k hk h1

theorem draw_dtile_color_eq (pxbuf : List shmif_pixel) (n : Nat) (hlen : pxbuf.length = n)
    (h1 : 1 ≤ n) (h256 : n ≤ 256) :
    draw_dtile_color pxbuf n
      = if mismatches pxbuf = 0 then color_match
        else RGBA 0 (255 * mismatches pxbuf / n) 0 255 := by
  have hlt := mismatches_lt_length pxbuf (by omega)
  have hc := draw_dtile_count_eq_mismatches pxbuf (by
    have : (256 : Nat) ≤ 2 ^ 24 := by decide
    omega)
  simp only [draw_dtile_color, hc]
  by_cases h0 : mismatches pxbuf = 0
  · simp [h0]
  · rw [if_pos h0, if_neg h0, green_table n (by omega) (mismatches pxbuf) (by omega) (by omega)]

theorem draw_dtile_n_delta_same (p0 : shmif_pixel) :
    ∀ (ps : List shmif_pixel) (acc : Nat), (∀ p ∈ ps, p = p0) →
      draw_dtile_n_delta p0 ps acc = acc := by
  intro ps
  induction ps with
  | nil => intro acc _; rfl
  | cons p ps ih =>
    intro acc h
    have hp : p = p0 := h p (List.mem_cons_self _ _)
    simp only [draw_dtile_n_delta]
    rw [if_neg (not_not.mpr hp)]
    exact ih acc (fun q hq => h q (List.mem_cons_of_mem _ hq))

theorem draw_dtile_pxbuf_same (mode : pack_mode) (step pos : Nat) (e : ent) :
    ∀ (ents : List ent) (pxbuf : List shmif_pixel), (∀ a ∈ ents, a = e) →
      draw_dtile_pxbuf mode step pos ents = some pxbuf →
      ∀ p ∈ pxbuf, draw_dtile_px mode step pos e = some p := by
  intro ents
  induction ents with
  | nil =>
    intro pxbuf _ h p hp
    simp only [draw_dtile_pxbuf, Option.some.injEq] at h
    subst h
    simp at hp
  | cons a as ih =>
    intro pxbuf hall h p hp
    have ha : a = e := hall a (List.mem_cons_self _ _)
    subst ha
    simp only [draw_dtile_pxbuf] at h
    cases hpx : draw_dtile_px mode step pos a with
    | none => simp [hpx] at h
    | some px =>
      cases hrest : draw_dtile_pxbuf mode step pos as with
      | none => simp [hpx, hrest] at h
      | some pxs =>
        simp only [hpx, hrest, Option.some.injEq] at h
        subst h
        rcases List.mem_cons.mp hp with h1 | h1
        · rw [h1]
        · rw [← hpx]
          exact ih pxs (fun b hb => hall b (List.mem_cons_of_mem _ hb)) hrest p h1

theorem draw_dtile_at_same (mode : pack_mode) (step pos : Nat) (e : ent) (ents : List ent)
    (hall : ∀ a ∈ ents, a = e) (px : shmif_pixel)
    (h : draw_dtile_at mode step ents pos = some px) : px = color_match := by
  simp only [draw_dtile_at] at h
  cases hb : draw_dtile_pxbuf mode step pos ents with
  | none => simp [hb] at h
  | some pxbuf =>
    simp only [hb, Option.some.injEq] at h
    subst h
    have hsame := draw_dtile_pxbuf_same mode step pos e ents pxbuf hall hb
    cases pxbuf with
    | nil => rfl
    | cons p0 ps =>
      have h0 := hsame p0 (List.mem_cons_self _ _)
      have hcount : draw_dtile_count (p0 :: ps) = 0 := by
        simp only [draw_dtile_count]
        apply draw_dtile_n_delta_same
        intro p hp
        have := hsame p (List.mem_cons_of_mem _ hp)
        rw [h0] at this
        exact (Option.some.inj this).symm
      simp [draw_dtile_color, hcount]

/-! ## Claims on `draw_dtile` -/

/-- C6 (the code departs from it): for a source of 50 bytes in intensity mode
the window at 49 fits the source (49 + 1 <= 50), `draw_tile` packs it from
the data, but `draw_dtile` takes the pad colour for it, because it pads when
`pos + step >= map_sz`.  Two sources that differ only in their last byte are
therefore shown as matching there. -/
theorem draw_dtile_px_last_window_padded :
    49 + pack_szlut .PACK_INTENS ≤ (ent.mk (List.replicate 50 0xfe)).map_sz
    ∧ pack_pixel .PACK_INTENS ((ent.mk (List.replicate 50 0xfe)).map.drop 49)
        = some (RGBA 0xfe 0xfe 0xfe 0xff)
    ∧ draw_dtile_px .PACK_INTENS (pack_szlut .PACK_INTENS) 49 ⟨List.replicate 50 0xfe⟩
        = some color_pad
    ∧ (draw_tile ⟨fun _ => color_border, 1, 1, 1⟩ ⟨List.replicate 50 0xfe⟩ 49 0 0
          .PACK_INTENS 1).map (fun c => c.vidp 0) = some (RGBA 0xfe 0xfe 0xfe 0xff)
    ∧ (draw_dtile ⟨fun _ => color_border, 1, 1, 1⟩
          [⟨List.replicate 50 0xfe⟩, ⟨List.replicate 49 0xfe ++ [0x01]⟩] 49 0 0
          .PACK_INTENS 1).map (fun c => c.vidp 0) = some color_match := by
  decide

/-- C8: when all sources are the same (and no size_t sum wraps), `draw_dtile`
ends normally and every one of the `base * base` pixels of the tile is the
match colour. -/
theorem draw_dtile_identical_all_match (dst : arcan_shmif_cont) (ents : List ent) (e : ent)
    (pos x y : Nat) (mode : pack_mode) (base : Nat)
    (hall : ∀ a ∈ ents, a = e)
    (hpos : pos + base * base * pack_szlut mode < SIZE_MOD) :
    ∃ out, draw_dtile dst ents pos x y mode base = some out
      ∧ ∀ k, k < base * base →
          out.vidp ((y + k / base) * dst.pitch + (x + k % base)) = color_match := by
  obtain ⟨out, hout, hpk, _⟩ := draw_dtile_effect dst ents pos x y mode base hpos
  refine ⟨out, hout, fun k hk => ?_⟩
  have hbase : 0 < base := by
    rcases Nat.eq_zero_or_pos base with h | h
    · subst h; simp at hk
    · exact h
  obtain ⟨r1, c1, _, _, _, hval⟩ :=
    hpk (k / base) (k % base) (Nat.div_lt_of_lt_mul hk) (Nat.mod_lt _ hbase)
  exact draw_dtile_at_same mode _ _ e ents hall _ hval

/-- C8 at three copies of a source of 50 bytes, offset 40, base 4, tight mode. -/
theorem draw_dtile_identical_all_match_witness :
    ((∀ a ∈ List.replicate 3 (ent.mk (List.replicate 50 0xfe)),
          a = ent.mk (List.replicate 50 0xfe))
      ∧ 40 + 4 * 4 * pack_szlut .PACK_TIGHT < SIZE_MOD)
    ∧ ∃ out, draw_dtile ⟨fun _ => color_border, 4, 4, 4⟩
          (List.replicate 3 (ent.mk (List.replicate 50 0xfe))) 40 0 0 .PACK_TIGHT 4 = some out
        ∧ ∀ k, k < 4 * 4 →
            out.vidp ((0 + k / 4) * (arcan_shmif_cont.mk (fun _ => color_border) 4 4 4).pitch
              + (0 + k % 4)) = color_match :=
  ⟨⟨fun a ha => List.eq_of_mem_replicate ha, by decide⟩,
    draw_dtile_identical_all_match ⟨fun _ => color_border, 4, 4, 4⟩
      (List.replicate 3 (ent.mk (List.replicate 50 0xfe))) ⟨List.replicate 50 0xfe⟩ 40 0 0
      .PACK_TIGHT 4 (fun a ha => List.eq_of_mem_replicate ha) (by decide)⟩

theorem draw_dtile_pxbuf_map (mode : pack_mode) (step pos : Nat) (f : ent → shmif_pixel) :
    ∀ (ents : List ent), (∀ e ∈ ents, draw_dtile_px mode step pos e = some (f e)) →
      draw_dtile_pxbuf mode step pos ents = some (ents.map f) := by
  intro ents
  induction ents with
  | nil => intro _; rfl
  | cons e es ih =>
    intro h
    simp only [draw_dtile_pxbuf, h e (List.mem_cons_self _ _),
      ih (fun a ha => h a (List.mem_cons_of_mem _ ha)), List.map_cons]

/-- C7: for 1 to 256 sources (every count the argument check of `main` lets
through to `draw_dtile`; no size_t sum wrapping, a tile row fitting the
pitch) `draw_dtile` ends normally and each pixel `k` of the tile is the match
colour when no source of index at least 1 differs from source 0 at the window
`pos + k * stride`, and otherwise red 0, green `255 * mismatches / N` rounded
down, blue 0, alpha 255.  The list `pxbuf` holds the per-source pixels. -/
theorem draw_dtile_pixel_by_mismatches (dst : arcan_shmif_cont) (ents : List ent)
    (pos x y : Nat) (mode : pack_mode) (base : Nat)
    (hn : 1 ≤ ents.length) (h256 : ents.length ≤ 256) (hpitch : base ≤ dst.pitch)
    (hpos : pos + base * base * pack_szlut mode < SIZE_MOD) :
    ∃ out, draw_dtile dst ents pos x y mode base = some out
      ∧ ∀ k, k < base * base →
          ∃ pxbuf, ents.map (draw_dtile_px mode (pack_szlut mode) (pos + k * pack_szlut mode))
              = pxbuf.map some
            ∧ out.vidp ((y + k / base) * dst.pitch + (x + k % base))
              = if mismatches pxbuf = 0 then color_match
                else RGBA 0 (255 * mismatches pxbuf / ents.length) 0 255 := by
  obtain ⟨out, hout, _, hpk⟩ := draw_dtile_effect dst ents pos x y mode base hpos
  refine ⟨out, hout, fun k hk => ?_⟩
  have hval := hpk hpitch k hk
  have hk1 : (k + 1) * pack_szlut mode ≤ base * base * pack_szlut mode :=
    Nat.mul_le_mul_right _ hk
  rw [Nat.add_mul] at hk1
  obtain ⟨pxbuf, hb, hlen, hmap⟩ :=
    draw_dtile_pxbuf_some mode (pos + k * pack_szlut mode) (by omega) ents
  refine ⟨pxbuf, hmap, ?_⟩
  simp only [draw_dtile_at, hb, Option.some.injEq] at hval
  rw [← hval]
  exact draw_dtile_color_eq pxbuf ents.length hlen hn h256

/-- C7 at the sources of lengths 100, 50 and 200, offset 48, base 8, intensity. -/
theorem draw_dtile_pixel_by_mismatches_witness :
    (1 ≤ [ent.mk (List.replicate 100 0x10), ent.mk (List.replicate 50 0x20),
          ent.mk (List.replicate 200 0x10)].length
      ∧ [ent.mk (List.replicate 100 0x10), ent.mk (List.replicate 50 0x20),
          ent.mk (List.replicate 200 0x10)].length ≤ 256
      ∧ 8 ≤ (arcan_shmif_cont.mk (fun _ => color_border) 8 8 8).pitch
      ∧ 48 + 8 * 8 * pack_szlut .PACK_INTENS < SIZE_MOD)
    ∧ ∃ out, draw_dtile ⟨fun _ => color_border, 8, 8, 8⟩
          [⟨List.replicate 100 0x10⟩, ⟨List.replicate 50 0x20⟩, ⟨List.replicate 200 0x10⟩]
          48 0 0 .PACK_INTENS 8 = some out
        ∧ ∀ k, k < 8 * 8 →
          ∃ pxbuf, [ent.mk (List.replicate 100 0x10), ent.mk (List.replicate 50 0x20),
                ent.mk (List.replicate 200 0x10)].map
                (draw_dtile_px .PACK_INTENS (pack_szlut .PACK_INTENS)
                  (48 + k * pack_szlut .PACK_INTENS))
              = pxbuf.map some
            ∧ out.vidp ((0 + k / 8) * (arcan_shmif_cont.mk (fun _ => color_border) 8 8 8).pitch
                + (0 + k % 8))
              = if mismatches pxbuf = 0 then color_match
                else RGBA 0 (255 * mismatches pxbuf
                  / [ent.mk (List.replicate 100 0x10), ent.mk (List.replicate 50 0x20),
                      ent.mk (List.replicate 200 0x10)].length) 0 255 :=
  ⟨⟨by decide, by decide, by decide, by decide⟩,
    draw_dtile_pixel_by_mismatches ⟨fun _ => color_border, 8, 8, 8⟩
      [⟨List.replicate 100 0x10⟩, ⟨List.replicate 50 0x20⟩, ⟨List.replicate 200 0x10⟩]
      48 0 0 .PACK_INTENS 8 (by decide) (by decide) (by decide) (by decide)⟩

theorem draw_dtile_at_of_pxbuf (mode : pack_mode) (step pos : Nat) (ents : List ent)
    (pxbuf : List shmif_pixel) (h : draw_dtile_pxbuf mode step pos ents = some pxbuf) :
    draw_dtile_at mode step ents pos = some (draw_dtile_color pxbuf ents.length) := by
  simp only [draw_dtile_at, h]

theorem draw_dtile_color_of_count (pxbuf : List shmif_pixel) (n k : Nat)
    (h : draw_dtile_count pxbuf = k) (hk : k ≠ 0) :
    draw_dtile_color pxbuf n
      = RGBA 0x00 (scale255_to_int (f32_div k (f32_of_nat n))) 0x00 0xff := by
  simp only [draw_dtile_color, h]
  rw [if_pos hk]

theorem green_132333_of_132854 :
    scale255_to_int (f32_div 132333 (f32_of_nat 132854)) = 254 := by
  decide

/-- Beyond the counts `main` lets through, the binary32 quotient of
`draw_dtile` can round up past the next level: with 132854 sources of which
132333 differ from source 0 the pixel gets green 254, while
`255 * 132333 / 132854` rounded down is 253.  The argument check of `main`
keeps the count at 256 or less. -/
theorem draw_dtile_green_above_floor :
    (ent.mk [1, 0] :: (List.replicate 132333 (ent.mk [2, 0])
        ++ List.replicate 520 (ent.mk [1, 0]))).length = 132854
    ∧ (draw_dtile_pxbuf .PACK_INTENS (pack_szlut .PACK_INTENS) 0
        (ent.mk [1, 0] :: (List.replicate 132333 (ent.mk [2, 0])
          ++ List.replicate 520 (ent.mk [1, 0])))).map mismatches = some 132333
    ∧ (draw_dtile ⟨fun _ => color_pad, 1, 1, 1⟩
        (ent.mk [1, 0] :: (List.replicate 132333 (ent.mk [2, 0])
          ++ List.replicate 520 (ent.mk [1, 0]))) 0 0 0 .PACK_INTENS 1).map (fun c => c.vidp 0)
        = some (RGBA 0 254 0 255)
    ∧ 255 * 132333 / 132854 = 253 := by
  have hpx : draw_dtile_pxbuf .PACK_INTENS (pack_szlut .PACK_INTENS) 0
      (ent.mk [1, 0] :: (List.replicate 132333 (ent.mk [2, 0])
        ++ List.replicate 520 (ent.mk [1, 0])))
      = some (RGBA 1 1 1 255 :: (List.replicate 132333 (RGBA 2 2 2 255)
          ++ List.replicate 520 (RGBA 1 1 1 255))) := by
    rw [draw_dtile_pxbuf_map .PACK_INTENS _ 0
      (fun e => (draw_dtile_px .PACK_INTENS (pack_szlut .PACK_INTENS) 0 e).getD color_pad)]
    · simp only [List.map_cons, List.map_append, List.map_replicate]
      rfl
    · intro e he
      simp only [List.mem_cons, List.mem_append, List.mem_replicate] at he
      rcases he with h | ⟨_, h⟩ | ⟨_, h⟩ <;> subst h <;> rfl
  have hlen : (ent.mk [1, 0] :: (List.replicate 132333 (ent.mk [2, 0])
        ++ List.replicate 520 (ent.mk [1, 0]))).length = 132854 := by
    rw [List.length_cons, List.length_append, List.length_replicate, List.length_replicate]
  have hmis : mismatches (RGBA 1 1 1 255 :: (List.replicate 132333 (RGBA 2 2 2 255)
          ++ List.replicate 520 (RGBA 1 1 1 255))) = 132333 := by
    simp only [mismatches, List.countP_append, List.countP_replicate]
    have h1 : decide (RGBA 2 2 2 255 ≠ RGBA 1 1 1 255) = true := by decide
    have h2 : decide (RGBA 1 1 1 255 ≠ RGBA 1 1 1 255) = false := by decide
    rw [h1, h2]
    rfl
  have hcnt : draw_dtile_count (RGBA 1 1 1 255 :: (List.replicate 132333 (RGBA 2 2 2 255)
          ++ List.replicate 520 (RGBA 1 1 1 255))) = 132333 := by
    rw [draw_dtile_count_eq_mismatches _ (by rw [hmis]; decide), hmis]
  obtain ⟨out, hout, _, hpk⟩ := draw_dtile_effect ⟨fun _ => color_pad, 1, 1, 1⟩
    (ent.mk [1, 0] :: (List.replicate 132333 (ent.mk [2, 0])
      ++ List.replicate 520 (ent.mk [1, 0]))) 0 0 0 .PACK_INTENS 1 (by decide)
  have hval : draw_dtile_at .PACK_INTENS (pack_szlut .PACK_INTENS)
      (ent.mk [1, 0] :: (List.replicate 132333 (ent.mk [2, 0])
        ++ List.replicate 520 (ent.mk [1, 0]))) 0 = some (out.vidp 0) :=
    hpk (Nat.le_refl 1) 0 (by decide)
  have h1 := draw_dtile_at_of_pxbuf _ _ _ _ _ hpx
  rw [hlen, draw_dtile_color_of_count _ _ _ hcnt (by decide), green_132333_of_132854] at h1
  have h2 : out.vidp 0 = RGBA 0 254 0 255 := Option.some.inj (hval.symm.trans h1)
  refine ⟨hlen, ?_, ?_, by decide⟩
  · rw [hpx, Option.map_some', hmis]
  · rw [hout, Option.map_some', h2]

/-! ## One differing source: the binary32 value of `1 / N` -/

theorem bit_len_aux_lt : ∀ (f n : Nat), n ≤ f → n < 2 ^ bit_len_aux f n := by
  intro f
  induction f with
  | zero =>
    intro n h
    have : n = 0 := by omega
    subst this
    simp [bit_len_aux]
  | succ f ih =>
    intro n h
    simp only [bit_len_aux]
    by_cases h0 : n = 0
    · subst h0; simp
    · rw [if_neg h0, Nat.pow_succ]
      have := ih (n / 2) (by omega)
      omega

theorem bit_len_aux_le : ∀ (f n : Nat), n ≤ f → 0 < n → 2 ^ bit_len_aux f n ≤ 2 * n := by
  intro f
  induction f with
  | zero => intro n h hp; omega
  | succ f ih =>
    intro n h hp
    simp only [bit_len_aux]
    rw [if_neg (by omega), Nat.pow_succ]
    rcases Nat.eq_zero_or_pos (n / 2) with hz | hz
    · rw [hz]
      have : bit_len_aux f 0 = 0 := by cases f <;> simp [bit_len_aux]
      rw [this]
      omega
    · have := ih (n / 2) (by omega) hz
      omega

theorem bit_len_lt (n : Nat) : n < 2 ^ bit_len n := bit_len_aux_lt n n (Nat.le_refl n)

theorem bit_len_le (n : Nat) (h : 0 < n) : 2 ^ bit_len n ≤ 2 * n :=
  bit_len_aux_le n n (Nat.le_refl n) h

theorem f32_of_nat_ge (n : Nat) (h : 256 ≤ n) : 256 ≤ f32_of_nat n := by
  simp only [f32_of_nat]
  by_cases hl : bit_len n ≤ 24
  · rw [if_pos hl]; exact h
  · rw [if_neg hl]
    obtain ⟨sh, hsh⟩ : ∃ sh, bit_len n = sh + 24 := ⟨bit_len n - 24, by omega⟩
    have hle := bit_len_le n (by omega)
    rw [hsh, Nat.pow_add] at hle
    have hX : 0 < 2 ^ sh := Nat.two_pow_pos sh
    have e24 : (2 : Nat) ^ 24 = 16777216 := by decide
    rw [e24] at hle
    have hq : 8388608 ≤ n / 2 ^ sh := by
      rw [Nat.le_div_iff_mul_le hX]; omega
    have hsub : bit_len n - 24 = sh := by omega
    rw [hsub]
    have hq1 : n / 2 ^ sh ≤ (if n % 2 ^ sh > 2 ^ (sh - 1)
        ∨ (n % 2 ^ sh = 2 ^ (sh - 1) ∧ n / 2 ^ sh % 2 = 1) then n / 2 ^ sh + 1
        else n / 2 ^ sh) := by
      split <;> omega
    calc 256 ≤ 8388608 * 1 := by decide
      _ ≤ (n / 2 ^ sh) * 2 ^ sh := Nat.mul_le_mul hq hX
      _ ≤ _ := Nat.mul_le_mul_right _ hq1

theorem f32_div_one_small (b : Nat) (h : 256 ≤ b) : scale255_to_int (f32_div 1 b) = 0 := by
  have hb1 : bit_len 1 = 1 := by decide
  have hlt := bit_len_lt b
  simp only [scale255_to_int, f32_div, hb1]
  apply Nat.div_eq_of_lt
  generalize hP : 1 * 2 ^ (24 + bit_len b) = P
  have hPL : P = 16777216 * 2 ^ bit_len b := by
    rw [← hP, Nat.pow_add]
    have e24 : (2 : Nat) ^ 24 = 16777216 := by decide
    rw [e24]; omega
  have hP2 : 2 ^ (24 + bit_len b) = P := by omega
  rw [hP2]
  generalize hC : (if P / (b * 2 ^ 1) ≥ 2 ^ 24 then 1 else 0) = c
  have hc : c = 0 ∨ c = 1 := by
    rw [← hC]; split <;> simp
  generalize hq : b * 2 ^ 1 * 2 ^ c = q1
  have hmle : (if 2 * (P % q1) > q1 ∨ (2 * (P % q1) = q1 ∧ P / q1 % 2 = 1) then P / q1 + 1
      else P / q1) ≤ P / q1 + 1 := by
    split <;> omega
  generalize (if 2 * (P % q1) > q1 ∨ (2 * (P % q1) = q1 ∧ P / q1 % 2 = 1) then P / q1 + 1
      else P / q1) = m at hmle ⊢
  have ht := Nat.div_mul_le_self P q1
  have hq1pos : 0 < q1 := by
    rw [← hq]
    rcases hc with h0 | h1
    · subst h0; simp; omega
    · subst h1; simp; omega
  have hq1le : 4194304 * q1 ≤ P := by
    rw [← hq, hPL]
    rcases hc with h0 | h1
    · subst h0; simp; omega
    · subst h1; simp; omega
  have ht22 : 4194304 ≤ P / q1 := by
    rw [Nat.le_div_iff_mul_le hq1pos]; exact hq1le
  generalize P / q1 = t at *
  have htb : t * 256 ≤ t * b := Nat.mul_le_mul_left _ h
  rcases hc with h0 | h1
  · subst h0
    have e : q1 = 2 * b := by rw [← hq]; simp; omega
    rw [e] at ht
    have e2 : t * (2 * b) = 2 * (t * b) := by ring
    rw [e2] at ht
    have e3 : m * 2 ^ (1 + 0) = 2 * m := by simp; omega
    rw [e3]
    omega
  · subst h1
    have e : q1 = 4 * b := by rw [← hq]; simp; omega
    rw [e] at ht
    have e2 : t * (4 * b) = 4 * (t * b) := by ring
    rw [e2] at ht
    have e3 : m * 2 ^ (1 + 1) = 4 * m := by simp; omega
    rw [e3]
    omega

/-- The green channel for one mismatch among `n` sources is `255 / n` rounded
down, for every `n ≥ 2`. -/
theorem green_one (n : Nat) (h : 2 ≤ n) :
    scale255_to_int (f32_div 1 (f32_of_nat n)) = 255 / n := by
  rcases Nat.lt_or_ge n 256 with hlt | hge
  · have := green_table n (by omega) 1 (by omega) (by omega)
    rw [this]
  · rw [f32_div_one_small _ (f32_of_nat_ge n hge), Nat.div_eq_of_lt (by omega)]

theorem countP_eq_one_of_unique (P : shmif_pixel → Bool) :
    ∀ (l : List shmif_pixel) (i : Nat), i < l.length →
      (∀ j b, l[j]? = some b → (P b = true ↔ j = i)) → l.countP P = 1 := by
  intro l
  induction l with
  | nil => intro i hi; simp at hi
  | cons a l ih =>
    intro i hi h
    rw [List.countP_cons]
    cases i with
    | zero =>
      have ha : P a = true := (h 0 a (List.getElem?_cons_zero ..)).mpr rfl
      have hz : l.countP P = 0 := by
        rw [List.countP_eq_zero]
        intro b hb
        obtain ⟨j, hj, hjb⟩ := List.getElem_of_mem hb
        have h1 : (a :: l)[j + 1]? = some b := by
          rw [List.getElem?_cons_succ, List.getElem?_eq_getElem hj, hjb]
        intro hPb
        have := (h (j + 1) b h1).mp hPb
        omega
      rw [hz, ha]; rfl
    | succ i =>
      have ha : ¬ (P a = true) := by
        intro hPa
        have := (h 0 a (List.getElem?_cons_zero ..)).mp hPa
        omega
      have hrest := ih i (by simp only [List.length_cons] at hi; omega) (by
        intro j b hjb
        have h1 : (a :: l)[j + 1]? = some b := by
          rw [List.getElem?_cons_succ]; exact hjb
        have := h (j + 1) b h1
        constructor
        · intro hPb; have := this.mp hPb; omega
        · intro hji; exact this.mpr (by omega))
      rw [hrest, if_neg ha]

/-- When exactly one source of index at least 1 differs from source 0, and all
the others equal source 0, the count of `draw_dtile` is 1. -/
theorem draw_dtile_count_one (pxbuf : List shmif_pixel) (p0 : shmif_pixel)
    (h0 : pxbuf[0]? = some p0)
    (hone : ∃ i, 1 ≤ i ∧ i < pxbuf.length ∧ pxbuf[i]? ≠ some p0
      ∧ ∀ j, j < pxbuf.length → j ≠ i → pxbuf[j]? = some p0) :
    draw_dtile_count pxbuf = 1 := by
  cases pxbuf with
  | nil => simp at h0
  | cons q ps =>
    have hq : q = p0 := by simpa using h0
    subst hq
    obtain ⟨i, hi1, hilt, hne, hall⟩ := hone
    obtain ⟨i1, rfl⟩ : ∃ i1, i = i1 + 1 := ⟨i - 1, by omega⟩
    simp only [List.length_cons] at hilt hall
    have hm : mismatches (q :: ps) = 1 := by
      simp only [mismatches]
      apply countP_eq_one_of_unique _ ps i1 (by omega)
      intro j b hjb
      have hjlt : j < ps.length := by
        by_contra hcon
        have := List.getElem?_eq_none (Nat.le_of_not_lt hcon) (l := ps)
        rw [this] at hjb
        exact Option.noConfusion hjb
      constructor
      · intro hb
        by_contra hji
        have := hall (j + 1) (by omega) (by omega)
        rw [List.getElem?_cons_succ, hjb] at this
        have hbq : b = q := Option.some.inj this
        simp [hbq] at hb
      · intro hji
        subst hji
        rw [List.getElem?_cons_succ, hjb] at hne
        have : b ≠ q := fun hbq => hne (by rw [hbq])
        simpa using this
    rw [draw_dtile_count_eq_mismatches _ (by rw [hm]; decide), hm]

/-- C9 (amended): for two or more sources (no size_t sum wrapping, a tile row
fitting the pitch) and every tile pixel at whose window exactly one source of
index at least 1 has a pixel different from the pixel of source 0, all others
being equal to it, `draw_dtile` counts one mismatch and stores red 0, green
`255 / N` rounded down, blue 0, alpha 255. -/
theorem draw_dtile_one_differs (dst : arcan_shmif_cont) (ents : List ent)
    (pos x y : Nat) (mode : pack_mode) (base : Nat)
    (hn : 2 ≤ ents.length) (hpitch : base ≤ dst.pitch)
    (hpos : pos + base * base * pack_szlut mode < SIZE_MOD) :
    ∃ out, draw_dtile dst ents pos x y mode base = some out
      ∧ ∀ k, k < base * base → ∀ pxbuf p0,
          draw_dtile_pxbuf mode (pack_szlut mode) (pos + k * pack_szlut mode) ents = some pxbuf →
          pxbuf[0]? = some p0 →
          (∃ i, 1 ≤ i ∧ i < pxbuf.length ∧ pxbuf[i]? ≠ some p0
            ∧ ∀ j, j < pxbuf.length → j ≠ i → pxbuf[j]? = some p0) →
          draw_dtile_count pxbuf = 1
            ∧ out.vidp ((y + k / base) * dst.pitch + (x + k % base))
              = RGBA 0 (255 / ents.length) 0 255 := by
  obtain ⟨out, hout, _, hpk⟩ := draw_dtile_effect dst ents pos x y mode base hpos
  refine ⟨out, hout, fun k hk pxbuf p0 hb h0 hone => ?_⟩
  have hval := hpk hpitch k hk
  have hcnt := draw_dtile_count_one pxbuf p0 h0 hone
  refine ⟨hcnt, ?_⟩
  rw [draw_dtile_at_of_pxbuf _ _ _ _ _ hb,
    draw_dtile_color_of_count _ _ _ hcnt (by decide), green_one _ hn] at hval
  exact (Option.some.inj hval).symm

/-- C9 (amended) at three sources of which the second differs, base 1. -/
theorem draw_dtile_one_differs_witness :
    (2 ≤ [ent.mk [1, 0], ent.mk [2, 0], ent.mk [1, 0]].length
      ∧ 1 ≤ (arcan_shmif_cont.mk (fun _ => color_border) 1 1 1).pitch
      ∧ 0 + 1 * 1 * pack_szlut .PACK_INTENS < SIZE_MOD)
    ∧ ∃ out, draw_dtile ⟨fun _ => color_border, 1, 1, 1⟩ [⟨[1, 0]⟩, ⟨[2, 0]⟩, ⟨[1, 0]⟩]
          0 0 0 .PACK_INTENS 1 = some out
      ∧ ∀ k, k < 1 * 1 → ∀ pxbuf p0,
          draw_dtile_pxbuf .PACK_INTENS (pack_szlut .PACK_INTENS)
            (0 + k * pack_szlut .PACK_INTENS) [⟨[1, 0]⟩, ⟨[2, 0]⟩, ⟨[1, 0]⟩] = some pxbuf →
          pxbuf[0]? = some p0 →
          (∃ i, 1 ≤ i ∧ i < pxbuf.length ∧ pxbuf[i]? ≠ some p0
            ∧ ∀ j, j < pxbuf.length → j ≠ i → pxbuf[j]? = some p0) →
          draw_dtile_count pxbuf = 1
            ∧ out.vidp ((0 + k / 1) * (arcan_shmif_cont.mk (fun _ => color_border) 1 1 1).pitch
                + (0 + k % 1))
              = RGBA 0 (255 / [ent.mk [1, 0], ent.mk [2, 0], ent.mk [1, 0]].length) 0 255 :=
  ⟨⟨by decide, by decide, by decide⟩,
    draw_dtile_one_differs ⟨fun _ => color_border, 1, 1, 1⟩ [⟨[1, 0]⟩, ⟨[2, 0]⟩, ⟨[1, 0]⟩]
      0 0 0 .PACK_INTENS 1 (by decide) (by decide) (by decide)⟩

/-- C9 as stated fails when the one differing source is source 0: of three
sources the pixels of sources 1 and 2 are equal and source 0 differs from
them; `draw_dtile` counts two mismatches and stores green 170, not
`255 / 3 = 85`. -/
theorem draw_dtile_source0_differs :
    draw_dtile_pxbuf .PACK_INTENS (pack_szlut .PACK_INTENS) 0
        [⟨[1, 0]⟩, ⟨[2, 0]⟩, ⟨[2, 0]⟩]
      = some [RGBA 1 1 1 255, RGBA 2 2 2 255, RGBA 2 2 2 255]
    ∧ draw_dtile_count [RGBA 1 1 1 255, RGBA 2 2 2 255, RGBA 2 2 2 255] = 2
    ∧ (draw_dtile ⟨fun _ => color_pad, 1, 1, 1⟩ [⟨[1, 0]⟩, ⟨[2, 0]⟩, ⟨[2, 0]⟩] 0 0 0
        .PACK_INTENS 1).map (fun c => c.vidp 0) = some (RGBA 0 170 0 255)
    ∧ 255 / [ent.mk [1, 0], ent.mk [2, 0], ent.mk [2, 0]].length = 85 := by
  decide

/-! ## `resize_base`: the grid -/

theorem isqrt_aux_spec : ∀ (k n acc : Nat), acc * acc ≤ n →
    n < (acc + 2 ^ k) * (acc + 2 ^ k) →
    isqrt_aux k n acc * isqrt_aux k n acc ≤ n
      ∧ n < (isqrt_aux k n acc + 1) * (isqrt_aux k n acc + 1) := by
  intro k
  induction k with
  | zero =>
    intro n acc h1 h2
    simpa [isqrt_aux] using ⟨h1, h2⟩
  | succ k ih =>
    intro n acc h1 h2
    simp only [isqrt_aux]
    by_cases hc : (acc + 2 ^ k) * (acc + 2 ^ k) ≤ n
    · rw [if_pos hc]
      apply ih n _ hc
      have e : acc + 2 ^ k + 2 ^ k = acc + 2 ^ (k + 1) := by rw [Nat.pow_succ]; omega
      rw [e]; exact h2
    · rw [if_neg hc]
      exact ih n acc h1 (by omega)

/-- The bit-by-bit search yields the integer square root. -/
theorem isqrt_spec (n : Nat) :
    isqrt n * isqrt n ≤ n ∧ n < (isqrt n + 1) * (isqrt n + 1) := by
  apply isqrt_aux_spec
  · simp
  · have h := bit_len_lt n
    have hp : 1 ≤ 2 ^ bit_len n := Nat.two_pow_pos _
    calc n < 2 ^ bit_len n := h
      _ = 2 ^ bit_len n * 1 := (Nat.mul_one _).symm
      _ ≤ 2 ^ bit_len n * 2 ^ bit_len n := Nat.mul_le_mul_left _ hp
      _ = (0 + 2 ^ bit_len n) * (0 + 2 ^ bit_len n) := by simp

/-- For 1 to 257 tiles (the counts `main` passes) the binary32 computation of
`resize_base` gives the least `npr` whose square reaches `n` and
`nr = n / npr` rounded up. -/
theorem resize_base_table : ∀ n, n < 258 → 1 ≤ n →
    (resize_base_npr n - 1) * (resize_base_npr n - 1) < n
      ∧ n ≤ resize_base_npr n * resize_base_npr n
      ∧ resize_base_nr n = (n + resize_base_npr n - 1) / resize_base_npr n
      ∧ n ≤ resize_base_npr n * resize_base_nr n
      ∧ resize_base_npr n * (resize_base_nr n - 1) < n := by
  decide!

theorem size_mod_eq : SIZE_MOD = 18446744073709551616 := by decide

theorem resize_base_ceil (n : Nat) (h1 : 1 ≤ n) (h257 : n ≤ 257) :
    resize_base_npr n = Nat.ceil (Real.sqrt n)
      ∧ resize_base_nr n = Nat.ceil ((n : ℚ) / (resize_base_npr n : ℚ)) := by
  obtain ⟨t1, t2, _, t4, t5⟩ := resize_base_table n (by omega) h1
  have hc : 0 < resize_base_npr n := by
    rcases Nat.eq_zero_or_pos (resize_base_npr n) with h | h
    · rw [h] at t2; omega
    · exact h
  constructor
  · symm
    rw [Nat.ceil_eq_iff (by omega)]
    constructor
    · apply Real.lt_sqrt_of_sq_lt
      have : ((resize_base_npr n - 1 : Nat) : ℝ) ^ 2 < (n : ℝ) := by
        rw [sq]; exact_mod_cast t1
      exact this
    · rw [Real.sqrt_le_left (by positivity)]
      rw [sq]; exact_mod_cast t2
  · have hr : resize_base_nr n ≠ 0 := by
      intro h
      rw [h] at t4
      omega
    have hcq : (0 : ℚ) < (resize_base_npr n : ℚ) := by exact_mod_cast hc
    symm
    rw [Nat.ceil_eq_iff hr]
    constructor
    · rw [lt_div_iff₀ hcq]
      have : resize_base_npr n * (resize_base_nr n - 1) < n := t5
      rw [Nat.mul_comm] at this
      exact_mod_cast this
    · rw [div_le_iff₀ hcq]
      have : n ≤ resize_base_npr n * resize_base_nr n := t4
      rw [Nat.mul_comm] at this
      exact_mod_cast this

/-- For the counts `main` passes and sizes below `2 ^ 32`, no `size_t`
operation of `resize_base` wraps. -/
theorem resize_base_dims_eq (base n border : Nat) (h1 : 1 ≤ n) (h257 : n ≤ 257)
    (hb : base + border < 2 ^ 32) :
    resize_base_dims base n border
      = (resize_base_npr n * (base + border) - border,
         resize_base_nr n * (base + border) - border) := by
  obtain ⟨t1, t2, _, t4, t5⟩ := resize_base_table n (by omega) h1
  have hc : 1 ≤ resize_base_npr n := by
    rcases Nat.eq_zero_or_pos (resize_base_npr n) with h | h
    · rw [h] at t2; omega
    · exact h
  have hr : 1 ≤ resize_base_nr n := by
    rcases Nat.eq_zero_or_pos (resize_base_nr n) with h | h
    · rw [h] at t4; omega
    · exact h
  have hc257 : resize_base_npr n ≤ 257 := by
    by_contra hcon
    have h1 : 257 ≤ resize_base_npr n - 1 := by omega
    have := Nat.mul_le_mul h1 h1
    omega
  have hr257 : resize_base_nr n ≤ 257 := by
    have := Nat.le_mul_of_pos_left (resize_base_nr n - 1) hc
    omega
  have hM := size_mod_eq
  have m0 : (base + border) % SIZE_MOD = base + border := Nat.mod_eq_of_lt (by omega)
  have p1 := Nat.mul_le_mul_right (base + border) hc257
  have p2 := Nat.mul_le_mul_right (base + border) hr257
  have q1 := Nat.mul_le_mul_right (base + border) hc
  have q2 := Nat.mul_le_mul_right (base + border) hr
  have m1 : (resize_base_npr n * (base + border)) % SIZE_MOD
      = resize_base_npr n * (base + border) := Nat.mod_eq_of_lt (by omega)
  have m2 : (resize_base_nr n * (base + border)) % SIZE_MOD
      = resize_base_nr n * (base + border) := Nat.mod_eq_of_lt (by omega)
  simp only [resize_base_dims, size_sub, m0, m1, m2]
  rw [if_pos (by omega), if_pos (by omega)]

/-- C10: for 1 to 257 tiles (every count `main` passes: at most 256 sources,
and one more for the diff tile on a resize) and `base + border` below `2 ^ 32`
(a base from an `int` hint, a border of at most 9), the `npr` of `resize_base`
is the ceiling of the square root of `n` (the least number whose square
reaches `n`), `nr` is `n / npr` rounded up, `npr * nr ≥ n`,
`npr * (nr - 1) < n`, and the canvas requested is
`npr * (base + border) - border` wide and `nr * (base + border) - border`
high, no `size_t` operation wrapping. -/
theorem resize_base_grid (base n border : Nat) (h1 : 1 ≤ n) (h257 : n ≤ 257)
    (hb : base + border < 2 ^ 32) :
    resize_base_npr n = Nat.ceil (Real.sqrt n)
      ∧ resize_base_nr n = Nat.ceil ((n : ℚ) / (resize_base_npr n : ℚ))
      ∧ n ≤ resize_base_npr n * resize_base_nr n
      ∧ resize_base_npr n * (resize_base_nr n - 1) < n
      ∧ resize_base_dims base n border
          = (resize_base_npr n * (base + border) - border,
             resize_base_nr n * (base + border) - border) := by
  obtain ⟨_, _, _, t4, t5⟩ := resize_base_table n (by omega) h1
  obtain ⟨c1, c2⟩ := resize_base_ceil n h1 h257
  exact ⟨c1, c2, t4, t5, resize_base_dims_eq base n border h1 h257 hb⟩

/-- C10 at 3 tiles, base 64, border 1. -/
theorem resize_base_grid_witness :
    (1 ≤ 3 ∧ 3 ≤ 257 ∧ 64 + 1 < 2 ^ 32)
    ∧ resize_base_npr 3 = Nat.ceil (Real.sqrt (3 : Nat))
      ∧ resize_base_nr 3 = Nat.ceil (((3 : Nat) : ℚ) / (resize_base_npr 3 : ℚ))
      ∧ 3 ≤ resize_base_npr 3 * resize_base_nr 3
      ∧ resize_base_npr 3 * (resize_base_nr 3 - 1) < 3
      ∧ resize_base_dims 64 3 1
          = (resize_base_npr 3 * (64 + 1) - 1, resize_base_nr 3 * (64 + 1) - 1) :=
  ⟨⟨by decide, by decide, by decide⟩,
    resize_base_grid 64 3 1 (by decide) (by decide) (by decide)⟩

/-- Beyond the counts `main` passes the binary32 values of `resize_base` can
fall short: for 16785410 = 4097 * 4097 + 1 tiles the square root and the
quotient both round to 4097, so `npr = nr = 4097` and `npr * nr` is less than
`n`.  The argument check of `main` keeps the count at 257 or less. -/
theorem resize_base_grid_too_small :
    resize_base_npr 16785410 = 4097 ∧ resize_base_nr 16785410 = 4097
      ∧ resize_base_npr 16785410 * resize_base_npr 16785410 < 16785410
      ∧ resize_base_npr 16785410 * resize_base_nr 16785410 < 16785410 := by
  decide!

/-! ## `refresh_data`: where the tiles go -/

theorem succ_div_mod_wrap (c i : Nat) (h : i % c + 1 = c) :
    (i + 1) % c = 0 ∧ (i + 1) / c = i / c + 1 := by
  have hc : 0 < c := by omega
  have e : i + 1 = c * (i / c + 1) := by
    have := Nat.div_add_mod i c
    rw [Nat.mul_add, Nat.mul_one]
    omega
  rw [e]
  exact ⟨Nat.mul_mod_right _ _, Nat.mul_div_cancel_left _ hc⟩

theorem succ_div_mod_stay (c i : Nat) (h : i % c + 1 < c) :
    (i + 1) % c = i % c + 1 ∧ (i + 1) / c = i / c := by
  have hc : 0 < c := by omega
  have e : i + 1 = (i % c + 1) + c * (i / c) := by
    have := Nat.div_add_mod i c
    omega
  constructor
  · rw [e, Nat.add_mul_mod_self_left]
    exact Nat.mod_eq_of_lt h
  · rw [e, Nat.add_mul_div_left _ _ hc, Nat.div_eq_of_lt h, Nat.zero_add]

theorem draw_tile_keeps_size (dst out : arcan_shmif_cont) (e : ent) (pos x y : Nat)
    (mode : pack_mode) (base : Nat) (h : draw_tile dst e pos x y mode base = some out) :
    out.w = dst.w ∧ out.h = dst.h ∧ out.pitch = dst.pitch := by
  simp only [draw_tile] at h
  split at h
  · exact Option.noConfusion h
  · have := Option.some.inj h
    subst this
    exact ⟨rfl, rfl, rfl⟩

theorem index_split (p a b a1 b1 : Nat) (hb : b < p) (hb1 : b1 < p)
    (h : a * p + b = a1 * p + b1) : a = a1 ∧ b = b1 := by
  rcases Nat.lt_trichotomy a a1 with hlt | heq | hgt
  · have := Nat.mul_le_mul_right p (Nat.succ_le_of_lt hlt)
    rw [Nat.succ_mul] at this
    omega
  · subst heq
    exact ⟨rfl, by omega⟩
  · have := Nat.mul_le_mul_right p (Nat.succ_le_of_lt hgt)
    rw [Nat.succ_mul] at this
    omega

/-- The stores of `draw_tile` stay inside its tile. -/
theorem draw_tile_frame (dst : arcan_shmif_cont) (e : ent) (pos x y : Nat)
    (mode : pack_mode) (base : Nat) (hbase : 0 < base)
    (hpos : pos + base * base * pack_szlut mode < SIZE_MOD)
    (hsz : e.map_sz + base * base * pack_szlut mode < SIZE_MOD)
    (out : arcan_shmif_cont) (hout : draw_tile dst e pos x y mode base = some out) :
    ∀ i, (∀ r c, y ≤ r → r < y + base → c < base → i ≠ r * dst.pitch + (x + c)) →
      out.vidp i = dst.vidp i := by
  obtain ⟨_, hle, hin⟩ := draw_tile_ntw_spec e pos mode base hpos hsz
  have hmin : min (draw_tile_ntw e pos mode base) (base * base) = draw_tile_ntw e pos mode base :=
    Nat.min_eq_left hle
  obtain ⟨r1, v1, hv1, hlo, hhi, _, _, _, hun⟩ :=
    draw_tile_rows_spec mode e.map dst.pitch x base hbase base y
      (draw_tile_ntw e pos mode base) pos dst.vidp (by
        intro j hj
        rw [hmin] at hj
        exact hin j hj)
  obtain ⟨_, _, p3⟩ := draw_tile_pad_rows_spec dst.pitch x base (base + y - r1) r1 v1
  have hd : draw_tile dst e pos x y mode base
      = some { dst with vidp := draw_tile_pad_rows dst.pitch x (base + x) (base + y - r1) r1 v1 } := by
    simp only [draw_tile, Nat.add_sub_cancel, hv1]
  rw [hd] at hout
  have ho := Option.some.inj hout
  subst ho
  intro i hi
  show draw_tile_pad_rows dst.pitch x (base + x) (base + y - r1) r1 v1 i = dst.vidp i
  rw [p3 i (fun r c h1 h2 hc => hi r c (by omega) (by omega) hc)]
  exact hun i (fun r c h1 h2 hc => hi r c h1 (by omega) hc)

theorem vid_store_congr (S : Nat → Prop) (v w : Nat → shmif_pixel) (k : Nat) (px : shmif_pixel)
    (h : ∀ i, S i → v i = w i) : ∀ i, S i → vid_store v k px i = vid_store w k px i := by
  intro i hi
  simp only [vid_store]
  split
  · rfl
  · exact h i hi

theorem draw_tile_cols_congr (mode : pack_mode) (step pitch row : Nat) (S : Nat → Prop) :
    ∀ (n col ntw : Nat) (buf : List (Fin 256)) (v w : Nat → shmif_pixel),
      (∀ i, S i → v i = w i) →
      ∀ a b v1, draw_tile_cols mode step pitch row n col ntw buf v = some (a, b, v1) →
        ∃ w1, draw_tile_cols mode step pitch row n col ntw buf w = some (a, b, w1)
          ∧ ∀ i, S i → v1 i = w1 i := by
  intro n
  induction n with
  | zero =>
    intro col ntw buf v w hvw a b v1 h
    simp only [draw_tile_cols, Option.some.injEq, Prod.mk.injEq] at h
    obtain ⟨rfl, rfl, rfl⟩ := h
    exact ⟨w, by simp only [draw_tile_cols], hvw⟩
  | succ n ih =>
    intro col ntw buf v w hvw a b v1 h
    by_cases h0 : ntw = 0
    · simp only [draw_tile_cols, if_pos h0, Option.some.injEq, Prod.mk.injEq] at h
      obtain ⟨rfl, rfl, rfl⟩ := h
      exact ⟨w, by simp only [draw_tile_cols, if_pos h0], hvw⟩
    · cases hp : pack_pixel mode buf with
      | none =>
        simp only [draw_tile_cols, if_neg h0, hp] at h
        exact Option.noConfusion h
      | some px =>
        simp only [draw_tile_cols, if_neg h0, hp] at h ⊢
        exact ih _ _ _ _ _ (vid_store_congr S v w _ px hvw) a b v1 h

theorem draw_tile_rows_congr (mode : pack_mode) (step pitch x col_lim : Nat) (S : Nat → Prop) :
    ∀ (m row ntw : Nat) (buf : List (Fin 256)) (v w : Nat → shmif_pixel),
      (∀ i, S i → v i = w i) →
      ∀ r1 v1, draw_tile_rows mode step pitch x col_lim m row ntw buf v = some (r1, v1) →
        ∃ w1, draw_tile_rows mode step pitch x col_lim m row ntw buf w = some (r1, w1)
          ∧ ∀ i, S i → v1 i = w1 i := by
  intro m
  induction m with
  | zero =>
    intro row ntw buf v w hvw r1 v1 h
    simp only [draw_tile_rows, Option.some.injEq, Prod.mk.injEq] at h
    obtain ⟨rfl, rfl⟩ := h
    exact ⟨w, by simp only [draw_tile_rows], hvw⟩
  | succ m ih =>
    intro row ntw buf v w hvw r1 v1 h
    by_cases h0 : ntw = 0
    · simp only [draw_tile_rows, if_pos h0, Option.some.injEq, Prod.mk.injEq] at h
      obtain ⟨rfl, rfl⟩ := h
      exact ⟨w, by simp only [draw_tile_rows, if_pos h0], hvw⟩
    · cases hc : draw_tile_cols mode step pitch row (col_lim - x) x ntw buf v with
      | none =>
        simp only [draw_tile_rows, if_neg h0, hc] at h
        exact Option.noConfusion h
      | some res =>
        obtain ⟨a, b, v0⟩ := res
        obtain ⟨w0, hw0, hag⟩ :=
          draw_tile_cols_congr mode step pitch row S _ _ _ _ v w hvw a b v0 hc
        simp only [draw_tile_rows, if_neg h0, hc] at h
        simp only [draw_tile_rows, if_neg h0, hw0]
        exact ih _ _ _ _ _ hag r1 v1 h

theorem draw_tile_pad_cols_congr (pitch row : Nat) (S : Nat → Prop) :
    ∀ (n col : Nat) (v w : Nat → shmif_pixel), (∀ i, S i → v i = w i) →
      ∀ i, S i → draw_tile_pad_cols pitch row n col v i = draw_tile_pad_cols pitch row n col w i := by
  intro n
  induction n with
  | zero => intro col v w h; exact h
  | succ n ih =>
    intro col v w h
    simp only [draw_tile_pad_cols]
    exact ih _ _ _ (vid_store_congr S v w _ _ h)

theorem draw_tile_pad_rows_congr (pitch x col_lim : Nat) (S : Nat → Prop) :
    ∀ (m row : Nat) (v w : Nat → shmif_pixel), (∀ i, S i → v i = w i) →
      ∀ i, S i → draw_tile_pad_rows pitch x col_lim m row v i
        = draw_tile_pad_rows pitch x col_lim m row w i := by
  intro m
  induction m with
  | zero => intro row v w h; exact h
  | succ m ih =>
    intro row v w h
    simp only [draw_tile_pad_rows]
    exact ih _ _ _ (draw_tile_pad_cols_congr pitch row S _ _ v w h)

/-- On any set of pixels, what `draw_tile` leaves depends only on what the
canvas held there before. -/
theorem draw_tile_congr (d d1 : arcan_shmif_cont) (e : ent) (pos x y : Nat)
    (mode : pack_mode) (base : Nat) (S : Nat → Prop) (hp : d.pitch = d1.pitch)
    (hag : ∀ i, S i → d.vidp i = d1.vidp i)
    (t : arcan_shmif_cont) (h : draw_tile d e pos x y mode base = some t) :
    ∃ t1, draw_tile d1 e pos x y mode base = some t1 ∧ ∀ i, S i → t.vidp i = t1.vidp i := by
  simp only [draw_tile] at h ⊢
  cases hr : draw_tile_rows mode (pack_szlut mode) d.pitch x (base + x) (base + y - y) y
      (draw_tile_ntw e pos mode base) (e.map.drop pos) d.vidp with
  | none =>
    rw [hr] at h
    exact Option.noConfusion h
  | some res =>
    obtain ⟨row, v⟩ := res
    obtain ⟨w, hw, hvw⟩ := draw_tile_rows_congr mode (pack_szlut mode) d.pitch x (base + x) S
      _ _ _ _ d.vidp d1.vidp hag row v hr
    rw [hr] at h
    have ht := Option.some.inj h
    subst ht
    rw [← hp, hw]
    exact ⟨_, rfl, draw_tile_pad_rows_congr d.pitch x (base + x) S _ _ v w hvw⟩

/-- A later tile of the grid is to the right in the same row, or in a row
further down. -/
theorem tile_after (c i j : Nat) (hij : i < j) :
    (j / c = i / c ∧ i % c + 1 ≤ j % c) ∨ i / c + 1 ≤ j / c := by
  have hdiv : i / c ≤ j / c := Nat.div_le_div_right (Nat.le_of_lt hij)
  rcases Nat.eq_or_lt_of_le hdiv with heq | hlt
  · have hi := Nat.div_add_mod i c
    have hj := Nat.div_add_mod j c
    rw [heq] at hi
    left
    exact ⟨heq.symm, by omega⟩
  · right; omega

theorem draw_box_fill_frame (d : arcan_shmif_cont) (x y w h : Nat) (col : shmif_pixel)
    (row cl : Nat) (hcl : cl < d.pitch)
    (hout : ¬ (y ≤ row ∧ row < y + h ∧ x ≤ cl ∧ cl < x + w)) :
    draw_box_fill d x y w h col (row * d.pitch + cl) = d.vidp (row * d.pitch + cl) := by
  have hp : 0 < d.pitch := by omega
  have hdiv : (row * d.pitch + cl) / d.pitch = row := by
    rw [Nat.mul_comm, Nat.mul_add_div hp, Nat.div_eq_of_lt hcl, Nat.add_zero]
  have hmod : (row * d.pitch + cl) % d.pitch = cl := by
    rw [Nat.mul_comm, Nat.mul_add_mod, Nat.mod_eq_of_lt hcl]
  simp only [draw_box_fill, hdiv, hmod]
  rw [if_neg]
  rintro ⟨h1, h2, _, h4, h5, _⟩
  exact hout ⟨h1, h2, h4, h5⟩

theorem refresh_data_loop_spec
    (draw_box : arcan_shmif_cont → Nat → Nat → Nat → Nat → shmif_pixel → (Nat → shmif_pixel))
    (hbox : ∀ (d : arcan_shmif_cont) (x y w h : Nat) (col : shmif_pixel) (row cl : Nat),
      cl < d.pitch → ¬ (y ≤ row ∧ row < y + h ∧ x ≤ cl ∧ cl < x + w) →
      draw_box d x y w h col (row * d.pitch + cl) = d.vidp (row * d.pitch + cl))
    (base : Nat) (mode : pack_mode) (pos border c r : Nat) (hbase : 1 ≤ base) :
    ∀ (es : List ent) (i : Nat) (dst : arcan_shmif_cont),
      dst.w = c * (base + border) - border → dst.h = r * (base + border) - border →
      dst.w ≤ dst.pitch →
      dst.w + base + border < SIZE_MOD → dst.h + base + border < SIZE_MOD →
      i + es.length ≤ c * r →
      (∀ e ∈ es, pos + base * base * pack_szlut mode < SIZE_MOD
        ∧ e.map_sz + base * base * pack_szlut mode < SIZE_MOD) →
      ∃ out, refresh_data_loop draw_box base mode pos border es
          ((i % c) * (base + border)) ((i / c) * (base + border)) dst
        = some (out, (List.range' i es.length).map
            (fun k => ((k % c) * (base + border), (k / c) * (base + border))))
        ∧ out.pitch = dst.pitch
        ∧ (∀ row cl, cl < dst.pitch →
            (row < (i / c) * (base + border)
              ∨ (row < (i / c) * (base + border) + base ∧ cl < (i % c) * (base + border))) →
            out.vidp (row * dst.pitch + cl) = dst.vidp (row * dst.pitch + cl))
        ∧ (∀ k e, es[k]? = some e →
            ∃ t, draw_tile dst e pos (((i + k) % c) * (base + border))
                  (((i + k) / c) * (base + border)) mode base = some t
              ∧ ∀ row col, row < base → col < base →
                out.vidp ((((i + k) / c) * (base + border) + row) * dst.pitch
                    + (((i + k) % c) * (base + border) + col))
                  = t.vidp ((((i + k) / c) * (base + border) + row) * dst.pitch
                    + (((i + k) % c) * (base + border) + col))) := by
  intro es
  induction es with
  | nil =>
    intro i dst _ _ _ _ _ _ _
    refine ⟨dst, rfl, rfl, fun _ _ _ _ => rfl, ?_⟩
    intro k e hk
    simp at hk
  | cons e es ih =>
    intro i dst hw hh hpitch hcw hch hlen hfit
    simp only [List.length_cons] at hlen
    have hilt : i < c * r := by omega
    have hc : 0 < c := by
      rcases Nat.eq_zero_or_pos c with h | h
      · subst h; simp at hilt
      · exact h
    have hrow : i / c < r := Nat.div_lt_of_lt_mul hilt
    have hmod : i % c < c := Nat.mod_lt _ hc
    generalize hu : base + border = u at *
    have hrow1 : (i / c + 1) * u ≤ r * u := Nat.mul_le_mul_right _ hrow
    rw [Nat.add_mul, Nat.one_mul] at hrow1
    have hcol1 : (i % c + 1) * u ≤ c * u := Nat.mul_le_mul_right _ hmod
    rw [Nat.add_mul, Nat.one_mul] at hcol1
    have hcond : i / c * u ≤ size_sub dst.h base := by
      have : base ≤ dst.h := by omega
      rw [size_sub, if_pos this]
      omega
    obtain ⟨he1, he2⟩ := hfit e (List.mem_cons_self _ _)
    obtain ⟨d1, hd1, _, _⟩ :=
      draw_tile_effect dst e pos (i % c * u) (i / c * u) mode base hbase he1 he2
    obtain ⟨k1, k2, k3⟩ := draw_tile_keeps_size _ _ _ _ _ _ _ _ hd1
    have F1 := draw_tile_frame dst e pos (i % c * u) (i / c * u) mode base hbase he1 he2 d1 hd1
    -- pixels outside the tile of `e` are as before the call
    have G1 : ∀ row cl, cl < dst.pitch →
        ¬ (i / c * u ≤ row ∧ row < i / c * u + base ∧ i % c * u ≤ cl ∧ cl < i % c * u + base) →
        d1.vidp (row * dst.pitch + cl) = dst.vidp (row * dst.pitch + cl) := by
      intro row cl hcl hno
      apply F1
      intro r0 c0 h1 h2 h3 heq
      obtain ⟨e1, e2⟩ := index_split dst.pitch row cl r0 (i % c * u + c0) hcl (by omega) heq
      apply hno
      omega
    have mu : u % SIZE_MOD = u := Nat.mod_eq_of_lt (by omega)
    have mx1 : (i % c * u + base + border) % SIZE_MOD = i % c * u + base + border :=
      Nat.mod_eq_of_lt (by omega)
    have mx2 : (i % c * u + base + border + base) % SIZE_MOD = i % c * u + base + border + base :=
      Nat.mod_eq_of_lt (by omega)
    have my1 : (i / c * u + u) % SIZE_MOD = i / c * u + u := Nat.mod_eq_of_lt (by omega)
    have my2 : (i / c * u + base) % SIZE_MOD = i / c * u + base := Nat.mod_eq_of_lt (by omega)
    have msub : size_sub (i % c * u + base + border) border = i % c * u + base := by
      rw [size_sub, if_pos (by omega)]; omega
    simp only [refresh_data_loop, if_pos hcond, hd1, hu, mu, mx1, mx2, my1, my2, msub,
      List.range'_succ, List.map_cons]
    clear mu mx1 mx2 my1 my2 msub hcond F1
    by_cases hwrap : i % c + 1 = c
    · obtain ⟨m1, m2⟩ := succ_div_mod_wrap c i hwrap
      have hxw : i % c * u + u = c * u := by
        have := congrArg (· * u) hwrap
        simp only [Nat.add_mul, Nat.one_mul] at this
        exact this
      have hgt : i % c * u + base + border + base > d1.w := by
        rw [k1, hw]; omega
      rw [if_pos hgt]
      obtain ⟨out, hout, hop, hB, hC⟩ := ih (i + 1)
        (if border ≠ 0 then
          { d1 with vidp := (draw_box d1 0 (i / c * u + base) d1.w border color_border) }
         else d1)
        (by split <;> simp [k1, hw]) (by split <;> simp [k2, hh])
        (by split <;> simp [k1, k3, hpitch])
        (by split <;> simp only [k1] <;> exact hcw)
        (by split <;> simp only [k2] <;> exact hch)
        (by omega)
        (fun a ha => hfit a (List.mem_cons_of_mem _ ha))
      clear ih hfit hcw hch he1 he2
      have hnp : (if border ≠ 0 then
          ({ d1 with vidp := (draw_box d1 0 (i / c * u + base) d1.w border color_border) } :
            arcan_shmif_cont)
         else d1).pitch = dst.pitch := by split <;> simp [k3]
      -- the separator below the row leaves the rows above it
      have G2 : ∀ row cl, cl < dst.pitch →
          ¬ (i / c * u + base ≤ row ∧ row < i / c * u + base + border) →
          (if border ≠ 0 then
            ({ d1 with vidp := (draw_box d1 0 (i / c * u + base) d1.w border color_border) } :
              arcan_shmif_cont)
           else d1).vidp (row * dst.pitch + cl) = d1.vidp (row * dst.pitch + cl) := by
        intro row cl hcl hr
        split
        · show draw_box d1 0 (i / c * u + base) d1.w border color_border _ = _
          rw [← k3]
          exact hbox d1 _ _ _ _ _ row cl (by rw [k3]; exact hcl) (by omega)
        · rfl
      rw [m1, m2, Nat.zero_mul, Nat.add_mul, Nat.one_mul] at hout hB
      rw [hnp] at hop hB hC
      refine ⟨out, ?_, hop, ?_, ?_⟩
      · dsimp only
        rw [hout]
        simp only [List.length_cons, List.range'_succ, List.map_cons]
      · intro row cl hcl hreg
        rw [hB row cl hcl (by omega), G2 row cl hcl (by omega)]
        exact G1 row cl hcl (by omega)
      · intro k a hk
        rcases k with _ | k
        · simp only [List.getElem?_cons_zero, Option.some.injEq] at hk
          subst hk
          refine ⟨d1, hd1, ?_⟩
          intro row col hr hcl
          simp only [Nat.add_zero]
          have hcp : i % c * u + col < dst.pitch := by omega
          rw [hB _ _ hcp (by omega)]
          exact G2 _ _ hcp (by omega)
        · simp only [List.getElem?_cons_succ] at hk
          obtain ⟨t1, ht1, hag1⟩ := hC k a hk
          have hidx : i + (k + 1) = i + 1 + k := by omega
          rw [hidx]
          have hlk : k < es.length := by
            rcases Nat.lt_or_ge k es.length with h | h
            · exact h
            · rw [List.getElem?_eq_none h] at hk
              exact Option.noConfusion hk
          have hjm : (i + 1 + k) % c < c := Nat.mod_lt _ hc
          have hjc : ((i + 1 + k) % c + 1) * u ≤ c * u := Nat.mul_le_mul_right _ hjm
          rw [Nat.add_mul, Nat.one_mul] at hjc
          have hjr : i / c + 1 ≤ (i + 1 + k) / c := by
            rcases tile_after c i (i + 1 + k) (by omega) with ⟨_, h2⟩ | h
            · omega
            · exact h
          have hjy : (i / c + 1) * u ≤ (i + 1 + k) / c * u := Nat.mul_le_mul_right _ hjr
          rw [Nat.add_mul, Nat.one_mul] at hjy
          obtain ⟨t, ht, hag⟩ := draw_tile_congr _ dst a pos
            ((i + 1 + k) % c * u) ((i + 1 + k) / c * u) mode base
            (fun idx => ∃ row col, row < base ∧ col < base
              ∧ idx = ((i + 1 + k) / c * u + row) * dst.pitch + ((i + 1 + k) % c * u + col))
            hnp
            (by
              rintro idx ⟨row, col, hr, hcl, rfl⟩
              have hcp : (i + 1 + k) % c * u + col < dst.pitch := by omega
              rw [G2 _ _ hcp (by omega)]
              exact G1 _ _ hcp (by omega))
            t1 ht1
          refine ⟨t, ht, ?_⟩
          intro row col hr hcl
          rw [hag1 row col hr hcl]
          exact hag _ ⟨row, col, hr, hcl, rfl⟩
    · obtain ⟨m1, m2⟩ := succ_div_mod_stay c i (by omega)
      have hlt2 : (i % c + 2) * u ≤ c * u := Nat.mul_le_mul_right _ (by omega)
      rw [Nat.add_mul] at hlt2
      have hle : ¬ (i % c * u + base + border + base > d1.w) := by
        rw [k1, hw]
        omega
      rw [if_neg hle]
      obtain ⟨out, hout, hop, hB, hC⟩ := ih (i + 1)
        (if border ≠ 0 then
          { d1 with vidp := (draw_box d1 (i % c * u + base) (i / c * u)
              border base color_border) }
         else d1)
        (by split <;> simp [k1, hw]) (by split <;> simp [k2, hh])
        (by split <;> simp [k1, k3, hpitch])
        (by split <;> simp only [k1] <;> exact hcw)
        (by split <;> simp only [k2] <;> exact hch)
        (by omega)
        (fun a ha => hfit a (List.mem_cons_of_mem _ ha))
      clear ih hfit hcw hch he1 he2
      have hnp : (if border ≠ 0 then
          ({ d1 with vidp := (draw_box d1 (i % c * u + base) (i / c * u)
              border base color_border) } : arcan_shmif_cont)
         else d1).pitch = dst.pitch := by split <;> simp [k3]
      -- the separator right of the tile leaves everything outside its strip
      have G2 : ∀ row cl, cl < dst.pitch →
          ¬ (i / c * u ≤ row ∧ row < i / c * u + base
              ∧ i % c * u + base ≤ cl ∧ cl < i % c * u + base + border) →
          (if border ≠ 0 then
            ({ d1 with vidp := (draw_box d1 (i % c * u + base) (i / c * u)
                border base color_border) } : arcan_shmif_cont)
           else d1).vidp (row * dst.pitch + cl) = d1.vidp (row * dst.pitch + cl) := by
        intro row cl hcl hno
        split
        · show draw_box d1 (i % c * u + base) (i / c * u) border base color_border _ = _
          rw [← k3]
          exact hbox d1 _ _ _ _ _ row cl (by rw [k3]; exact hcl) (by omega)
        · rfl
      have hxe : (i % c + 1) * u = i % c * u + base + border := by
        rw [Nat.add_mul, Nat.one_mul]; omega
      rw [m1, m2, hxe] at hout hB
      rw [hnp] at hop hB hC
      refine ⟨out, ?_, hop, ?_, ?_⟩
      · dsimp only
        rw [hout]
        simp only [List.length_cons, List.range'_succ, List.map_cons]
      · intro row cl hcl hreg
        rw [hB row cl hcl (by omega), G2 row cl hcl (by omega)]
        exact G1 row cl hcl (by omega)
      · intro k a hk
        rcases k with _ | k
        · simp only [List.getElem?_cons_zero, Option.some.injEq] at hk
          subst hk
          refine ⟨d1, hd1, ?_⟩
          intro row col hr hcl
          simp only [Nat.add_zero]
          have hcp : i % c * u + col < dst.pitch := by omega
          rw [hB _ _ hcp (by omega)]
          exact G2 _ _ hcp (by omega)
        · simp only [List.getElem?_cons_succ] at hk
          obtain ⟨t1, ht1, hag1⟩ := hC k a hk
          have hidx : i + (k + 1) = i + 1 + k := by omega
          rw [hidx]
          have hjm : (i + 1 + k) % c < c := Nat.mod_lt _ hc
          have hjc : ((i + 1 + k) % c + 1) * u ≤ c * u := Nat.mul_le_mul_right _ hjm
          rw [Nat.add_mul, Nat.one_mul] at hjc
          have hgeo : (i / c * u = (i + 1 + k) / c * u
                ∧ i % c * u + u ≤ (i + 1 + k) % c * u)
              ∨ i / c * u + u ≤ (i + 1 + k) / c * u := by
            rcases tile_after c i (i + 1 + k) (by omega) with ⟨h1, h2⟩ | h
            · left
              refine ⟨by rw [h1], ?_⟩
              have := Nat.mul_le_mul_right u h2
              rw [Nat.add_mul, Nat.one_mul] at this
              exact this
            · right
              have := Nat.mul_le_mul_right u h
              rw [Nat.add_mul, Nat.one_mul] at this
              exact this
          obtain ⟨t, ht, hag⟩ := draw_tile_congr _ dst a pos
            ((i + 1 + k) % c * u) ((i + 1 + k) / c * u) mode base
            (fun idx => ∃ row col, row < base ∧ col < base
              ∧ idx = ((i + 1 + k) / c * u + row) * dst.pitch + ((i + 1 + k) % c * u + col))
            hnp
            (by
              rintro idx ⟨row, col, hr, hcl, rfl⟩
              have hcp : (i + 1 + k) % c * u + col < dst.pitch := by omega
              rw [G2 _ _ hcp (by omega)]
              exact G1 _ _ hcp (by omega))
            t1 ht1
          refine ⟨t, ht, ?_⟩
          intro row col hr hcl
          rw [hag1 row col hr hcl]
          exact hag _ ⟨row, col, hr, hcl, rfl⟩

/-- C11: on a canvas `c * (base + border) - border` wide and
`r * (base + border) - border` high, for any grid of `c` columns and `r` rows
that holds the `N >= 1` sources (`N <= c * r`; in particular `c` the ceiling of
the square root of `N` and `r` the ceiling of `N / c`), `refresh_data` ends
normally, having called `draw_tile` once for every source, source `i` at
`x = (i mod c) * (base + border)`, `y = (i div c) * (base + border)`.  On the
canvas it returns, the tile of source `i` holds what `draw_tile` draws of that
source there (later tiles and separators leave it alone), so that its pixel
`k`, for `k` below the available count, is packed from the bytes at
`pos + k * stride` of source `i`; every tile lies inside the canvas and no two
tiles overlap.  `draw_box` may be any routine that stores only inside the
rectangle it is given; a row of the canvas fits the pitch, and no size_t sum
wraps. -/
theorem refresh_data_places_tiles
    (draw_box : arcan_shmif_cont → Nat → Nat → Nat → Nat → shmif_pixel → (Nat → shmif_pixel))
    (dst : arcan_shmif_cont) (entries : List ent) (base : Nat) (mode : pack_mode)
    (pos border c r : Nat)
    (hbox : ∀ (d : arcan_shmif_cont) (x y w h : Nat) (col : shmif_pixel) (row cl : Nat),
      cl < d.pitch → ¬ (y ≤ row ∧ row < y + h ∧ x ≤ cl ∧ cl < x + w) →
      draw_box d x y w h col (row * d.pitch + cl) = d.vidp (row * d.pitch + cl))
    (hbase : 1 ≤ base) (hn : 1 ≤ entries.length)
    (hgrid : entries.length ≤ c * r)
    (hw : dst.w = c * (base + border) - border) (hh : dst.h = r * (base + border) - border)
    (hpitch : dst.w ≤ dst.pitch)
    (hcw : dst.w + base + border < SIZE_MOD) (hch : dst.h + base + border < SIZE_MOD)
    (hfit : ∀ e ∈ entries, pos + base * base * pack_szlut mode < SIZE_MOD
      ∧ e.map_sz + base * base * pack_szlut mode < SIZE_MOD) :
    ∃ out, refresh_data draw_box dst entries base mode pos border
        = some (out, (List.range entries.length).map
            (fun i => ((i % c) * (base + border), (i / c) * (base + border))))
      ∧ (∀ i e, entries[i]? = some e →
          ((i % c) * (base + border) + base ≤ dst.w ∧ (i / c) * (base + border) + base ≤ dst.h)
          ∧ (∃ t, draw_tile dst e pos ((i % c) * (base + border)) ((i / c) * (base + border))
                mode base = some t
              ∧ ∀ row col, row < base → col < base →
                out.vidp (((i / c) * (base + border) + row) * dst.pitch
                    + ((i % c) * (base + border) + col))
                  = t.vidp (((i / c) * (base + border) + row) * dst.pitch
                    + ((i % c) * (base + border) + col)))
          ∧ (∀ k, k < available e pos mode base →
              pack_pixel mode (e.map.drop (pos + k * pack_szlut mode))
                = some (out.vidp (((i / c) * (base + border) + k / base) * dst.pitch
                    + ((i % c) * (base + border) + k % base)))))
      ∧ (∀ i j, i < j → j < entries.length →
          (i % c) * (base + border) + base ≤ (j % c) * (base + border)
          ∨ (j % c) * (base + border) + base ≤ (i % c) * (base + border)
          ∨ (i / c) * (base + border) + base ≤ (j / c) * (base + border)
          ∨ (j / c) * (base + border) + base ≤ (i / c) * (base + border)) := by
  have hc : 0 < c := by
    rcases Nat.eq_zero_or_pos c with h | h
    · rw [h, Nat.zero_mul] at hgrid; omega
    · exact h
  obtain ⟨out, hout, _, _, hC⟩ := refresh_data_loop_spec draw_box hbox base mode pos border c r
    hbase entries 0 dst hw hh hpitch hcw hch (by omega) hfit
  refine ⟨out, ?_, ?_, ?_⟩
  · rw [Nat.zero_mod, Nat.zero_div, Nat.zero_mul] at hout
    rw [refresh_data, hout, List.range_eq_range']
  · intro i e hie
    have hi : i < entries.length := by
      rcases Nat.lt_or_ge i entries.length with h | h
      · exact h
      · rw [List.getElem?_eq_none h] at hie
        exact Option.noConfusion hie
    have hmem : e ∈ entries := List.getElem?_mem hie
    obtain ⟨he1, he2⟩ := hfit e hmem
    obtain ⟨t, ht, hag⟩ := hC i e hie
    rw [Nat.zero_add] at ht hag
    have hin : (i % c) * (base + border) + base ≤ dst.w
        ∧ (i / c) * (base + border) + base ≤ dst.h := by
      generalize hu : base + border = u at *
      have hrow : i / c < r := Nat.div_lt_of_lt_mul (by omega)
      have hmod : i % c < c := Nat.mod_lt _ hc
      have h1 : (i % c + 1) * u ≤ c * u := Nat.mul_le_mul_right _ hmod
      have h2 : (i / c + 1) * u ≤ r * u := Nat.mul_le_mul_right _ hrow
      rw [Nat.add_mul, Nat.one_mul] at h1 h2
      omega
    refine ⟨hin, ⟨t, ht, hag⟩, ?_⟩
    intro k hk
    obtain ⟨t1, ht1, hpk, _⟩ := draw_tile_effect dst e pos ((i % c) * (base + border))
      ((i / c) * (base + border)) mode base hbase he1 he2
    have hte : t1 = t := Option.some.inj (ht1.symm.trans ht)
    subst hte
    obtain ⟨hav, hle, _⟩ := draw_tile_ntw_spec e pos mode base he1 he2
    rw [hav] at hpk hle
    have hkb : k / base < base := Nat.div_lt_of_lt_mul (by omega)
    have hkm : k % base < base := Nat.mod_lt _ hbase
    rw [hag (k / base) (k % base) hkb hkm]
    exact hpk (by omega) k hk
  · intro i j hij _
    generalize hu : base + border = u at *
    rcases tile_after c i j hij with ⟨h1, h2⟩ | h
    · have h3 : (i % c + 1) * u ≤ (j % c) * u := Nat.mul_le_mul_right _ h2
      rw [Nat.add_mul, Nat.one_mul] at h3
      left; omega
    · have h3 : (i / c + 1) * u ≤ (j / c) * u := Nat.mul_le_mul_right _ h
      rw [Nat.add_mul, Nat.one_mul] at h3
      right; right; left; omega

/-- C11 at three sources of 50 bytes, base 4, border 1, a grid of 2 by 2 on a
canvas of 9 by 9, with `draw_box_fill` for `draw_box`. -/
theorem refresh_data_places_tiles_witness :
    ((∀ (d : arcan_shmif_cont) (x y w h : Nat) (col : shmif_pixel) (row cl : Nat),
        cl < d.pitch → ¬ (y ≤ row ∧ row < y + h ∧ x ≤ cl ∧ cl < x + w) →
        draw_box_fill d x y w h col (row * d.pitch + cl) = d.vidp (row * d.pitch + cl))
      ∧ 1 ≤ 4 ∧ 1 ≤ (List.replicate 3 (ent.mk (List.replicate 50 0xfe))).length
      ∧ (List.replicate 3 (ent.mk (List.replicate 50 0xfe))).length ≤ 2 * 2
      ∧ (arcan_shmif_cont.mk (fun _ => color_pad) 9 9 9).w = 2 * (4 + 1) - 1
      ∧ (arcan_shmif_cont.mk (fun _ => color_pad) 9 9 9).h = 2 * (4 + 1) - 1
      ∧ (arcan_shmif_cont.mk (fun _ => color_pad) 9 9 9).w
          ≤ (arcan_shmif_cont.mk (fun _ => color_pad) 9 9 9).pitch
      ∧ (arcan_shmif_cont.mk (fun _ => color_pad) 9 9 9).w + 4 + 1 < SIZE_MOD
      ∧ (arcan_shmif_cont.mk (fun _ => color_pad) 9 9 9).h + 4 + 1 < SIZE_MOD
      ∧ (∀ e ∈ List.replicate 3 (ent.mk (List.replicate 50 0xfe)),
          0 + 4 * 4 * pack_szlut .PACK_INTENS < SIZE_MOD
          ∧ e.map_sz + 4 * 4 * pack_szlut .PACK_INTENS < SIZE_MOD))
    ∧ ∃ out, refresh_data draw_box_fill ⟨fun _ => color_pad, 9, 9, 9⟩
          (List.replicate 3 (ent.mk (List.replicate 50 0xfe))) 4 .PACK_INTENS 0 1
        = some (out, (List.range (List.replicate 3 (ent.mk (List.replicate 50 0xfe))).length).map
            (fun i => ((i % 2) * (4 + 1), (i / 2) * (4 + 1))))
      ∧ (∀ i e, (List.replicate 3 (ent.mk (List.replicate 50 0xfe)))[i]? = some e →
          ((i % 2) * (4 + 1) + 4 ≤ (arcan_shmif_cont.mk (fun _ => color_pad) 9 9 9).w
            ∧ (i / 2) * (4 + 1) + 4 ≤ (arcan_shmif_cont.mk (fun _ => color_pad) 9 9 9).h)
          ∧ (∃ t, draw_tile ⟨fun _ => color_pad, 9, 9, 9⟩ e 0 ((i % 2) * (4 + 1))
                ((i / 2) * (4 + 1)) .PACK_INTENS 4 = some t
              ∧ ∀ row col, row < 4 → col < 4 →
                out.vidp (((i / 2) * (4 + 1) + row)
                      * (arcan_shmif_cont.mk (fun _ => color_pad) 9 9 9).pitch
                    + ((i % 2) * (4 + 1) + col))
                  = t.vidp (((i / 2) * (4 + 1) + row)
                      * (arcan_shmif_cont.mk (fun _ => color_pad) 9 9 9).pitch
                    + ((i % 2) * (4 + 1) + col)))
          ∧ (∀ k, k < available e 0 .PACK_INTENS 4 →
              pack_pixel .PACK_INTENS (e.map.drop (0 + k * pack_szlut .PACK_INTENS))
                = some (out.vidp (((i / 2) * (4 + 1) + k / 4)
                      * (arcan_shmif_cont.mk (fun _ => color_pad) 9 9 9).pitch
                    + ((i % 2) * (4 + 1) + k % 4)))))
      ∧ (∀ i j, i < j → j < (List.replicate 3 (ent.mk (List.replicate 50 0xfe))).length →
          (i % 2) * (4 + 1) + 4 ≤ (j % 2) * (4 + 1)
          ∨ (j % 2) * (4 + 1) + 4 ≤ (i % 2) * (4 + 1)
          ∨ (i / 2) * (4 + 1) + 4 ≤ (j / 2) * (4 + 1)
          ∨ (j / 2) * (4 + 1) + 4 ≤ (i / 2) * (4 + 1)) :=
  ⟨⟨draw_box_fill_frame, by decide, by decide, by decide, by decide, by decide, by decide,
      by decide, by decide, by decide⟩,
    refresh_data_places_tiles draw_box_fill ⟨fun _ => color_pad, 9, 9, 9⟩
      (List.replicate 3 (ent.mk (List.replicate 50 0xfe))) 4 .PACK_INTENS 0 1 2 2
      draw_box_fill_frame
      (by decide) (by decide) (by decide) (by decide) (by decide) (by decide) (by decide)
      (by decide) (by decide)⟩

/-- The canvas `refresh_data` returns at the sources of the C11 instance: the
first pixel of each of the three tiles is packed from the byte `0xfe`, where
the canvas held black before. -/
theorem refresh_data_tiles_drawn :
    (refresh_data draw_box_fill ⟨fun _ => color_pad, 9, 9, 9⟩
        (List.replicate 3 (ent.mk (List.replicate 50 0xfe))) 4 .PACK_INTENS 0 1).map
      (fun o => (o.1.vidp (0 * 9 + 0), o.1.vidp (0 * 9 + 5), o.1.vidp (5 * 9 + 0),
        o.1.vidp (0 * 9 + 4), o.1.vidp (5 * 9 + 5)))
      = some (RGBA 254 254 254 255, RGBA 254 254 254 255, RGBA 254 254 254 255,
          color_border, color_pad) := by
  decide

/-! ## The event loop: stepping and aligning the offset -/

theorem to_size_t_natCast (o : Nat) (h : o < SIZE_MOD) : to_size_t (o : Int) = o := by
  simp only [to_size_t]
  rw [← Int.natCast_mod, Int.toNat_natCast, Nat.mod_eq_of_lt h]

theorem to_off_t_of_lt (n : Nat) (h : n < 2 ^ 63) : to_off_t n = (n : Int) := by
  have hM := size_mod_eq
  have h63 : (2 : Nat) ^ 63 = 9223372036854775808 := by decide
  have hn : n % SIZE_MOD = n := Nat.mod_eq_of_lt (by omega)
  simp only [to_off_t, hn]
  rw [if_pos h]

/-- A non-negative `off_t` is a natural number below `2 ^ 63`. -/
theorem nav_ofs_nat (st : nav_state) (hfit : st.fits) (h0 : 0 ≤ st.ofs) :
    ∃ o : Nat, st.ofs = (o : Int) ∧ o < 2 ^ 63 := by
  obtain ⟨o, ho⟩ := Int.eq_ofNat_of_zero_le h0
  refine ⟨o, ho, ?_⟩
  have h2 := hfit.2.1
  rw [ho] at h2
  exact_mod_cast h2

theorem step_back_ofs (o s : Nat) (ho : o < 2 ^ 63) :
    (if to_size_t (o : Int) > s then to_off_t (size_sub (to_size_t (o : Int)) s) else 0)
      = if (o : Int) > (s : Int) then (o : Int) - (s : Int) else 0 := by
  have hM := size_mod_eq
  have h63 : (2 : Nat) ^ 63 = 9223372036854775808 := by decide
  rw [to_size_t_natCast o (by omega)]
  by_cases h : o > s
  · have h' : (o : Int) > (s : Int) := by exact_mod_cast h
    rw [if_pos h, if_pos h', size_sub, if_pos (by omega), to_off_t_of_lt _ (by omega)]
    omega
  · have h' : ¬ (o : Int) > (s : Int) := by
      intro hc; exact h (by exact_mod_cast hc)
    rw [if_neg h, if_neg h']

theorem step_fwd_ofs (o s : Nat) (ho : o + s < 2 ^ 63) :
    to_off_t (to_size_t (o : Int) + s) = (o : Int) + (s : Int) := by
  have hM := size_mod_eq
  have h63 : (2 : Nat) ^ 63 = 9223372036854775808 := by decide
  rw [to_size_t_natCast o (by omega), to_off_t_of_lt _ ho]
  omega

/-- The bytes a large step moves: `large_step * pack_szlut[pack_mode]` in `size_t`. -/
theorem main_step_stepframe (f : Nat → Nat → Bool) (n_ent border : Nat) (d : Bool)
    (st : nav_state) (hfit : st.fits) (h0 : 0 ≤ st.ofs) (iv : Int)
    (hroom : st.ofs + ((st.small_step : Int)
      + (((st.large_step * pack_szlut st.pack_mode) % SIZE_MOD : Nat) : Int)) < 2 ^ 63) :
    (main_step f n_ent border d st (.STEPFRAME iv)).fits
      ∧ 0 ≤ (main_step f n_ent border d st (.STEPFRAME iv)).ofs
      ∧ (main_step f n_ent border d st (.STEPFRAME iv)).ofs
          ≤ st.ofs + ((st.small_step : Int)
            + (((st.large_step * pack_szlut st.pack_mode) % SIZE_MOD : Nat) : Int))
      ∧ (main_step f n_ent border d st (.STEPFRAME iv)).small_step = st.small_step
      ∧ (main_step f n_ent border d st (.STEPFRAME iv)).large_step = st.large_step
      ∧ (main_step f n_ent border d st (.STEPFRAME iv)).pack_mode = st.pack_mode
      ∧ (main_step f n_ent border d st (.STEPFRAME iv)).base = st.base := by
  obtain ⟨o, ho, holt⟩ := nav_ofs_nat st hfit h0
  obtain ⟨f1, f2, f3, f4, f5⟩ := hfit
  have h63 : (2 : Int) ^ 63 = 9223372036854775808 := by decide
  have h63n : (2 : Nat) ^ 63 = 9223372036854775808 := by decide
  generalize hL : (st.large_step * pack_szlut st.pack_mode) % SIZE_MOD = L at *
  rw [ho] at hroom
  simp only [main_step, hL, ho]
  by_cases c1 : iv = -1
  · rw [if_pos c1, step_back_ofs o _ holt]
    refine ⟨⟨?_, ?_, f3, f4, f5⟩, ?_, ?_, rfl, rfl, rfl, rfl⟩ <;> dsimp only <;> split <;> omega
  · rw [if_neg c1]
    by_cases c2 : iv = -2
    · rw [if_pos c2, step_back_ofs o _ holt]
      refine ⟨⟨?_, ?_, f3, f4, f5⟩, ?_, ?_, rfl, rfl, rfl, rfl⟩ <;> dsimp only <;> split <;> omega
    · rw [if_neg c2]
      by_cases c3 : iv = 1
      · rw [if_pos c3, step_fwd_ofs o _ (by omega)]
        refine ⟨⟨?_, ?_, f3, f4, f5⟩, ?_, ?_, rfl, rfl, rfl, rfl⟩ <;> dsimp only <;> omega
      · rw [if_neg c3]
        by_cases c4 : iv = 2
        · rw [if_pos c4, step_fwd_ofs o _ (by omega)]
          refine ⟨⟨?_, ?_, f3, f4, f5⟩, ?_, ?_, rfl, rfl, rfl, rfl⟩ <;> dsimp only <;> omega
        · rw [if_neg c4]
          refine ⟨⟨?_, ?_, f3, f4, f5⟩, ?_, ?_, rfl, rfl, rfl, rfl⟩ <;> omega

theorem main_run_stepframes_nonneg (f : Nat → Nat → Bool) (n_ent border : Nat) (d : Bool) :
    ∀ (ivs : List Int) (st : nav_state), st.fits → 0 ≤ st.ofs →
      st.ofs + (ivs.length : Int) * ((st.small_step : Int)
        + (((st.large_step * pack_szlut st.pack_mode) % SIZE_MOD : Nat) : Int)) < 2 ^ 63 →
      0 ≤ (main_run f n_ent border d st (ivs.map .STEPFRAME)).ofs := by
  intro ivs
  induction ivs with
  | nil => intro st _ h0 _; exact h0
  | cons iv ivs ih =>
    intro st hfit h0 hroom
    simp only [List.length_cons, Nat.cast_add, Nat.cast_one] at hroom
    have hlen : (0 : Int) ≤ (ivs.length : Int) := Int.ofNat_nonneg _
    generalize hA : (st.small_step : Int)
      + (((st.large_step * pack_szlut st.pack_mode) % SIZE_MOD : Nat) : Int) = A at hroom
    have hA0 : 0 ≤ A := by rw [← hA]; omega
    have hprod : 0 ≤ (ivs.length : Int) * A := Int.mul_nonneg hlen hA0
    have hexp : ((ivs.length : Int) + 1) * A = (ivs.length : Int) * A + A := by ring
    rw [hexp] at hroom
    obtain ⟨g1, g2, g3, g4, g5, g6, _⟩ :=
      main_step_stepframe f n_ent border d st hfit h0 iv (by rw [hA]; omega)
    simp only [List.map_cons, main_run]
    apply ih _ g1 g2
    rw [g4, g5, g6, hA]
    rw [hA] at g3
    omega

theorem main_run_step_back_zero (f : Nat → Nat → Bool) (n_ent border : Nat) (d : Bool) :
    ∀ (ivs : List Int) (st : nav_state), (∀ iv ∈ ivs, iv = -1 ∨ iv = -2) → st.ofs = 0 →
      (main_run f n_ent border d st (ivs.map .STEPFRAME)).ofs = 0 := by
  intro ivs
  induction ivs with
  | nil => intro st _ h0; exact h0
  | cons iv ivs ih =>
    intro st hall h0
    simp only [List.map_cons, main_run]
    apply ih _ (fun a ha => hall a (List.mem_cons_of_mem _ ha))
    have hz : to_size_t 0 = 0 := by decide
    rcases hall iv (List.mem_cons_self _ _) with h | h <;> subst h <;>
      simp [main_step, h0, hz]

/-- C12: from a state whose values fit their C types and whose offset is not
negative, a backward small step (-1, amount `small_step`) and a backward
large step (-2, amount `large_step * pack_szlut[pack_mode]` in `size_t`)
give `offset - s` when `offset > s` and 0 otherwise; after any sequence of
step commands that leaves room below `2 ^ 63` for its forward steps the
offset is not negative; and any sequence of backward steps from offset 0
leaves it at 0. -/
theorem step_back_clamps (f : Nat → Nat → Bool) (n_ent border : Nat) (d : Bool)
    (st : nav_state) (hfit : st.fits) (h0 : 0 ≤ st.ofs) :
    (main_step f n_ent border d st (.STEPFRAME (-1))).ofs
        = (if st.ofs > (st.small_step : Int) then st.ofs - (st.small_step : Int) else 0)
      ∧ (main_step f n_ent border d st (.STEPFRAME (-2))).ofs
        = (if st.ofs > (((st.large_step * pack_szlut st.pack_mode) % SIZE_MOD : Nat) : Int)
            then st.ofs - (((st.large_step * pack_szlut st.pack_mode) % SIZE_MOD : Nat) : Int)
            else 0)
      ∧ (∀ ivs : List Int,
          st.ofs + (ivs.length : Int) * ((st.small_step : Int)
            + (((st.large_step * pack_szlut st.pack_mode) % SIZE_MOD : Nat) : Int)) < 2 ^ 63 →
          0 ≤ (main_run f n_ent border d st (ivs.map .STEPFRAME)).ofs)
      ∧ (∀ ivs : List Int, (∀ iv ∈ ivs, iv = -1 ∨ iv = -2) →
          (main_run f n_ent border d { st with ofs := 0 } (ivs.map .STEPFRAME)).ofs = 0) := by
  obtain ⟨o, ho, holt⟩ := nav_ofs_nat st hfit h0
  refine ⟨?_, ?_, ?_, ?_⟩
  · simp only [main_step, ho, if_true]
    exact step_back_ofs o _ holt
  · simp only [main_step, ho, if_true]
    exact step_back_ofs o _ holt
  · intro ivs hroom
    exact main_run_stepframes_nonneg f n_ent border d ivs st hfit h0 hroom
  · intro ivs hall
    exact main_run_step_back_zero f n_ent border d ivs _ hall rfl

/-- C12 at offset 100 with the initial step sizes (64 and 64 * 64), intensity. -/
theorem step_back_clamps_witness :
    ((nav_state.mk 100 64 .PACK_INTENS 64 4096).fits
      ∧ 0 ≤ (nav_state.mk 100 64 .PACK_INTENS 64 4096).ofs)
    ∧ (main_step (fun _ _ => true) 3 1 true (nav_state.mk 100 64 .PACK_INTENS 64 4096)
          (.STEPFRAME (-1))).ofs
        = (if (nav_state.mk 100 64 .PACK_INTENS 64 4096).ofs
              > ((nav_state.mk 100 64 .PACK_INTENS 64 4096).small_step : Int)
            then (nav_state.mk 100 64 .PACK_INTENS 64 4096).ofs
              - ((nav_state.mk 100 64 .PACK_INTENS 64 4096).small_step : Int) else 0)
      ∧ (main_step (fun _ _ => true) 3 1 true (nav_state.mk 100 64 .PACK_INTENS 64 4096)
          (.STEPFRAME (-2))).ofs
        = (if (nav_state.mk 100 64 .PACK_INTENS 64 4096).ofs
              > ((((nav_state.mk 100 64 .PACK_INTENS 64 4096).large_step
                  * pack_szlut (nav_state.mk 100 64 .PACK_INTENS 64 4096).pack_mode)
                  % SIZE_MOD : Nat) : Int)
            then (nav_state.mk 100 64 .PACK_INTENS 64 4096).ofs
              - ((((nav_state.mk 100 64 .PACK_INTENS 64 4096).large_step
                  * pack_szlut (nav_state.mk 100 64 .PACK_INTENS 64 4096).pack_mode)
                  % SIZE_MOD : Nat) : Int)
            else 0)
      ∧ (∀ ivs : List Int,
          (nav_state.mk 100 64 .PACK_INTENS 64 4096).ofs
            + (ivs.length : Int) * (((nav_state.mk 100 64 .PACK_INTENS 64 4096).small_step : Int)
              + ((((nav_state.mk 100 64 .PACK_INTENS 64 4096).large_step
                  * pack_szlut (nav_state.mk 100 64 .PACK_INTENS 64 4096).pack_mode)
                  % SIZE_MOD : Nat) : Int)) < 2 ^ 63 →
          0 ≤ (main_run (fun _ _ => true) 3 1 true (nav_state.mk 100 64 .PACK_INTENS 64 4096)
            (ivs.map .STEPFRAME)).ofs)
      ∧ (∀ ivs : List Int, (∀ iv ∈ ivs, iv = -1 ∨ iv = -2) →
          (main_run (fun _ _ => true) 3 1 true
            { nav_state.mk 100 64 .PACK_INTENS 64 4096 with ofs := 0 }
            (ivs.map .STEPFRAME)).ofs = 0) :=
  ⟨⟨by unfold nav_state.fits; decide, by decide⟩,
    step_back_clamps (fun _ _ => true) 3 1 true (nav_state.mk 100 64 .PACK_INTENS 64 4096)
      (by unfold nav_state.fits; decide) (by decide)⟩

/-- C13 (amended): from a state whose values fit their C types, with an
offset that is not negative and room below `2 ^ 63`, a forward small step (+1)
adds `small_step` bytes to the offset and a forward large step (+2) adds
`large_step * pack_szlut[pack_mode]` bytes: the large step counts pixels,
`base * base` by default, and is multiplied by the stride of the mode. -/
theorem step_forward_amount (f : Nat → Nat → Bool) (n_ent border : Nat) (d : Bool)
    (st : nav_state) (hfit : st.fits) (h0 : 0 ≤ st.ofs)
    (h1 : st.ofs + (st.small_step : Int) < 2 ^ 63)
    (h2 : st.ofs + ((st.large_step * pack_szlut st.pack_mode : Nat) : Int) < 2 ^ 63) :
    (main_step f n_ent border d st (.STEPFRAME 1)).ofs = st.ofs + (st.small_step : Int)
      ∧ (main_step f n_ent border d st (.STEPFRAME 2)).ofs
        = st.ofs + ((st.large_step * pack_szlut st.pack_mode : Nat) : Int) := by
  obtain ⟨o, ho, holt⟩ := nav_ofs_nat st hfit h0
  have h63 : (2 : Int) ^ 63 = 9223372036854775808 := by decide
  have h63n : (2 : Nat) ^ 63 = 9223372036854775808 := by decide
  have hM := size_mod_eq
  rw [ho] at h1 h2
  have hL : (st.large_step * pack_szlut st.pack_mode) % SIZE_MOD
      = st.large_step * pack_szlut st.pack_mode := Nat.mod_eq_of_lt (by omega)
  constructor
  · simp only [main_step, ho, if_true]
    exact step_fwd_ofs o _ (by omega)
  · simp only [main_step, ho, hL, if_true]
    exact step_fwd_ofs o _ (by omega)

/-- C13 (amended) at offset 100, tight mode, small step 64, large step 4096. -/
theorem step_forward_amount_witness :
    ((nav_state.mk 100 64 .PACK_TIGHT 64 4096).fits
      ∧ 0 ≤ (nav_state.mk 100 64 .PACK_TIGHT 64 4096).ofs
      ∧ (nav_state.mk 100 64 .PACK_TIGHT 64 4096).ofs
          + ((nav_state.mk 100 64 .PACK_TIGHT 64 4096).small_step : Int) < 2 ^ 63
      ∧ (nav_state.mk 100 64 .PACK_TIGHT 64 4096).ofs
          + (((nav_state.mk 100 64 .PACK_TIGHT 64 4096).large_step
              * pack_szlut (nav_state.mk 100 64 .PACK_TIGHT 64 4096).pack_mode : Nat) : Int)
            < 2 ^ 63)
    ∧ (main_step (fun _ _ => true) 3 1 true (nav_state.mk 100 64 .PACK_TIGHT 64 4096)
          (.STEPFRAME 1)).ofs
        = (nav_state.mk 100 64 .PACK_TIGHT 64 4096).ofs
          + ((nav_state.mk 100 64 .PACK_TIGHT 64 4096).small_step : Int)
      ∧ (main_step (fun _ _ => true) 3 1 true (nav_state.mk 100 64 .PACK_TIGHT 64 4096)
          (.STEPFRAME 2)).ofs
        = (nav_state.mk 100 64 .PACK_TIGHT 64 4096).ofs
          + (((nav_state.mk 100 64 .PACK_TIGHT 64 4096).large_step
              * pack_szlut (nav_state.mk 100 64 .PACK_TIGHT 64 4096).pack_mode : Nat) : Int) :=
  ⟨⟨by unfold nav_state.fits; decide, by decide, by decide, by decide⟩,
    step_forward_amount (fun _ _ => true) 3 1 true (nav_state.mk 100 64 .PACK_TIGHT 64 4096)
      (by unfold nav_state.fits; decide) (by decide) (by decide) (by decide)⟩

/-- C13 as stated fails outside intensity mode: in tight mode with the initial
large step of 64 * 64 = 4096, the forward large step moves the offset from 0
to 16384 = 4096 * 4, not by 4096. -/
theorem step_forward_large_times_stride :
    (nav_state.mk 0 64 .PACK_TIGHT 64 4096).large_step = 4096
      ∧ (main_step (fun _ _ => true) 3 1 true (nav_state.mk 0 64 .PACK_TIGHT 64 4096)
          (.STEPFRAME 2)).ofs = 16384
      ∧ (main_step (fun _ _ => true) 3 1 true (nav_state.mk 0 64 .PACK_TIGHT 64 4096)
          (.STEPFRAME 2)).ofs ≠ 0 + 4096 := by
  decide

/-- What one `STEP_ALIGN_<n>` does to a state with a non-negative offset. -/
theorem main_step_align (f : Nat → Nat → Bool) (n_ent border : Nat) (d : Bool)
    (st : nav_state) (hfit : st.fits) (h0 : 0 ≤ st.ofs) (n : Nat) :
    main_step f n_ent border d st (.STEP_ALIGN n)
      = { st with ofs := if 0 < n ∧ st.ofs > (n : Int) then st.ofs - st.ofs % (n : Int)
                         else st.ofs } := by
  obtain ⟨o, ho, holt⟩ := nav_ofs_nat st hfit h0
  have h63n : (2 : Nat) ^ 63 = 9223372036854775808 := by decide
  have hM := size_mod_eq
  have hmodle : o % n ≤ o := Nat.mod_le _ _
  have hcast : (o : Int) % (n : Int) = ((o % n : Nat) : Int) := (Int.natCast_mod o n).symm
  simp only [main_step, ho, to_size_t_natCast o (by omega), hcast]
  by_cases hc : n ≠ 0 ∧ o > n
  · have hc' : 0 < n ∧ (o : Int) > (n : Int) := ⟨by omega, by exact_mod_cast hc.2⟩
    rw [if_pos hc, if_pos hc']
    by_cases hm : o % n ≠ 0
    · rw [if_pos hm, size_sub, if_pos hmodle, to_off_t_of_lt _ (by omega)]
      congr 1
      omega
    · rw [if_neg hm]
      have hz : o % n = 0 := by omega
      rw [hz]
      cases st
      simp only [nav_state.mk.injEq, and_true, true_and] at ho ⊢
      rw [ho]; simp
  · have hc' : ¬ (0 < n ∧ (o : Int) > (n : Int)) := by
      intro h
      exact hc ⟨by omega, by exact_mod_cast h.2⟩
    rw [if_neg hc, if_neg hc']
    cases st
    simp only [nav_state.mk.injEq, and_true, true_and] at ho ⊢
    exact ho

/-- C14: for a state whose values fit their C types and a non-negative
offset, one `STEP_ALIGN_<n>` replaces the offset by `offset - offset mod n`
when `n > 0` and `offset > n` and changes nothing otherwise, and applying the
command twice gives the same state as applying it once. -/
theorem step_align_idempotent (f : Nat → Nat → Bool) (n_ent border : Nat) (d : Bool)
    (st : nav_state) (hfit : st.fits) (h0 : 0 ≤ st.ofs) (n : Nat) :
    main_step f n_ent border d st (.STEP_ALIGN n)
        = { st with ofs := if 0 < n ∧ st.ofs > (n : Int) then st.ofs - st.ofs % (n : Int)
                           else st.ofs }
      ∧ main_step f n_ent border d (main_step f n_ent border d st (.STEP_ALIGN n))
          (.STEP_ALIGN n)
        = main_step f n_ent border d st (.STEP_ALIGN n) := by
  have hone := main_step_align f n_ent border d st hfit h0 n
  refine ⟨hone, ?_⟩
  obtain ⟨o, ho, holt⟩ := nav_ofs_nat st hfit h0
  obtain ⟨f1, f2, f3, f4, f5⟩ := hfit
  have h63 : (2 : Int) ^ 63 = 9223372036854775808 := by decide
  have hcast : (o : Int) % (n : Int) = ((o % n : Nat) : Int) := (Int.natCast_mod o n).symm
  have hmodle : o % n ≤ o := Nat.mod_le _ _
  rw [hone]
  generalize hst : ({ st with ofs := if 0 < n ∧ st.ofs > (n : Int)
      then st.ofs - st.ofs % (n : Int) else st.ofs } : nav_state) = st1
  have hofs1 : st1.ofs = if 0 < n ∧ st.ofs > (n : Int) then st.ofs - st.ofs % (n : Int)
      else st.ofs := by rw [← hst]
  have hnn : 0 ≤ st1.ofs ∧ st1.ofs ≤ st.ofs := by
    rw [hofs1, ho, hcast]
    split <;> omega
  have hfit1 : st1.fits := by
    refine ⟨by omega, by omega, ?_, ?_, ?_⟩
    · rw [← hst]; exact f3
    · rw [← hst]; exact f4
    · rw [← hst]; exact f5
  rw [main_step_align f n_ent border d st1 hfit1 hnn.1 n]
  have hfix : (if 0 < n ∧ st1.ofs > (n : Int) then st1.ofs - st1.ofs % (n : Int)
      else st1.ofs) = st1.ofs := by
    by_cases hc : 0 < n ∧ st1.ofs > (n : Int)
    · rw [if_pos hc]
      have hz : st1.ofs % (n : Int) = 0 := by
        rw [hofs1]
        by_cases hc0 : 0 < n ∧ st.ofs > (n : Int)
        · rw [if_pos hc0]
          have hdm := Int.emod_add_ediv st.ofs (n : Int)
          have he : st.ofs - st.ofs % (n : Int) = (n : Int) * (st.ofs / (n : Int)) := by omega
          rw [he]
          exact Int.mul_emod_right _ _
        · exfalso
          rw [hofs1, if_neg hc0] at hc
          exact hc0 hc
      rw [hz]; omega
    · rw [if_neg hc]
  rw [hfix]

/-- C14 at offset 1000 and `STEP_ALIGN_64`. -/
theorem step_align_idempotent_witness :
    ((nav_state.mk 1000 64 .PACK_INTENS 64 4096).fits
      ∧ 0 ≤ (nav_state.mk 1000 64 .PACK_INTENS 64 4096).ofs)
    ∧ main_step (fun _ _ => true) 3 1 true (nav_state.mk 1000 64 .PACK_INTENS 64 4096)
          (.STEP_ALIGN 64)
        = { nav_state.mk 1000 64 .PACK_INTENS 64 4096 with
            ofs := if 0 < 64 ∧ (nav_state.mk 1000 64 .PACK_INTENS 64 4096).ofs > ((64 : Nat) : Int)
              then (nav_state.mk 1000 64 .PACK_INTENS 64 4096).ofs
                - (nav_state.mk 1000 64 .PACK_INTENS 64 4096).ofs % ((64 : Nat) : Int)
              else (nav_state.mk 1000 64 .PACK_INTENS 64 4096).ofs }
      ∧ main_step (fun _ _ => true) 3 1 true
          (main_step (fun _ _ => true) 3 1 true (nav_state.mk 1000 64 .PACK_INTENS 64 4096)
            (.STEP_ALIGN 64)) (.STEP_ALIGN 64)
        = main_step (fun _ _ => true) 3 1 true (nav_state.mk 1000 64 .PACK_INTENS 64 4096)
            (.STEP_ALIGN 64) :=
  ⟨⟨by unfold nav_state.fits; decide, by decide⟩,
    step_align_idempotent (fun _ _ => true) 3 1 true (nav_state.mk 1000 64 .PACK_INTENS 64 4096)
      (by unfold nav_state.fits; decide) (by decide) 64⟩

/-! ## The event loop: resize, mode change, argument check -/

/-- The test `(lb & (lb - 1)) == 0` of `main` holds for a positive `lb`
exactly when `lb` is a power of two. -/
theorem land_pred_eq_zero_iff : ∀ (n : Nat), 0 < n → (n &&& (n - 1) = 0 ↔ ∃ k, n = 2 ^ k) := by
  intro n
  induction n using Nat.strong_induction_on with
  | _ n ih =>
    intro hpos
    constructor
    · intro h
      have h2 : n / 2 &&& (n - 1) / 2 = 0 := by
        rw [← Nat.and_div_two, h]
      rcases Nat.mod_two_eq_zero_or_one n with hev | hodd
      · have hm : 0 < n / 2 := by omega
        have e : (n - 1) / 2 = n / 2 - 1 := by omega
        rw [e] at h2
        obtain ⟨k, hk⟩ := (ih (n / 2) (by omega) hm).mp h2
        refine ⟨k + 1, ?_⟩
        rw [Nat.pow_succ, ← hk]
        omega
      · have e : (n - 1) / 2 = n / 2 := by omega
        rw [e, Nat.and_self] at h2
        exact ⟨0, by simp; omega⟩
    · rintro ⟨k, rfl⟩
      rw [Nat.and_pow_two_sub_one_eq_mod, Nat.mod_self]

/-- C15: each of these commands leaves the whole state (offset, base, packing
mode, small step, large step) as it was: a resize hint whose value is not a
power of two, a resize hint for which `arcan_shmif_resize` refuses the
canvas, a mode change with a code other than 20, 21, 22, and `STEP_ALIGN_0`. -/
theorem ignored_commands_keep_state (f : Nat → Nat → Bool) (n_ent border : Nat) (d : Bool)
    (st : nav_state) :
    (∀ iv : Int, (¬ ∃ k, to_size_t iv = 2 ^ k) →
        main_step f n_ent border d st (.DISPLAYHINT iv) = st)
      ∧ (∀ iv : Int,
          f (displayhint_dims n_ent border d (to_size_t iv)).1
            (displayhint_dims n_ent border d (to_size_t iv)).2 = false →
          main_step f n_ent border d st (.DISPLAYHINT iv) = st)
      ∧ (∀ iv : Int, iv ≠ 20 → iv ≠ 21 → iv ≠ 22 →
          main_step f n_ent border d st (.GRAPHMODE iv) = st)
      ∧ main_step f n_ent border d st (.STEP_ALIGN 0) = st := by
  refine ⟨?_, ?_, ?_, ?_⟩
  · intro iv hnp
    simp only [main_step]
    rw [if_neg]
    rintro ⟨hpos, hland, _⟩
    exact hnp ((land_pred_eq_zero_iff _ hpos).mp hland)
  · intro iv hfail
    simp only [main_step]
    rw [if_neg]
    rintro ⟨_, _, hok⟩
    rw [hfail] at hok
    exact Bool.noConfusion hok
  · intro iv h20 h21 h22
    simp only [main_step]
    rw [if_neg]
    rintro ⟨h1, h2⟩
    omega
  · simp [main_step]

/-- C16: when the resize hint `iv` is a power of two `B` and the canvas is
granted (old and new base below `2 ^ 32`, as values of an `int` are), the
small step becomes `B` if it was equal to the old base and stays otherwise,
the large step becomes `B * B` if it was the square of the old base and stays
otherwise, the base becomes `B`, and offset and packing mode stay. -/
theorem accepted_resize_steps (f : Nat → Nat → Bool) (n_ent border : Nat) (d : Bool)
    (st : nav_state) (iv : Int) (k : Nat) (hB : to_size_t iv = 2 ^ k)
    (hok : f (displayhint_dims n_ent border d (to_size_t iv)).1
      (displayhint_dims n_ent border d (to_size_t iv)).2 = true)
    (hb : st.base < 2 ^ 32) (hB32 : to_size_t iv < 2 ^ 32) :
    main_step f n_ent border d st (.DISPLAYHINT iv)
      = { ofs := st.ofs
          base := to_size_t iv
          pack_mode := st.pack_mode
          small_step := if st.small_step = st.base then to_size_t iv else st.small_step
          large_step := if st.large_step = st.base * st.base then to_size_t iv * to_size_t iv
                        else st.large_step } := by
  have hpos : 0 < to_size_t iv := by rw [hB]; exact Nat.two_pow_pos k
  have hland : to_size_t iv &&& (to_size_t iv - 1) = 0 :=
    (land_pred_eq_zero_iff _ hpos).mpr ⟨k, hB⟩
  have h32 : (2 : Nat) ^ 32 = 4294967296 := by decide
  have hM := size_mod_eq
  have hbb : st.base * st.base < 4294967296 * 4294967296 :=
    Nat.mul_lt_mul'' (by omega) (by omega)
  have hBB : to_size_t iv * to_size_t iv < 4294967296 * 4294967296 :=
    Nat.mul_lt_mul'' (by omega) (by omega)
  have e1 : (st.base * st.base) % SIZE_MOD = st.base * st.base :=
    Nat.mod_eq_of_lt (by omega)
  have e2 : (to_size_t iv * to_size_t iv) % SIZE_MOD = to_size_t iv * to_size_t iv :=
    Nat.mod_eq_of_lt (by omega)
  simp only [main_step, e1, e2]
  rw [if_pos ⟨hpos, hland, hok⟩]

/-- C16 at the initial state and the hint 128. -/
theorem accepted_resize_steps_witness :
    (to_size_t 128 = 2 ^ 7
      ∧ (fun (_ _ : Nat) => true) (displayhint_dims 3 1 true (to_size_t 128)).1
          (displayhint_dims 3 1 true (to_size_t 128)).2 = true
      ∧ nav_init.base < 2 ^ 32 ∧ to_size_t 128 < 2 ^ 32)
    ∧ main_step (fun _ _ => true) 3 1 true nav_init (.DISPLAYHINT 128)
      = { ofs := nav_init.ofs
          base := to_size_t 128
          pack_mode := nav_init.pack_mode
          small_step := if nav_init.small_step = nav_init.base then to_size_t 128
                        else nav_init.small_step
          large_step := if nav_init.large_step = nav_init.base * nav_init.base
                        then to_size_t 128 * to_size_t 128 else nav_init.large_step } :=
  ⟨⟨by decide, rfl, by decide, by decide⟩,
    accepted_resize_steps (fun _ _ => true) 3 1 true nav_init 128 7 (by decide) rfl
      (by decide) (by decide)⟩

/-- C17 (amended): with `n = argc - optind` file arguments, the check of `main`
lets every `n` from 2 to 255 through to the loading of the sources and
rejects `n <= 1` and every `n > 256`. -/
theorem args_check_range (argc optind : Int) :
    (2 ≤ argc - optind → argc - optind ≤ 255 → main_args_rejected argc optind = false)
      ∧ (argc - optind ≤ 1 → main_args_rejected argc optind = true)
      ∧ (256 < argc - optind → main_args_rejected argc optind = true) := by
  refine ⟨?_, ?_, ?_⟩
  · intro h1 h2
    simp only [main_args_rejected, Bool.or_eq_false_iff, decide_eq_false_iff_not]
    constructor <;> omega
  · intro h
    simp only [main_args_rejected, Bool.or_eq_true, decide_eq_true_eq]
    left; omega
  · intro h
    simp only [main_args_rejected, Bool.or_eq_true, decide_eq_true_eq]
    right; omega

/-- C17 as stated fails for a single file: with `argc - optind = 1` the check
rejects (`optind >= argc - 1`), as the message of `main` says (`1 < n`). -/
theorem args_check_rejects_one_file :
    (2 : Int) - 1 = 1 ∧ main_args_rejected 2 1 = true := by
  decide

/-! ## Resize requests and the diff tile at the ends of the range -/

/-- What the resize branch asks for: the grid of `n` tiles, where `n` is the
number of sources plus one when `difftile` is set (and the number of sources
when it is not), for `1 <= n <= 257` and `B + border` below `2 ^ 32`: with a
hint `B` the width is `ceil(sqrt(n)) * (B + border) - border` and the height
`ceil(n / ceil(sqrt(n))) * (B + border) - border`.  These are the sizes put to
`arcan_shmif_resize`: refused, the state stays; granted for a power of two,
the base becomes `B`. -/
theorem displayhint_requests_grid (f : Nat → Nat → Bool) (n_ent border : Nat) (d : Bool)
    (st : nav_state) (iv : Int) (n : Nat) (hn : n = n_ent + (if d then 1 else 0))
    (h1 : 1 ≤ n) (h257 : n ≤ 257) (hb : to_size_t iv + border < 2 ^ 32) :
    displayhint_dims n_ent border d (to_size_t iv)
        = (Nat.ceil (Real.sqrt n) * (to_size_t iv + border) - border,
           Nat.ceil ((n : ℚ) / ((Nat.ceil (Real.sqrt n) : Nat) : ℚ)) * (to_size_t iv + border)
             - border)
      ∧ (f (Nat.ceil (Real.sqrt n) * (to_size_t iv + border) - border)
            (Nat.ceil ((n : ℚ) / ((Nat.ceil (Real.sqrt n) : Nat) : ℚ))
              * (to_size_t iv + border) - border) = false →
          main_step f n_ent border d st (.DISPLAYHINT iv) = st)
      ∧ (∀ k, to_size_t iv = 2 ^ k →
          f (Nat.ceil (Real.sqrt n) * (to_size_t iv + border) - border)
            (Nat.ceil ((n : ℚ) / ((Nat.ceil (Real.sqrt n) : Nat) : ℚ))
              * (to_size_t iv + border) - border) = true →
          (main_step f n_ent border d st (.DISPLAYHINT iv)).base = to_size_t iv) := by
  obtain ⟨c1, c2⟩ := resize_base_ceil n h1 h257
  have hd : displayhint_dims n_ent border d (to_size_t iv)
      = (Nat.ceil (Real.sqrt n) * (to_size_t iv + border) - border,
         Nat.ceil ((n : ℚ) / ((Nat.ceil (Real.sqrt n) : Nat) : ℚ)) * (to_size_t iv + border)
           - border) := by
    rw [displayhint_dims, ← hn, resize_base_dims_eq _ n border h1 h257 hb, ← c1, ← c2]
  refine ⟨hd, ?_, ?_⟩
  · intro hfail
    simp only [main_step, hd]
    rw [if_neg]
    rintro ⟨_, _, hok⟩
    rw [hfail] at hok
    exact Bool.noConfusion hok
  · intro k hk hok
    have hpos : 0 < to_size_t iv := by rw [hk]; exact Nat.two_pow_pos k
    have hland : to_size_t iv &&& (to_size_t iv - 1) = 0 :=
      (land_pred_eq_zero_iff _ hpos).mpr ⟨k, hk⟩
    simp only [main_step, hd]
    rw [if_pos ⟨hpos, hland, hok⟩]

/-- The resize request at 4 sources with `difftile` set, border 1, hint 64. -/
theorem displayhint_requests_grid_witness :
    (5 = 4 + (if true then 1 else 0) ∧ 1 ≤ 5 ∧ 5 ≤ 257 ∧ to_size_t 64 + 1 < 2 ^ 32)
    ∧ displayhint_dims 4 1 true (to_size_t 64)
        = (Nat.ceil (Real.sqrt (5 : Nat)) * (to_size_t 64 + 1) - 1,
           Nat.ceil (((5 : Nat) : ℚ) / ((Nat.ceil (Real.sqrt (5 : Nat)) : Nat) : ℚ))
             * (to_size_t 64 + 1) - 1)
      ∧ ((fun (_ _ : Nat) => true) (Nat.ceil (Real.sqrt (5 : Nat)) * (to_size_t 64 + 1) - 1)
            (Nat.ceil (((5 : Nat) : ℚ) / ((Nat.ceil (Real.sqrt (5 : Nat)) : Nat) : ℚ))
              * (to_size_t 64 + 1) - 1) = false →
          main_step (fun _ _ => true) 4 1 true nav_init (.DISPLAYHINT 64) = nav_init)
      ∧ (∀ k, to_size_t 64 = 2 ^ k →
          (fun (_ _ : Nat) => true) (Nat.ceil (Real.sqrt (5 : Nat)) * (to_size_t 64 + 1) - 1)
            (Nat.ceil (((5 : Nat) : ℚ) / ((Nat.ceil (Real.sqrt (5 : Nat)) : Nat) : ℚ))
              * (to_size_t 64 + 1) - 1) = true →
          (main_step (fun _ _ => true) 4 1 true nav_init (.DISPLAYHINT 64)).base
            = to_size_t 64) :=
  ⟨⟨by decide, by decide, by decide, by decide⟩,
    displayhint_requests_grid (fun _ _ => true) 4 1 true nav_init 64 5 (by decide)
      (by decide) (by decide) (by decide)⟩

theorem displayhint_dims_at_64 :
    main_startup_dims 2 1 = (129, 64)
      ∧ displayhint_dims 2 1 true (to_size_t 64) = (129, 129)
      ∧ main_startup_dims 4 1 = (129, 129)
      ∧ displayhint_dims 4 1 true (to_size_t 64) = (194, 129) := by
  decide!

/-- C18 (the code departs from it): `difftile` is set whatever the options
are, and the resize branch then puts to `resize_base` one tile more than the
start-up call does, although `refresh_data` draws the same `n_ent` tiles on
either canvas.  For 2 sources with border 1 and base 64 the start-up canvas
is 129 by 64 (2 columns, 1 row) while a resize to the same base asks for 129
by 129 (the grid of 3 tiles, 2 rows); for 4 sources, 129 by 129 against 194
by 129. -/
theorem displayhint_grid_counts_diff_tile :
    (∀ opt_d, main_difftile opt_d = true)
      ∧ (∀ n_ent border lb opt_d,
          displayhint_dims n_ent border (main_difftile opt_d) lb
            = resize_base_dims lb (n_ent + 1) border)
      ∧ (∀ n_ent border, main_startup_dims n_ent border = resize_base_dims 64 n_ent border)
      ∧ main_startup_dims 2 1 = (129, 64)
      ∧ displayhint_dims 2 1 (main_difftile false) (to_size_t 64) = (129, 129)
      ∧ main_startup_dims 4 1 = (129, 129)
      ∧ displayhint_dims 4 1 (main_difftile false) (to_size_t 64) = (194, 129) := by
  have hd : ∀ opt_d, main_difftile opt_d = true := by
    intro o; cases o <;> rfl
  obtain ⟨a1, a2, a3, a4⟩ := displayhint_dims_at_64
  refine ⟨hd, ?_, fun _ _ => rfl, a1, ?_, a3, ?_⟩
  · intro n_ent border lb o
    rw [hd, displayhint_dims, if_pos rfl]
  · rw [hd]; exact a2
  · rw [hd]; exact a4

/-- Below 256 sources every mismatch count gives a positive green channel. -/
theorem green_pos (n k : Nat) (hk : 1 ≤ k) (hkn : k < n) (hn : n ≤ 255) :
    0 < scale255_to_int (f32_div k (f32_of_nat n)) := by
  rw [green_table n (by omega) k hkn hk]
  apply Nat.div_pos
  · have := Nat.mul_le_mul_left 255 hk
    omega
  · omega

theorem green_1_of_256 : scale255_to_int (f32_div 1 (f32_of_nat 256)) = 0 := by
  decide

/-- C19 (the code departs from it): 256 files pass the argument check, and
with 256 sources of which one differs from source 0 the binary32 product
`255.0 * (1 / 256)` converts to green 0, so the pixel stored is
`RGBA(0, 0, 0, 255)`, the match colour.  For up to 255 sources the green
channel of a mismatch is positive. -/
theorem draw_dtile_one_of_256_is_match :
    main_args_rejected 257 1 = false
    ∧ (ent.mk [1, 0] :: ent.mk [2, 0] :: List.replicate 254 (ent.mk [1, 0])).length = 256
    ∧ (draw_dtile_pxbuf .PACK_INTENS (pack_szlut .PACK_INTENS) 0
        (ent.mk [1, 0] :: ent.mk [2, 0] :: List.replicate 254 (ent.mk [1, 0]))).map mismatches
        = some 1
    ∧ (draw_dtile ⟨fun _ => color_border, 1, 1, 1⟩
        (ent.mk [1, 0] :: ent.mk [2, 0] :: List.replicate 254 (ent.mk [1, 0])) 0 0 0
        .PACK_INTENS 1).map (fun c => c.vidp 0) = some color_match
    ∧ (∀ n k, 1 ≤ k → k < n → n ≤ 255 → 0 < scale255_to_int (f32_div k (f32_of_nat n))) := by
  have hpx : draw_dtile_pxbuf .PACK_INTENS (pack_szlut .PACK_INTENS) 0
      (ent.mk [1, 0] :: ent.mk [2, 0] :: List.replicate 254 (ent.mk [1, 0]))
      = some (RGBA 1 1 1 255 :: RGBA 2 2 2 255 :: List.replicate 254 (RGBA 1 1 1 255)) := by
    rw [draw_dtile_pxbuf_map .PACK_INTENS _ 0
      (fun e => (draw_dtile_px .PACK_INTENS (pack_szlut .PACK_INTENS) 0 e).getD color_pad)]
    · simp only [List.map_cons, List.map_replicate]
      rfl
    · intro e he
      simp only [List.mem_cons, List.mem_replicate] at he
      rcases he with h | h | ⟨_, h⟩ <;> subst h <;> rfl
  have hlen : (ent.mk [1, 0] :: ent.mk [2, 0] :: List.replicate 254 (ent.mk [1, 0])).length
      = 256 := by
    rw [List.length_cons, List.length_cons, List.length_replicate]
  have hmis : mismatches (RGBA 1 1 1 255 :: RGBA 2 2 2 255
      :: List.replicate 254 (RGBA 1 1 1 255)) = 1 := by
    simp only [mismatches, List.countP_cons, List.countP_replicate]
    have h1 : decide (RGBA 2 2 2 255 ≠ RGBA 1 1 1 255) = true := by decide
    have h2 : decide (RGBA 1 1 1 255 ≠ RGBA 1 1 1 255) = false := by decide
    rw [h1, h2]
    rfl
  have hcnt : draw_dtile_count (RGBA 1 1 1 255 :: RGBA 2 2 2 255
      :: List.replicate 254 (RGBA 1 1 1 255)) = 1 := by
    rw [draw_dtile_count_eq_mismatches _ (by rw [hmis]; decide), hmis]
  obtain ⟨out, hout, _, hpk⟩ := draw_dtile_effect ⟨fun _ => color_border, 1, 1, 1⟩
    (ent.mk [1, 0] :: ent.mk [2, 0] :: List.replicate 254 (ent.mk [1, 0]))
    0 0 0 .PACK_INTENS 1 (by decide)
  have hval : draw_dtile_at .PACK_INTENS (pack_szlut .PACK_INTENS)
      (ent.mk [1, 0] :: ent.mk [2, 0] :: List.replicate 254 (ent.mk [1, 0])) 0
      = some (out.vidp 0) :=
    hpk (Nat.le_refl 1) 0 (by decide)
  have h1 := draw_dtile_at_of_pxbuf _ _ _ _ _ hpx
  rw [hlen, draw_dtile_color_of_count _ _ _ hcnt (by decide), green_1_of_256] at h1
  have h2 : out.vidp 0 = RGBA 0 0 0 255 := Option.some.inj (hval.symm.trans h1)
  refine ⟨by decide, hlen, ?_, ?_, green_pos⟩
  · rw [hpx, Option.map_some', hmis]
  · rw [hout, Option.map_some', h2]
    rfl

/-- In intensity mode a source that is padded at the window, or has the byte
0 there, contributes the pad colour to `pxbuf`. -/
theorem draw_dtile_px_pad_or_zero (p : Nat) (e : ent) (hp : p + 1 < SIZE_MOD)
    (h : p + 1 ≥ e.map_sz ∨ e.map[p]? = some 0) :
    draw_dtile_px .PACK_INTENS (pack_szlut .PACK_INTENS) p e = some color_pad := by
  have hs : pack_szlut .PACK_INTENS = 1 := rfl
  simp only [draw_dtile_px, hs, Nat.mod_eq_of_lt hp]
  by_cases hc : p + 1 ≥ e.map_sz
  · rw [if_pos hc]
  · rw [if_neg hc]
    rcases h with h | h
    · exact absurd h hc
    · have hlt : p < e.map.length := by
        simp only [ent.map_sz] at hc; omega
      have hget : e.map[p] = 0 := by
        rw [List.getElem?_eq_getElem hlt] at h
        exact Option.some.inj h
      rw [List.drop_eq_getElem_cons hlt, hget]
      rfl

/-- C20: in intensity mode (no size_t sum wrapping, a tile row fitting the
pitch) `draw_dtile` ends normally and stores the match colour at every tile
pixel at whose window each source either gets the pad colour
(`pos + 1 >= map_sz`) or holds the byte 0; the packed pixel of the byte 0 is
the pad colour `RGBA(0, 0, 0, 255)`. -/
theorem draw_dtile_pad_or_zero_match (dst : arcan_shmif_cont) (ents : List ent)
    (pos x y base : Nat) (hpitch : base ≤ dst.pitch)
    (hpos : pos + base * base * pack_szlut .PACK_INTENS < SIZE_MOD) :
    pack_pixel .PACK_INTENS [0] = some color_pad
      ∧ ∃ out, draw_dtile dst ents pos x y .PACK_INTENS base = some out
        ∧ ∀ k, k < base * base →
            (∀ e ∈ ents, pos + k + 1 ≥ e.map_sz ∨ e.map[pos + k]? = some 0) →
            out.vidp ((y + k / base) * dst.pitch + (x + k % base)) = color_match := by
  refine ⟨rfl, ?_⟩
  obtain ⟨out, hout, _, hpk⟩ := draw_dtile_effect dst ents pos x y .PACK_INTENS base hpos
  refine ⟨out, hout, fun k hk hall => ?_⟩
  have hs : pack_szlut .PACK_INTENS = 1 := rfl
  have hval := hpk hpitch k hk
  rw [hs, Nat.mul_one] at hval hpos
  have hk1 : pos + k + 1 < SIZE_MOD := by omega
  have hb : draw_dtile_pxbuf .PACK_INTENS 1 (pos + k) ents
      = some (ents.map (fun _ => color_pad)) :=
    draw_dtile_pxbuf_map .PACK_INTENS 1 (pos + k) (fun _ => color_pad) ents
      (fun e he => draw_dtile_px_pad_or_zero (pos + k) e hk1 (hall e he))
  rw [draw_dtile_at_of_pxbuf _ _ _ _ _ hb] at hval
  rw [← Option.some.inj hval]
  have hcount : draw_dtile_count (ents.map (fun _ => color_pad)) = 0 := by
    cases ents with
    | nil => rfl
    | cons e es =>
      simp only [List.map_cons, draw_dtile_count]
      apply draw_dtile_n_delta_same
      intro p hp
      simp only [List.mem_map] at hp
      obtain ⟨_, _, rfl⟩ := hp
      rfl
  simp only [draw_dtile_color, hcount, ne_eq, not_true_eq_false, if_false]

/-- C20 at a source of 3 bytes that has ended and one of 50 zero bytes,
offset 2, base 2. -/
theorem draw_dtile_pad_or_zero_match_witness :
    (2 ≤ (arcan_shmif_cont.mk (fun _ => color_border) 2 2 2).pitch
      ∧ 2 + 2 * 2 * pack_szlut .PACK_INTENS < SIZE_MOD)
    ∧ pack_pixel .PACK_INTENS [0] = some color_pad
      ∧ ∃ out, draw_dtile ⟨fun _ => color_border, 2, 2, 2⟩
            [⟨[7, 7, 7]⟩, ⟨List.replicate 50 0⟩] 2 0 0 .PACK_INTENS 2 = some out
        ∧ ∀ k, k < 2 * 2 →
            (∀ e ∈ [ent.mk [7, 7, 7], ent.mk (List.replicate 50 0)],
              2 + k + 1 ≥ e.map_sz ∨ e.map[2 + k]? = some 0) →
            out.vidp ((0 + k / 2) * (arcan_shmif_cont.mk (fun _ => color_border) 2 2 2).pitch
              + (0 + k % 2)) = color_match :=
  ⟨⟨by decide, by decide⟩,
    draw_dtile_pad_or_zero_match ⟨fun _ => color_border, 2, 2, 2⟩
      [⟨[7, 7, 7]⟩, ⟨List.replicate 50 0⟩] 2 0 0 2 (by decide) (by decide)⟩

end Mfile
